import Mathlib

/-!
# Angle-based classifier objective (`ABCFunc`) — a shallow embedding

The definitions below follow `src/angle_based_classifier.cpp` function by function.

* `double` is modelled by an arbitrary linearly ordered field `α` (exact arithmetic);
  theorems that need analysis are stated at `α = ℝ`, concrete evaluations at `α = ℚ` or `ℝ`.
* `size_t` is modelled by `Nat`, with sizes assumed representable.  The only subtractions
  in the source are `k_ - 1`, `iter + nsample_ - i - 1` and `first + per_worker - 1`; they
  are kept as truncated subtractions, which agree with the machine result whenever at least
  one sample is bound.  With no sample bound (`nsample_ = 0`, `k_ = 0`) the first use of a
  wrapped value is the bound of the second loop of `set_simplex_vertices`, which is
  modelled explicitly: `bind` fails there.
* Raw-pointer reads and writes are modelled by `Option`-returning list accesses: reading or
  writing outside a buffer yields `none`.
* The libm calls `sqrt`, `exp` and `pow` with a non-integral exponent are not part of the
  repository; they are taken as parameters (`Libm`).  `pow (x, 2)`, `pow (x, 3)` and
  `pow (x, -2)` are the exact integer powers.
* The `nthreads_` workers of one parallel section are run one after the other in launch
  order; they are joined before the section returns.
-/

namespace ABC

/-- The library functions the source calls (`sqrt`, `exp`, `pow` of libm and `std::stod`),
taken as parameters.  `stod` yields `none` where `std::stod` throws. -/
structure Libm (α : Type) where
  sqrt : α → α
  exp : α → α
  pow : α → α → α
  stod : List Char → Option α

/-- What the constructor can raise: the `throw` of the source for an unsupported kernel
type, an exception of `std::stod`, or a read past the end of the token vector `params`. -/
inductive CtorError where
  | unsupported_kernel
  | invalid_argument
  | out_of_range
  deriving DecidableEq, Repr

/-- The member-function pointer `func_`: which kernel was selected at construction. -/
inductive KernelFn where
  | rbf
  | poly
  deriving DecidableEq, Repr

/-- The raw dataset container (`Data`), stored column-wise. -/
structure Data (α : Type) where
  nsample : Nat
  cont : List (List α)
  ord : List (List Int)
  nom : List (List Int)
  act : List Int
  resp : List α
  prob : List α

/-- The member variables of `ABCFunc`. -/
structure ABCFunc (α : Type) where
  c_ : α
  thres_ : α
  lambda_ : α
  nthreads_ : Nat
  func_ : KernelFn
  sigma_ : α
  shift_ : α
  deg_ : α
  nsample_ : Nat
  ncont_ : Nat
  nord_ : Nat
  nnom_ : Nat
  nvar_ : Nat
  ncomp_ : Nat
  k_ : Nat
  uniq_act_ : List Int
  act_ : List Nat
  resp_ : List α
  w_ : List α
  wt_ : List α
  kmat_ : List α

section Defs

variable {α : Type} [LinearOrderedField α]

/-! ## Loss evaluator -/

/-- The function-local statics `c1`, `c2` of the four loss functions.  They belong to the
process, not to an evaluator: each pair is `none` until the first call of its function and is
never written again after that call has initialised it. -/
structure Statics (α : Type) where
  loss_p_c : Option (α × α)
  loss_m_c : Option (α × α)
  dloss_p_c : Option (α × α)
  dloss_m_c : Option (α × α)

/-- The statics at the start of the process: no loss function has been called. -/
def Statics.fresh : Statics α :=
  { loss_p_c := none, loss_m_c := none, dloss_p_c := none, dloss_m_c := none }

/-- The declaration `static double c1 = e1; static double c2 = e2;`: on the first call the
pair is initialised with the values of `e1`, `e2`, on a later call it is what it was. -/
def static_init (s : Option (α × α)) (e1 e2 : α) : α × α :=
  match s with
  | some c => c
  | none => (e1, e2)

/-- Source function `ABCFunc::loss_p`: the value returned and the statics after the call. -/
def loss_p (self : ABCFunc α) (x : α) (st : Statics α) : α × Statics α :=
  let c := static_init st.loss_p_c ((1 + self.c_) * (1 + self.c_)) (1 - self.c_ * self.c_)
  let retval := 1 - x
  (if x ≥ self.thres_ then 1 / (c.1 * x + c.2) else retval, { st with loss_p_c := some c })

/-- Source function `ABCFunc::loss_m`: the value returned and the statics after the call. -/
def loss_m (self : ABCFunc α) (x : α) (st : Statics α) : α × Statics α :=
  let c := static_init st.loss_m_c ((1 + self.c_) * (1 + self.c_)) (1 - self.c_ * self.c_)
  let retval := 1 + x
  (if -x ≥ self.thres_ then 1 / (c.2 - c.1 * x) else retval, { st with loss_m_c := some c })

/-- Source function `ABCFunc::dloss_p`: the value returned and the statics after the call. -/
def dloss_p (self : ABCFunc α) (x : α) (st : Statics α) : α × Statics α :=
  let c := static_init st.dloss_p_c (1 + self.c_) (1 - self.c_)
  let retval := -1
  (if x ≥ self.thres_ then (c.1 * x + c.2) ^ (-2 : ℤ) else retval,
    { st with dloss_p_c := some c })

/-- Source function `ABCFunc::dloss_m`: the value returned and the statics after the call. -/
def dloss_m (self : ABCFunc α) (x : α) (st : Statics α) : α × Statics α :=
  let c := static_init st.dloss_m_c (1 + self.c_) (1 - self.c_)
  let retval := 1
  (if -x ≥ self.thres_ then (c.2 - c.1 * x) ^ (-2 : ℤ) else retval,
    { st with dloss_m_c := some c })

/-! ## Construction and binding -/

/-- Reading of `std::istream_iterator<std::string>`: the whitespace-separated tokens. -/
def tokens_aux : List Char → List Char → List (List Char)
  | [], cur => if cur = [] then [] else [cur.reverse]
  | ch :: rest, cur =>
    if ch = ' ' ∨ ch = '\t' ∨ ch = '\n' ∨ ch = '\r' ∨ ch.toNat = 11 ∨ ch.toNat = 12 then
      (if cur = [] then tokens_aux rest [] else cur.reverse :: tokens_aux rest [])
    else tokens_aux rest (ch :: cur)

/-- The members as `ABCFunc::ABCFunc` has set them before it reads the kernel string; the
members it has not assigned yet are zero or empty. -/
def ABCFunc.init (hardware_concurrency : Nat) (c lambda : α) (nthreads : Nat) : ABCFunc α :=
  { c_ := c, thres_ := c / (1 + c), lambda_ := lambda,
    nthreads_ := min nthreads hardware_concurrency,
    func_ := KernelFn.rbf, sigma_ := 0, shift_ := 0, deg_ := 0,
    nsample_ := 0, ncont_ := 0, nord_ := 0, nnom_ := 0, nvar_ := 0, ncomp_ := 0,
    k_ := 0, uniq_act_ := [], act_ := [], resp_ := [], w_ := [], wt_ := [], kmat_ := [] }

/-- Source function `ABCFunc::ABCFunc`.  `hardware_concurrency` is the value the platform reports. -/
def ABCFunc.ctor (m : Libm α) (hardware_concurrency : Nat) (c lambda : α)
    (kernel : List Char) (nthreads : Nat) : Except CtorError (ABCFunc α) :=
  let self : ABCFunc α := ABCFunc.init hardware_concurrency c lambda nthreads
  let kernel := kernel.map Char.toUpper
  let params := tokens_aux kernel []
  match params[0]? with
  | none => Except.error CtorError.out_of_range
  | some p0 =>
    if p0 = ['R', 'B', 'F'] then
      match params[1]? with
      | none => Except.error CtorError.out_of_range
      | some p1 =>
        match m.stod p1 with
        | none => Except.error CtorError.invalid_argument
        | some sigma =>
          Except.ok { self with func_ := KernelFn.rbf, sigma_ := -1 / 2 / sigma / sigma }
    else if p0 = ['P', 'O', 'L', 'Y'] then
      match params[1]? with
      | none => Except.error CtorError.out_of_range
      | some p1 =>
        match m.stod p1 with
        | none => Except.error CtorError.invalid_argument
        | some shift =>
          match params[2]? with
          | none => Except.error CtorError.out_of_range
          | some p2 =>
            match m.stod p2 with
            | none => Except.error CtorError.invalid_argument
            | some deg =>
              Except.ok { self with func_ := KernelFn.poly, shift_ := shift, deg_ := deg }
    else Except.error CtorError.unsupported_kernel

/-- Library call `std::set<int>::insert`: the set is kept as a strictly increasing list. -/
def set_insert (v : Int) : List Int → List Int
  | [] => [v]
  | a :: rest =>
    if v < a then v :: a :: rest
    else if v = a then a :: rest
    else a :: set_insert v rest

/-- Lookup `reverse_map[v]` in the value-to-rank table; `operator[]` yields `0` for a key
that is absent. -/
def map_lookup (v : Int) : List (Int × Nat) → Nat
  | [] => 0
  | (a, r) :: rest => if a = v then r else map_lookup v rest

/-- Library call `std::vector::resize`: keep the first `n` entries, pad with zeros. -/
def resize {β : Type} [Zero β] (l : List β) (n : Nat) : List β :=
  l.take n ++ List.replicate (n - l.length) 0

/-- The store `l[i] = v` through a raw pointer or unchecked `operator[]`. -/
def store {β : Type} (l : List β) (i : Nat) (v : β) : Option (List β) :=
  if i < l.length then some (l.set i v) else none

/-- Source function `ABCFunc::parse_actions`. -/
def parse_actions (self : ABCFunc α) (act : List Int) : Option (ABCFunc α) := do
  let uniq := act.foldl (fun s v => set_insert v s) self.uniq_act_
  let k := uniq.length
  let reverse_map := uniq.zip (List.range' 0 uniq.length)
  let ranks ← (List.range' 0 self.nsample_).foldlM
    (fun ranks i => (act[i]?).bind (fun a => store ranks i (map_lookup a reverse_map)))
    (resize self.act_ self.nsample_)
  pure { self with uniq_act_ := uniq, k_ := k, act_ := ranks }

/-- Source function `ABCFunc::scale_response`. -/
def scale_response (self : ABCFunc α) (resp prob : List α) : Option (ABCFunc α) := do
  let rs ← (List.range' 0 self.nsample_).foldlM
    (fun rs i => (resp[i]?).bind (fun r => (prob[i]?).bind (fun p => store rs i (r / p))))
    (resize self.resp_ self.nsample_)
  pure { self with resp_ := rs }

/-- Library call `std::fill (l.begin() + a, l.begin() + b, v)`; `none` when the range leaves the buffer. -/
def fill (l : List α) (a b : Nat) (v : α) : Option (List α) :=
  if a ≤ b ∧ b ≤ l.length then some (l.take a ++ List.replicate (b - a) v ++ l.drop b)
  else none

/-- The local `c1 = 1.0 / sqrt(k_ - 1)` of `set_simplex_vertices`. -/
def simplex_c1 (m : Libm α) (k : Nat) : α := 1 / m.sqrt ((k - 1 : Nat) : α)

/-- The local `c2 = - (1 + sqrt(k_)) * pow(c1, 3)` of `set_simplex_vertices`. -/
def simplex_c2 (m : Libm α) (k : Nat) : α := - (1 + m.sqrt (k : α)) * simplex_c1 m k ^ 3

/-- The local `c3 = sqrt(k_) * c1` of `set_simplex_vertices`. -/
def simplex_c3 (m : Libm α) (k : Nat) : α := m.sqrt (k : α) * simplex_c1 m k

/-- Source function `ABCFunc::set_simplex_vertices`.  For `k_ = 0` the unsigned bound
`k_ - 1` of the second loop wraps around and its first store `wt_[0] = c1` leaves the empty
buffer. -/
def set_simplex_vertices (m : Libm α) (self : ABCFunc α) : Option (ABCFunc α) := do
  let k := self.k_
  let sz := k * (k - 1)
  let w := resize self.w_ sz
  let wt := resize self.wt_ sz
  let c1 : α := simplex_c1 m k
  let c2 : α := simplex_c2 m k
  let c3 : α := simplex_c3 m k
  let w ← fill w 0 k c1
  let w ← fill w k sz c2
  let w ← (List.range' 1 (k - 1)).foldlM
    (fun w j => (w[j * k - 1]?).bind (fun old => store w (j * k - 1) (old + c3))) w
  let wt ← fill wt 0 sz c2
  let wt ← (if k = 0 then none else
    (List.range' 0 (k - 1)).foldlM
      (fun wt j => do
        let wt ← store wt (j * k) c1
        let old ← wt[j * k + j + 1]?
        store wt (j * k + j + 1) (old + c3)) wt)
  pure { self with w_ := w, wt_ := wt }

/-- Coordinate `j` of row `r` of `w_` read as `k` rows of `k - 1` coordinates, the layout in
which `loss_worker` reads it (`w_[r * (k_ - 1) + j]`). -/
def W_entry (w : List α) (k r j : Nat) : α := w.getD (r * (k - 1) + j) 0

/-- The sum of the coordinates of row `r` of `w_`. -/
def W_row_sum (w : List α) (k r : Nat) : α :=
  Finset.sum (Finset.range (k - 1)) (fun j => W_entry w k r j)

/-- The squared distance between rows `r` and `s` of `w_`. -/
def W_sq_dist (w : List α) (k r s : Nat) : α :=
  Finset.sum (Finset.range (k - 1)) (fun j => (W_entry w k r j - W_entry w k s j) ^ 2)

/-- The regular simplex property of the rows of `w_`: all rows have the same coordinate sum
and all pairs of distinct rows are at the same squared distance. -/
def regular_simplex_rows (w : List α) (k : Nat) : Prop :=
  (∃ c, ∀ r, r < k → W_row_sum w k r = c) ∧
  (∃ d, ∀ r s, r < k → s < k → r ≠ s → W_sq_dist w k r s = d)

/-- Entry of axis `a` and class `c` of `wt_` read as `k - 1` rows (axes) of `k` entries
(`wt_[a * k_ + c]`). -/
def Wt_entry (wt : List α) (k a c : Nat) : α := wt.getD (a * k + c) 0

/-- The sum of the entries of row (axis) `a` of `wt_`. -/
def Wt_row_sum (wt : List α) (k a : Nat) : α :=
  Finset.sum (Finset.range k) (fun c => Wt_entry wt k a c)

/-- The squared distance between columns (class vertices) `c` and `d` of `wt_`. -/
def Wt_col_sq_dist (wt : List α) (k c d : Nat) : α :=
  Finset.sum (Finset.range (k - 1)) (fun a => (Wt_entry wt k a c - Wt_entry wt k a d) ^ 2)

/-! ## Kernel engine -/

/-- Library call `std::inner_product (a + first1, a + last1, b + first2, init)` with the addition as the
outer operation and `op2` as the inner one. -/
def inner_product_with (op2 : α → α → α) (a : List α) (first1 last1 : Nat) (b : List α)
    (first2 : Nat) (init : α) : Option α :=
  (List.range' 0 (last1 - first1)).foldlM
    (fun acc t => (a[first1 + t]?).bind (fun u => (b[first2 + t]?).map (fun v => acc + op2 u v)))
    init

/-- Library call `std::inner_product` with its default operations. -/
def inner_product (a : List α) (first1 last1 : Nat) (b : List α) (first2 : Nat) (init : α) :
    Option α :=
  inner_product_with (fun u v => u * v) a first1 last1 b first2 init

/-- Library call `std::equal_to<>` converted to `double`. -/
def equal_to (u v : α) : α := if u = v then 1 else 0

/-- Source function `ABCFunc::rbf`. -/
def rbf (m : Libm α) (self : ABCFunc α) (d : List α) (i j : Nat) : Option α := do
  let di := i * self.nvar_
  let dj := j * self.nvar_
  let r ← (List.range' 0 self.ncomp_).foldlM
    (fun r k => (d[di + k]?).bind (fun a => (d[dj + k]?).map (fun b => r + (a - b) ^ 2))) (0 : α)
  let r ← (List.range' self.ncomp_ (self.nvar_ - self.ncomp_)).foldlM
    (fun r k => (d[di + k]?).bind (fun a => (d[dj + k]?).map (fun b => r + equal_to a b))) r
  pure (m.exp (r * self.sigma_))

/-- Source function `ABCFunc::poly`. -/
def poly (m : Libm α) (self : ABCFunc α) (d : List α) (i j : Nat) : Option α := do
  let di := i * self.nvar_
  let dj := j * self.nvar_
  let r1 ← inner_product d di (di + self.ncomp_) d dj 0
  let r2 ← inner_product_with equal_to d (di + self.ncomp_) (di + self.nvar_) d
    (dj + self.ncomp_) 0
  pure (m.pow (r1 + r2 + self.shift_) self.deg_)

/-- The call `(this->*func_)(d, i, j)`. -/
def call_func (m : Libm α) (self : ABCFunc α) (d : List α) (i j : Nat) : Option α :=
  match self.func_ with
  | KernelFn.rbf => rbf m self d i j
  | KernelFn.poly => poly m self d i j

/-- The `while (iter <= bound)` loop of `kernel_worker` in row `i`, entered with `iter = j`:
`iter` runs through `j, j + 1, ..., bound`. -/
def kernel_worker_while (m : Libm α) (self : ABCFunc α) (d : List α) (first i j bound : Nat)
    (kmat : List α) : Option (List α) :=
  (List.range' j (bound + 1 - j)).foldlM
    (fun kmat iter =>
      if iter ≥ first then do
        let k := i + iter - j
        let v ← call_func m self d i k
        let kmat ← store kmat (i * self.nsample_ + k) v
        store kmat (k * self.nsample_ + i) v
      else pure kmat)
    kmat

/-- The `for (i = 0; i < nsample_; ++i)` loop of `kernel_worker`, with `rows` iterations
left, at row `i` and rank `iter`. -/
def kernel_worker_rows (m : Libm α) (self : ABCFunc α) (d : List α) (first last : Nat) :
    Nat → Nat → Nat → List α → Option (List α)
  | 0, _, _, kmat => some kmat
  | rows + 1, i, iter, kmat =>
    let bound := iter + self.nsample_ - i - 1
    if bound < first then
      kernel_worker_rows m self d first last rows (i + 1) (bound + 1) kmat
    else if last ≥ iter then
      let bound := min last bound
      let j := iter
      (kernel_worker_while m self d first i j bound kmat).bind (fun kmat =>
        let iter := max iter (bound + 1)
        if iter > last then some kmat
        else kernel_worker_rows m self d first last rows (i + 1) iter kmat)
    else kernel_worker_rows m self d first last rows (i + 1) iter kmat

/-- The rank range `[first, last]` of `kernel_worker`. -/
def kernel_range (self : ABCFunc α) (tid : Nat) : Nat × Nat :=
  let total := self.nsample_ * (self.nsample_ + 1) / 2
  let per_worker := total / self.nthreads_
  let remainder := total % self.nthreads_
  if tid < remainder then
    let first := (per_worker + 1) * tid
    (first, first + per_worker)
  else
    let first := per_worker * tid + remainder
    (first, first + per_worker - 1)

/-- Source function `ABCFunc::kernel_worker`, acting on `kmat_`. -/
def kernel_worker (m : Libm α) (self : ABCFunc α) (d : List α) (tid : Nat) (kmat : List α) :
    Option (List α) :=
  let r := kernel_range self tid
  kernel_worker_rows m self d r.1 r.2 self.nsample_ 0 0 kmat

/-- The kernel evaluations of the `while` loop of `kernel_worker` in row `i`, in the order
of execution: one triple `(iter, i, k)` for every pass in which `iter >= first` holds. -/
def kernel_worker_while_cells (first i j bound : Nat) : List (Nat × Nat × Nat) :=
  ((List.range' j (bound + 1 - j)).filter (fun iter => decide (iter ≥ first))).map
    (fun iter => (iter, i, i + iter - j))

/-- The kernel evaluations of the row loop of `kernel_worker` for `n = nsample_`, with
`rows` iterations left, at row `i` and rank `iter`. -/
def kernel_worker_rows_cells (n first last : Nat) :
    Nat → Nat → Nat → List (Nat × Nat × Nat)
  | 0, _, _ => []
  | rows + 1, i, iter =>
    let bound := iter + n - i - 1
    if bound < first then
      kernel_worker_rows_cells n first last rows (i + 1) (bound + 1)
    else if last ≥ iter then
      let bound := min last bound
      let j := iter
      kernel_worker_while_cells first i j bound ++
        (let iter := max iter (bound + 1)
         if iter > last then []
         else kernel_worker_rows_cells n first last rows (i + 1) iter)
    else kernel_worker_rows_cells n first last rows (i + 1) iter

/-- The kernel evaluations of the call `kernel_worker (d, tid)`: the triples
`(rank, i, k)` of the cells it evaluates, in the order of execution. -/
def kernel_worker_cells (self : ABCFunc α) (tid : Nat) : List (Nat × Nat × Nat) :=
  let r := kernel_range self tid
  kernel_worker_rows_cells self.nsample_ r.1 r.2 self.nsample_ 0 0

/-- The body of the `while` loop of `kernel_worker` for one evaluated cell. -/
def kernel_cell_step (m : Libm α) (self : ABCFunc α) (d : List α) (kmat : List α)
    (c : Nat × Nat × Nat) : Option (List α) := do
  let v ← call_func m self d c.2.1 c.2.2
  let kmat ← store kmat (c.2.1 * self.nsample_ + c.2.2) v
  store kmat (c.2.2 * self.nsample_ + c.2.1) v

/-- One of the three column-copying loops of `compute_kernel_matrix`: column `i` of `cols`
goes to column `off + i` of the row-major buffer `temp` (`iter` is `off + i + j * nvar_`). -/
def copy_columns (self : ABCFunc α) (cols : List (List α)) (count off : Nat) (temp : List α) :
    Option (List α) :=
  (List.range' 0 count).foldlM
    (fun temp i => (cols[i]?).bind (fun col =>
      (List.range' 0 self.nsample_).foldlM
        (fun temp j => (col[j]?).bind (fun v => store temp (off + i + j * self.nvar_) v))
        temp))
    temp

/-- The row-major feature buffer `temp` of `compute_kernel_matrix`. -/
def feature_matrix (self : ABCFunc α) (data : Data α) : Option (List α) := do
  let temp : List α := List.replicate (self.nsample_ * self.nvar_) 0
  let temp ← copy_columns self data.cont self.ncont_ 0 temp
  let temp ← copy_columns self (data.ord.map (fun col => List.map (fun v : Int => (v : α)) col))
    self.nord_ self.ncont_ temp
  copy_columns self (data.nom.map (fun col => List.map (fun v : Int => (v : α)) col))
    self.nnom_ (self.ncont_ + self.nord_) temp

/-- Source function `ABCFunc::compute_kernel_matrix`. -/
def compute_kernel_matrix (m : Libm α) (self : ABCFunc α) (data : Data α) :
    Option (ABCFunc α) := do
  let d ← feature_matrix self data
  let kmat := resize self.kmat_ (self.nsample_ * self.nsample_)
  let kmat ← (List.range' 0 self.nthreads_).foldlM (fun kmat tid => kernel_worker m self d tid kmat)
    kmat
  pure { self with kmat_ := kmat }

/-- The first six assignments of `ABCFunc::bind`: the dimensions read from the dataset. -/
def bind_dims (self : ABCFunc α) (data : Data α) : ABCFunc α :=
  { self with
    nsample_ := data.nsample, ncont_ := data.cont.length, nord_ := data.ord.length,
    nnom_ := data.nom.length,
    nvar_ := data.cont.length + data.ord.length + data.nom.length,
    ncomp_ := data.cont.length + data.ord.length }

/-- Source function `ABCFunc::bind`. -/
def bind (m : Libm α) (self : ABCFunc α) (data : Data α) : Option (ABCFunc α) := do
  let self := bind_dims self data
  let self ← parse_actions self data.act
  let self ← scale_response self data.resp data.prob
  let self ← set_simplex_vertices m self
  compute_kernel_matrix m self data

/-- The ways a call can end without a result: an exception the code throws, or an access
outside a buffer, which the language leaves undefined. -/
inductive Fault where
  | thrown (e : CtorError)
  | out_of_bounds
  deriving DecidableEq

/-- Outcome of `ABCFunc::bind`.  Neither `bind` nor a function it calls contains a `throw`
statement or a test of `k_`, so the only fault of `bind` is an access outside a buffer. -/
def bind_outcome (m : Libm α) (self : ABCFunc α) (data : Data α) :
    Except Fault (ABCFunc α) :=
  match ABC.bind m self data with
  | some self => Except.ok self
  | none => Except.error Fault.out_of_bounds

/-- Rank of the diagonal cell `(i, i)` in the row-major enumeration of the upper triangle
of an `n × n` matrix (the value of `iter` when `kernel_worker` enters row `i`). -/
def tri_start (n : Nat) : Nat → Nat
  | 0 => 0
  | i + 1 => tri_start n i + (n - i)

/-- Cell `(a, b)` of the `n × n` buffer `km` holds the kernel value of the pair, which
`kernel_worker` evaluates as `func_(d, min a b, max a b)`. -/
def cell_done (val : Nat → Nat → α) (n : Nat) (km : List α) (a b : Nat) : Prop :=
  km[a * n + b]? = some (val (min a b) (max a b))

/-- The dataset is well formed: every column and every per-sample array has `nsample`
entries. -/
def Data.wf (data : Data α) : Bool :=
  data.cont.all (fun col => col.length == data.nsample) &&
  data.ord.all (fun col => col.length == data.nsample) &&
  data.nom.all (fun col => col.length == data.nsample) &&
  (data.act.length == data.nsample) && (data.resp.length == data.nsample) &&
  (data.prob.length == data.nsample)

/-- The dimension members hold what `bind` reads from the dataset. -/
def dims_bound (self : ABCFunc α) (data : Data α) : Prop :=
  self.nsample_ = data.nsample ∧ self.ncont_ = data.cont.length ∧
  self.nord_ = data.ord.length ∧ self.nnom_ = data.nom.length ∧
  self.nvar_ = data.cont.length + data.ord.length + data.nom.length ∧
  self.ncomp_ = data.cont.length + data.ord.length

/-- Feature `c` of sample `i`: the continuous columns first, then the ordinal and the nominal
ones, cast to reals. -/
def Data.feature (data : Data α) (i c : Nat) : α :=
  if c < data.cont.length then (data.cont.getD c []).getD i 0
  else if c < data.cont.length + data.ord.length then
    (((data.ord.getD (c - data.cont.length) []).getD i 0 : Int) : α)
  else (((data.nom.getD (c - (data.cont.length + data.ord.length)) []).getD i 0 : Int) : α)

/-- The kernel of samples `i` and `j` in the words of the specification:
RBF `exp(σ_coef · (Σ_cont,ord (d_ik − d_jk)² + Σ_nom 1[d_ik = d_jk]))`,
polynomial `(dot + matches + shift)^degree`. -/
def kernel_spec (m : Libm α) (self : ABCFunc α) (data : Data α) (i j : Nat) : α :=
  let ncomp := data.cont.length + data.ord.length
  let nnom := data.nom.length
  match self.func_ with
  | KernelFn.rbf =>
    m.exp (self.sigma_ *
      (Finset.sum (Finset.range ncomp) (fun c => (data.feature i c - data.feature j c) ^ 2) +
        Finset.sum (Finset.range nnom)
          (fun c => if data.feature i (ncomp + c) = data.feature j (ncomp + c) then 1 else 0)))
  | KernelFn.poly =>
    m.pow
      (Finset.sum (Finset.range ncomp) (fun c => data.feature i c * data.feature j c) +
        Finset.sum (Finset.range nnom)
          (fun c => if data.feature i (ncomp + c) = data.feature j (ncomp + c) then 1 else 0) +
        self.shift_)
      self.deg_

/-! ## Objective evaluator -/

/-- The sample range `[first, last)` of `loss_worker`. -/
def loss_range (self : ABCFunc α) (tid : Nat) : Nat × Nat :=
  let per_worker := self.nsample_ / self.nthreads_
  let remainder := self.nsample_ % self.nthreads_
  if tid < remainder then
    let first := (per_worker + 1) * tid
    (first, first + per_worker + 1)
  else
    let first := per_worker * tid + remainder
    (first, first + per_worker)

/-- The body of the sample loop of `loss_worker`: the value stored in `u[i]`. -/
def loss_sample (self : ABCFunc α) (x : List α) (i : Nat) : Option α := do
  let rank ← self.act_[i]?
  let w := rank * (self.k_ - 1)
  let row := i * self.nsample_
  let proj ← (List.range' 0 (self.k_ - 1)).foldlM
    (fun proj j => do
      let j1 := j * (self.nsample_ + 1)
      let j2 := j1 + (self.nsample_ + 1)
      let x0 ← x[j1]?
      let v ← inner_product x (j1 + 1) j2 self.kmat_ row x0
      store proj j v)
    (List.replicate (self.k_ - 1) (0 : α))
  inner_product self.w_ w (w + self.k_ - 1) proj 0 0

/-- Source function `ABCFunc::loss_worker`, acting on `u`. -/
def loss_worker (self : ABCFunc α) (tid : Nat) (x u : List α) : Option (List α) :=
  let r := loss_range self tid
  (List.range' r.1 (r.2 - r.1)).foldlM
    (fun u i => (loss_sample self x i).bind (fun v => store u i v)) u

/-- Source function `ABCFunc::compute_loss`. -/
def compute_loss (self : ABCFunc α) (x : List α) : Option (List α) :=
  (List.range' 0 self.nthreads_).foldlM (fun u tid => loss_worker self tid x u)
    (List.replicate self.nsample_ (0 : α))

/-- The index range `[first, last)` of `grad_worker`. -/
def grad_range (self : ABCFunc α) (tid : Nat) : Nat × Nat :=
  let total := (self.nsample_ + 1) * (self.k_ - 1)
  let per_worker := total / self.nthreads_
  let remainder := self.nsample_ % self.nthreads_
  if tid < remainder then
    let first := (per_worker + 1) * tid
    (first, first + per_worker + 1)
  else
    let first := per_worker * tid + remainder
    (first, first + per_worker)

/-- The body of the index loop of `grad_worker`: the value left in `g[i]`. -/
def grad_entry (self : ABCFunc α) (du : List α) (i : Nat) : Option α :=
  let q := i / (self.nsample_ + 1)
  let p := i % (self.nsample_ + 1)
  let wt := q * self.k_
  if p = 0 then
    inner_product self.w_ wt (wt + self.k_) du 0 0
  else
    let row := p * self.nsample_
    (List.range' 0 self.nsample_).foldlM
      (fun gi j => do
        let a ← du[j]?
        let b ← self.kmat_[row + j]?
        let c ← self.w_[wt + j]?
        pure (gi + a * b * c))
      (0 : α)

/-- Source function `ABCFunc::grad_worker`, acting on `g`. -/
def grad_worker (self : ABCFunc α) (tid : Nat) (du g : List α) : Option (List α) :=
  let r := grad_range self tid
  (List.range' r.1 (r.2 - r.1)).foldlM
    (fun g i =>
      let p := i % (self.nsample_ + 1)
      if p = 0 then (grad_entry self du i).bind (fun v => store g i v)
      else (store g i 0).bind (fun g => (grad_entry self du i).bind (fun v => store g i v)))
    g

/-- The loop `f += fabs (resp_[i]) * (resp_[i] > 0 ? loss_p (u[i]) : loss_m (u[i]))`. -/
def eval_value_loop (self : ABCFunc α) (u : List α) (st : Statics α) :
    Option (α × Statics α) :=
  (List.range' 0 self.nsample_).foldlM
    (fun (s : α × Statics α) i => do
      let r ← self.resp_[i]?
      let ui ← u[i]?
      let l := if r > 0 then loss_p self ui s.2 else loss_m self ui s.2
      pure (s.1 + |r| * l.1, l.2))
    ((0 : α), st)

/-- The loop `du[i] = (resp_[i] > 0 ? dloss_p (u[i]) : dloss_m (u[i]))`. -/
def eval_du_loop (self : ABCFunc α) (u : List α) (st : Statics α) :
    Option (List α × Statics α) :=
  (List.range' 0 self.nsample_).foldlM
    (fun (s : List α × Statics α) i => do
      let r ← self.resp_[i]?
      let ui ← u[i]?
      let d := if r > 0 then dloss_p self ui s.2 else dloss_m self ui s.2
      let du ← store s.1 i d.1
      pure (du, d.2))
    (List.replicate self.nsample_ (0 : α), st)

/-- The parallel section of the gradient evaluations: all `grad_worker` calls. -/
def grad_section (self : ABCFunc α) (du g : List α) : Option (List α) :=
  (List.range' 0 self.nthreads_).foldlM (fun g tid => grad_worker self tid du g) g

/-- Source function `ABCFunc::eval (x, f)`: the value-only evaluation, started with the
statics `st`; it returns `f` and the statics after the call. -/
def eval_f (self : ABCFunc α) (x : List α) (st : Statics α) : Option (α × Statics α) := do
  let u ← compute_loss self x
  eval_value_loop self u st

/-- Source function `ABCFunc::eval (x, g)`: the gradient-only evaluation; `g` is the buffer
of the caller.  It returns the buffer and the statics after the call. -/
def eval_g (self : ABCFunc α) (x g : List α) (st : Statics α) :
    Option (List α × Statics α) := do
  let u ← compute_loss self x
  let s ← eval_du_loop self u st
  let g ← grad_section self s.1 g
  pure (g, s.2)

/-- The loop of `eval (x, f, g)`: the statement of the value loop followed by the statement
of the derivative loop. -/
def eval_fused_loop (self : ABCFunc α) (u : List α) (st : Statics α) :
    Option (α × List α × Statics α) :=
  (List.range' 0 self.nsample_).foldlM
    (fun (s : α × List α × Statics α) i => do
      let r ← self.resp_[i]?
      let ui ← u[i]?
      let l := if r > 0 then loss_p self ui s.2.2 else loss_m self ui s.2.2
      let d := if r > 0 then dloss_p self ui l.2 else dloss_m self ui l.2
      let du ← store s.2.1 i d.1
      pure (s.1 + |r| * l.1, du, d.2))
    ((0 : α), List.replicate self.nsample_ (0 : α), st)

/-- Source function `ABCFunc::eval (x, f, g)`: value and gradient in one pass.  The reference
`f` holds its final value before the gradient workers are started, so the result keeps `f`
and gives the outcome of the parallel section on `g` separately (`none` when a worker leaves
a buffer). -/
def eval_fg (self : ABCFunc α) (x g : List α) (st : Statics α) :
    Option (α × Option (List α) × Statics α) := do
  let u ← compute_loss self x
  let s ← eval_fused_loop self u st
  pure (s.1, grad_section self s.2.1 g, s.2.2)

/-! ## The objective in the words of the specification -/

/-- The number of classes `parse_actions` finds: the size of `uniq_act_` after the raw
labels `act` have been inserted into its previous content `uniq`. -/
def class_count (uniq : List Int) (act : List Int) : Nat :=
  (act.foldl (fun s v => set_insert v s) uniq).length

/-- The buffers of a bound evaluator have the sizes `bind` gives them and every class rank
is below `k_`. -/
def bound_state (self : ABCFunc α) : Prop :=
  self.act_.length = self.nsample_ ∧ (∀ r ∈ self.act_, r < self.k_) ∧
  self.resp_.length = self.nsample_ ∧
  self.w_.length = self.k_ * (self.k_ - 1) ∧ self.wt_.length = self.k_ * (self.k_ - 1) ∧
  self.kmat_.length = self.nsample_ * self.nsample_

/-- The alignment score of sample `i`:
`u_i = Σ_{j<k-1} W[rank_i (k-1) + j] · (x[j(n+1)] + Σ_{r<n} K[i,r] · x[j(n+1) + 1 + r])`. -/
def alignment_spec (self : ABCFunc α) (x : List α) (i : Nat) : α :=
  Finset.sum (Finset.range (self.k_ - 1)) (fun j =>
    self.w_.getD (self.act_.getD i 0 * (self.k_ - 1) + j) 0 *
      (x.getD (j * (self.nsample_ + 1)) 0 +
        Finset.sum (Finset.range self.nsample_) (fun r =>
          self.kmat_.getD (i * self.nsample_ + r) 0 *
            x.getD (j * (self.nsample_ + 1) + 1 + r) 0)))

/-- The objective value, with the loss functions of the code called with the statics `st`:
`f = Σ_{i<n} |resp_i| · (loss_p(u_i) if resp_i > 0 else loss_m(u_i))`. -/
def objective_spec (self : ABCFunc α) (x : List α) (st : Statics α) : α :=
  Finset.sum (Finset.range self.nsample_) (fun i =>
    |self.resp_.getD i 0| *
      (if self.resp_.getD i 0 > 0 then (loss_p self (alignment_spec self x i) st).1
        else (loss_m self (alignment_spec self x i) st).1))

/-- The term of sample `i` in the objective value when its alignment score is `u i`. -/
def value_term (self : ABCFunc α) (st : Statics α) (u : Nat → α) (i : Nat) : α :=
  |self.resp_.getD i 0| *
    (if self.resp_.getD i 0 > 0 then (loss_p self (u i) st).1 else (loss_m self (u i) st).1)

/-- The derivative weight `du_i` of sample `i` when its alignment score is `u i`. -/
def du_term (self : ABCFunc α) (st : Statics α) (u : Nat → α) (i : Nat) : α :=
  if self.resp_.getD i 0 > 0 then (dloss_p self (u i) st).1 else (dloss_m self (u i) st).1

/-- The loss `loss_p` of the specification for the constants `c = c_`, `θ = thres_` of the
evaluator: `1 − u` for `u < θ` and `1 / ((1 + c)² u + (1 − c²))` for `u ≥ θ`. -/
def loss_p_spec (self : ABCFunc α) (x : α) : α :=
  let c1 := (1 + self.c_) * (1 + self.c_)
  let c2 := 1 - self.c_ * self.c_
  let retval := 1 - x
  if x ≥ self.thres_ then 1 / (c1 * x + c2) else retval

/-- The loss `loss_m` of the specification: `1 + u` for `−u < θ` and
`1 / ((1 − c²) − (1 + c)² u)` for `−u ≥ θ`. -/
def loss_m_spec (self : ABCFunc α) (x : α) : α :=
  let c1 := (1 + self.c_) * (1 + self.c_)
  let c2 := 1 - self.c_ * self.c_
  let retval := 1 + x
  if -x ≥ self.thres_ then 1 / (c2 - c1 * x) else retval

/-- The function `dloss_p` of the specification: `−1` for `u < θ` and
`((1 + c) u + (1 − c)) ^ (−2)` for `u ≥ θ`. -/
def dloss_p_spec (self : ABCFunc α) (x : α) : α :=
  let c1 := 1 + self.c_
  let c2 := 1 - self.c_
  let retval := -1
  if x ≥ self.thres_ then (c1 * x + c2) ^ (-2 : ℤ) else retval

/-- The function `dloss_m` of the specification: `1` for `−u < θ` and
`((1 − c) − (1 + c) u) ^ (−2)` for `−u ≥ θ`. -/
def dloss_m_spec (self : ABCFunc α) (x : α) : α :=
  let c1 := 1 + self.c_
  let c2 := 1 - self.c_
  let retval := 1
  if -x ≥ self.thres_ then (c2 - c1 * x) ^ (-2 : ℤ) else retval

/-- The statics `s` hold the same constants as the statics `st` for calls made by the
evaluator `self`: each pair of `s` is the pair `st` holds or, where `st` holds none, the pair
a call by `self` initialises. -/
def Statics.agree (self : ABCFunc α) (st s : Statics α) : Prop :=
  static_init s.loss_p_c ((1 + self.c_) * (1 + self.c_)) (1 - self.c_ * self.c_)
    = static_init st.loss_p_c ((1 + self.c_) * (1 + self.c_)) (1 - self.c_ * self.c_) ∧
  static_init s.loss_m_c ((1 + self.c_) * (1 + self.c_)) (1 - self.c_ * self.c_)
    = static_init st.loss_m_c ((1 + self.c_) * (1 + self.c_)) (1 - self.c_ * self.c_) ∧
  static_init s.dloss_p_c (1 + self.c_) (1 - self.c_)
    = static_init st.dloss_p_c (1 + self.c_) (1 - self.c_) ∧
  static_init s.dloss_m_c (1 + self.c_) (1 - self.c_)
    = static_init st.dloss_m_c (1 + self.c_) (1 - self.c_)

/-- The statics were left by calls of an evaluator with the robustness constant of `self`, or
the function has not been called yet: a call by `self` finds its own constants. -/
def Statics.own (self : ABCFunc α) (st : Statics α) : Prop :=
  Statics.agree self Statics.fresh st

/-! ## Sample inputs -/

/-- The evaluator `ABCFunc::ABCFunc` returns for robustness constant 1 and the kernel string
`"POLY 1 2"`, with `nthreads` workers available. -/
def poly_evaluator (nthreads : Nat) : ABCFunc α :=
  { ABCFunc.init nthreads 1 0 nthreads with func_ := KernelFn.poly, shift_ := 1, deg_ := 2 }

/-- A dataset of three samples in two classes with one continuous and one nominal
feature. -/
def sample_data : Data α :=
  { nsample := 3, cont := [[1, 2, 4]], ord := [], nom := [[0, 1, 0]],
    act := [7, 3, 7], resp := [1, -2, 3], prob := [1, 1, 1] }

/-- A dataset of two samples in two classes with one continuous feature. -/
def small_data : Data α :=
  { nsample := 2, cont := [[1, 2]], ord := [], nom := [],
    act := [5, 3], resp := [2, -2], prob := [1, 1] }

/-- A dataset of two samples that carry the same label. -/
def one_class_data : Data α :=
  { nsample := 2, cont := [[1, 2]], ord := [], nom := [],
    act := [4, 4], resp := [2, -2], prob := [1, 1] }

/-- A dataset without samples. -/
def empty_data : Data α :=
  { nsample := 0, cont := [[]], ord := [], nom := [],
    act := [], resp := [], prob := [] }

/-- The values `std::stod` returns on the number tokens `0.5`, `1.0` and `2`; on the other
tokens this sample reading raises `std::invalid_argument`. -/
def sample_stod (s : List Char) : Option α :=
  if s = ['0', '.', '5'] then some (1 / 2)
  else if s = ['1', '.', '0'] then some 1
  else if s = ['2'] then some 2
  else none

/-- The evaluator `ABCFunc::ABCFunc` returns for robustness constant 1/10 and the kernel
string `"POLY 1 2"`, with two workers. -/
def poly_evaluator_tenth : ABCFunc α :=
  { ABCFunc.init 2 (1 / 10) 0 2 with func_ := KernelFn.poly, shift_ := 1, deg_ := 2 }

/-- The statics after an evaluator with robustness constant 10 has called each of the four
loss functions once. -/
def stale_statics : Statics α :=
  (dloss_m (ABCFunc.init 1 10 0 1) 0
    (dloss_p (ABCFunc.init 1 10 0 1) 0
      (loss_m (ABCFunc.init 1 10 0 1) 0
        (loss_p (ABCFunc.init 1 10 0 1) 0 Statics.fresh).2).2).2).2

end Defs

/-! ## Loss evaluator: junction, continuity, derivatives -/

theorem thres_mul (c θ : ℝ) (hc : 0 < c) (hθ : θ = c / (1 + c)) : (1 + c) * θ = c := by
  subst hθ; field_simp

theorem loss_p_den (c θ x : ℝ) (hc : 0 < c) (hθ : θ = c / (1 + c)) (hx : θ ≤ x) :
    1 + c ≤ (1 + c) * (1 + c) * x + (1 - c * c) := by
  have h := thres_mul c θ hc hθ
  have : (1 + c) * θ ≤ (1 + c) * x := by
    apply mul_le_mul_of_nonneg_left hx; linarith
  nlinarith

theorem loss_m_den (c θ x : ℝ) (hc : 0 < c) (hθ : θ = c / (1 + c)) (hx : θ ≤ -x) :
    1 + c ≤ (1 - c * c) - (1 + c) * (1 + c) * x := by
  have := loss_p_den c θ (-x) hc hθ hx
  linarith

/-- The rational branch of `loss_p_spec` with its denominator clipped below at `1 + c`: it is
the same function on the branch region and continuous everywhere. -/
theorem loss_p_eq_clipped (self : ABCFunc ℝ) (hc : 0 < self.c_)
    (hθ : self.thres_ = self.c_ / (1 + self.c_)) :
    loss_p_spec self = fun x => if self.thres_ ≤ x then
      1 / max ((1 + self.c_) * (1 + self.c_) * x + (1 - self.c_ * self.c_)) (1 + self.c_)
      else 1 - x := by
  funext x
  unfold loss_p_spec
  by_cases hx : self.thres_ ≤ x
  · simp only [ge_iff_le, hx, if_true]
    rw [max_eq_left (loss_p_den _ _ _ hc hθ hx)]
  · simp [hx]

theorem loss_m_eq_clipped (self : ABCFunc ℝ) (hc : 0 < self.c_)
    (hθ : self.thres_ = self.c_ / (1 + self.c_)) :
    loss_m_spec self = fun x => if self.thres_ ≤ -x then
      1 / max ((1 - self.c_ * self.c_) - (1 + self.c_) * (1 + self.c_) * x) (1 + self.c_)
      else 1 + x := by
  funext x
  unfold loss_m_spec
  by_cases hx : self.thres_ ≤ -x
  · simp only [ge_iff_le, hx, if_true]
    rw [max_eq_left (loss_m_den _ _ _ hc hθ hx)]
  · simp [hx]

theorem loss_p_at_thres (self : ABCFunc ℝ) (hc : 0 < self.c_)
    (hθ : self.thres_ = self.c_ / (1 + self.c_)) :
    1 - self.thres_ = 1 / ((1 + self.c_) ^ 2 * self.thres_ + (1 - self.c_ ^ 2)) := by
  have h := thres_mul _ _ hc hθ
  have e : (1 + self.c_) ^ 2 * self.thres_ + (1 - self.c_ ^ 2) = 1 + self.c_ := by
    have : (1 + self.c_) ^ 2 * self.thres_ = (1 + self.c_) * ((1 + self.c_) * self.thres_) := by
      ring
    rw [this, h]; ring
  rw [e, hθ]
  field_simp

theorem loss_m_at_thres (self : ABCFunc ℝ) (hc : 0 < self.c_)
    (hθ : self.thres_ = self.c_ / (1 + self.c_)) :
    1 + -self.thres_ = 1 / ((1 - self.c_ ^ 2) - (1 + self.c_) ^ 2 * -self.thres_) := by
  have h := loss_p_at_thres self hc hθ
  have e : (1 - self.c_ ^ 2) - (1 + self.c_) ^ 2 * -self.thres_
      = (1 + self.c_) ^ 2 * self.thres_ + (1 - self.c_ ^ 2) := by ring
  rw [e, ← h]; ring

theorem loss_p_continuous (self : ABCFunc ℝ) (hc : 0 < self.c_)
    (hθ : self.thres_ = self.c_ / (1 + self.c_)) : Continuous (loss_p_spec self) := by
  rw [loss_p_eq_clipped self hc hθ]
  apply Continuous.if_le
  · apply Continuous.div continuous_const
    · exact (Continuous.max (by continuity) continuous_const)
    · intro x
      have : (0:ℝ) < 1 + self.c_ := by linarith
      exact (lt_of_lt_of_le this (le_max_right _ _)).ne'
  · continuity
  · exact continuous_const
  · exact continuous_id
  · intro x hx
    rw [← hx, max_eq_left (loss_p_den _ _ _ hc hθ le_rfl)]
    have := loss_p_at_thres self hc hθ
    rw [this]; ring_nf

theorem loss_m_continuous (self : ABCFunc ℝ) (hc : 0 < self.c_)
    (hθ : self.thres_ = self.c_ / (1 + self.c_)) : Continuous (loss_m_spec self) := by
  rw [loss_m_eq_clipped self hc hθ]
  apply Continuous.if_le
  · apply Continuous.div continuous_const
    · exact (Continuous.max (by continuity) continuous_const)
    · intro x
      have : (0:ℝ) < 1 + self.c_ := by linarith
      exact (lt_of_lt_of_le this (le_max_right _ _)).ne'
  · continuity
  · exact continuous_const
  · exact continuous_neg
  · intro x hx
    have hx' : x = -self.thres_ := by linarith
    subst hx'
    rw [max_eq_left (loss_m_den _ _ _ hc hθ (by simp))]
    have := loss_m_at_thres self hc hθ
    rw [this]; ring_nf

/-- The junction of the loss of the specification: for c > 0 and θ = c/(1+c) the linear and
the rational branch agree at the junction, the rational branch is taken there and gives the
linear value, and `loss_p_spec` and `loss_m_spec` are continuous. -/
theorem loss_spec_junction_continuous (self : ABCFunc ℝ) (hc : 0 < self.c_)
    (hθ : self.thres_ = self.c_ / (1 + self.c_)) :
    1 - self.thres_ = 1 / ((1 + self.c_) ^ 2 * self.thres_ + (1 - self.c_ ^ 2)) ∧
    1 + -self.thres_ = 1 / ((1 - self.c_ ^ 2) - (1 + self.c_) ^ 2 * -self.thres_) ∧
    loss_p_spec self self.thres_ = 1 - self.thres_ ∧
    loss_m_spec self (-self.thres_) = 1 + -self.thres_ ∧
    Continuous (loss_p_spec self) ∧ Continuous (loss_m_spec self) := by
  refine ⟨loss_p_at_thres self hc hθ, loss_m_at_thres self hc hθ, ?_, ?_,
    loss_p_continuous self hc hθ, loss_m_continuous self hc hθ⟩
  · rw [loss_p_at_thres self hc hθ]; simp [loss_p_spec]; ring_nf
  · rw [loss_m_at_thres self hc hθ]; simp [loss_m_spec]; ring_nf


/-- The inner affine form of the derivative branches: `(1+c)x + (1-c) ≥ 1` for `x ≥ θ`. -/
theorem dloss_p_base (c θ x : ℝ) (hc : 0 < c) (hθ : θ = c / (1 + c)) (hx : θ ≤ x) :
    1 ≤ (1 + c) * x + (1 - c) := by
  have h := thres_mul c θ hc hθ
  have : (1 + c) * θ ≤ (1 + c) * x := by
    apply mul_le_mul_of_nonneg_left hx; linarith
  linarith

/-- Derivative of the rational branch `x ↦ 1 / ((1+c)² x + (1 - c²))`. -/
theorem rational_p_hasDerivAt (c θ x : ℝ) (hc : 0 < c) (hθ : θ = c / (1 + c)) (hx : θ ≤ x) :
    HasDerivAt (fun y : ℝ => 1 / ((1 + c) * (1 + c) * y + (1 - c * c)))
      (-(((1 + c) * x + (1 - c)) ^ (-2 : ℤ))) x := by
  have hb := dloss_p_base c θ x hc hθ hx
  have hb0 : (1 + c) * x + (1 - c) ≠ 0 := by linarith
  have hc0 : (1 + c) ≠ 0 := by linarith
  have hd : (1 + c) * (1 + c) * x + (1 - c * c) ≠ 0 := by
    have : (1 + c) * (1 + c) * x + (1 - c * c) = (1 + c) * ((1 + c) * x + (1 - c)) := by ring
    rw [this]; exact mul_ne_zero hc0 hb0
  have h1 : HasDerivAt (fun y : ℝ => (1 + c) * (1 + c) * y + (1 - c * c))
      ((1 + c) * (1 + c)) x := by
    simpa using ((hasDerivAt_id x).const_mul ((1 + c) * (1 + c))).add_const (1 - c * c)
  have h2 := (h1.inv hd)
  have e : (-(((1 + c) * x + (1 - c)) ^ (-2 : ℤ)))
      = -((1 + c) * (1 + c)) / ((1 + c) * (1 + c) * x + (1 - c * c)) ^ 2 := by
    rw [zpow_neg, zpow_ofNat]
    field_simp
    ring
  rw [e]
  simpa [one_div] using h2

/-- Derivative of the rational branch `x ↦ 1 / ((1 - c²) - (1+c)² x)`. -/
theorem rational_m_hasDerivAt (c θ x : ℝ) (hc : 0 < c) (hθ : θ = c / (1 + c)) (hx : θ ≤ -x) :
    HasDerivAt (fun y : ℝ => 1 / ((1 - c * c) - (1 + c) * (1 + c) * y))
      (((1 - c) - (1 + c) * x) ^ (-2 : ℤ)) x := by
  have h := (rational_p_hasDerivAt c θ (-x) hc hθ hx).scomp x (hasDerivAt_neg x)
  have e : ((fun y : ℝ => 1 / ((1 + c) * (1 + c) * y + (1 - c * c))) ∘ Neg.neg)
      = (fun y : ℝ => 1 / ((1 - c * c) - (1 + c) * (1 + c) * y)) := by
    funext y; simp only [Function.comp]; congr 1; ring
  rw [e] at h
  convert h using 1
  simp only [smul_eq_mul]
  have : (1 + c) * -x + (1 - c) = (1 - c) - (1 + c) * x := by ring
  rw [this]; ring

/-- On `(-∞, -θ]` the function `loss_m_spec` is its rational branch. -/
theorem loss_m_hasDerivWithinAt_left (self : ABCFunc ℝ) (hc : 0 < self.c_)
    (hθ : self.thres_ = self.c_ / (1 + self.c_)) (u : ℝ) (hu : u ≤ -self.thres_) :
    HasDerivWithinAt (loss_m_spec self) (((1 - self.c_) - (1 + self.c_) * u) ^ (-2 : ℤ))
      (Set.Iic (-self.thres_)) u := by
  have h := (rational_m_hasDerivAt self.c_ self.thres_ u hc hθ (by linarith)).hasDerivWithinAt
    (s := Set.Iic (-self.thres_))
  refine h.congr ?_ ?_
  · intro x hx
    have : self.thres_ ≤ -x := by have := Set.mem_Iic.mp hx; linarith
    simp [loss_m_spec, this]
  · have : self.thres_ ≤ -u := by linarith
    simp [loss_m_spec, this]

/-- On `[-θ, ∞)` the function `loss_m_spec` is its linear branch. -/
theorem loss_m_hasDerivWithinAt_right (self : ABCFunc ℝ) (hc : 0 < self.c_)
    (hθ : self.thres_ = self.c_ / (1 + self.c_)) (u : ℝ) (hu : u ∈ Set.Ici (-self.thres_)) :
    HasDerivWithinAt (loss_m_spec self) 1 (Set.Ici (-self.thres_)) u := by
  have h : HasDerivWithinAt (fun y : ℝ => 1 + y) 1 (Set.Ici (-self.thres_)) u := by
    simpa using ((hasDerivAt_id u).const_add 1).hasDerivWithinAt
  have key : ∀ x ∈ Set.Ici (-self.thres_), loss_m_spec self x = 1 + x := by
    intro x hx
    rcases eq_or_lt_of_le (Set.mem_Ici.mp hx) with h1 | h1
    · have hx' : x = -self.thres_ := h1.symm
      subst hx'
      have hm := thres_mul _ _ hc hθ
      have e : (1 - self.c_ * self.c_) - (1 + self.c_) * (1 + self.c_) * -self.thres_
          = 1 + self.c_ := by
        have : (1 + self.c_) * (1 + self.c_) * -self.thres_
            = -((1 + self.c_) * ((1 + self.c_) * self.thres_)) := by ring
        rw [this, hm]; ring
      simp only [loss_m_spec, neg_neg, ge_iff_le, le_refl, if_true, e]
      rw [hθ]; field_simp
    · have : ¬ self.thres_ ≤ -x := by intro h2; linarith
      simp [loss_m_spec, this]
  exact h.congr key (key u hu)

/-- The function `dloss_m_spec` is the derivative of `loss_m_spec` at every point. -/
theorem loss_m_hasDerivAt (self : ABCFunc ℝ) (hc : 0 < self.c_)
    (hθ : self.thres_ = self.c_ / (1 + self.c_)) (u : ℝ) :
    HasDerivAt (loss_m_spec self) (dloss_m_spec self u) u := by
  rcases lt_trichotomy u (-self.thres_) with h | h | h
  · have hd : dloss_m_spec self u = ((1 - self.c_) - (1 + self.c_) * u) ^ (-2 : ℤ) := by
      have : self.thres_ ≤ -u := by linarith
      simp [dloss_m_spec, this]
    rw [hd]
    exact (loss_m_hasDerivWithinAt_left self hc hθ u h.le).hasDerivAt (Iic_mem_nhds h)
  · have hd : dloss_m_spec self u = 1 := by
      have hm := thres_mul _ _ hc hθ
      have : self.thres_ ≤ -u := by linarith
      have e : (1 - self.c_) - (1 + self.c_) * u = 1 := by rw [h]; linarith
      simp [dloss_m_spec, this, e]
    have hl := loss_m_hasDerivWithinAt_left self hc hθ u h.le
    have e : ((1 - self.c_) - (1 + self.c_) * u) ^ (-2 : ℤ) = 1 := by
      have hm := thres_mul _ _ hc hθ
      have : (1 - self.c_) - (1 + self.c_) * u = 1 := by rw [h]; linarith
      rw [this]; simp
    rw [e] at hl
    have hr := loss_m_hasDerivWithinAt_right self hc hθ u (Set.mem_Ici.mpr h.ge)
    have hun := hl.union hr
    rw [Set.Iic_union_Ici] at hun
    rw [hd]
    exact hasDerivWithinAt_univ.mp hun
  · have hd : dloss_m_spec self u = 1 := by
      have : ¬ self.thres_ ≤ -u := by intro h2; linarith
      simp [dloss_m_spec, this]
    rw [hd]
    exact (loss_m_hasDerivWithinAt_right self hc hθ u (Set.mem_Ici.mpr h.le)).hasDerivAt
      (Ici_mem_nhds h)

theorem dloss_m_continuous (self : ABCFunc ℝ) (hc : 0 < self.c_)
    (hθ : self.thres_ = self.c_ / (1 + self.c_)) : Continuous (dloss_m_spec self) := by
  have e : dloss_m_spec self = fun x => if self.thres_ ≤ -x then
      (max ((1 - self.c_) - (1 + self.c_) * x) 1) ^ (-2 : ℤ) else 1 := by
    funext x
    unfold dloss_m_spec
    by_cases hx : self.thres_ ≤ -x
    · have hb := dloss_p_base self.c_ self.thres_ (-x) hc hθ hx
      have : (1:ℝ) ≤ (1 - self.c_) - (1 + self.c_) * x := by linarith
      simp only [ge_iff_le, hx, if_true]
      rw [max_eq_left this]
    · simp [hx]
  rw [e]
  apply Continuous.if_le
  · apply Continuous.zpow₀
    · exact Continuous.max (by continuity) continuous_const
    · intro x; left
      exact (lt_of_lt_of_le one_pos (le_max_right _ _)).ne'
  · exact continuous_const
  · exact continuous_const
  · exact continuous_neg
  · intro x hx
    have hm := thres_mul _ _ hc hθ
    have : (1 - self.c_) - (1 + self.c_) * x = 1 := by
      have hx' : x = -self.thres_ := by linarith
      rw [hx']; linarith
    rw [this]; simp

/-- The function `dloss_m_spec` is the derivative of `loss_m_spec` at every point; at the
junction u = -θ both of its branches give 1; it is continuous, so `loss_m_spec` is
continuously differentiable. -/
theorem dloss_m_spec_is_derivative (self : ABCFunc ℝ) (hc : 0 < self.c_)
    (hθ : self.thres_ = self.c_ / (1 + self.c_)) :
    (∀ u : ℝ, HasDerivAt (loss_m_spec self) (dloss_m_spec self u) u) ∧
    dloss_m_spec self (-self.thres_) = 1 ∧
    ((1 - self.c_) - (1 + self.c_) * -self.thres_) ^ (-2 : ℤ) = 1 ∧
    Continuous (dloss_m_spec self) ∧ ContDiff ℝ 1 (loss_m_spec self) := by
  have hd := loss_m_hasDerivAt self hc hθ
  have hm := thres_mul _ _ hc hθ
  have hb : (1 - self.c_) - (1 + self.c_) * -self.thres_ = 1 := by linarith
  have hcont := dloss_m_continuous self hc hθ
  refine ⟨hd, ?_, ?_, hcont, ?_⟩
  · simp only [dloss_m_spec, neg_neg, ge_iff_le, le_refl, if_true, hb]; simp
  · rw [hb]; simp
  · rw [contDiff_one_iff_deriv]
    refine ⟨fun u => (hd u).differentiableAt, ?_⟩
    have : deriv (loss_m_spec self) = dloss_m_spec self := funext fun u => (hd u).deriv
    rw [this]; exact hcont

/-! ### `loss_p_spec`: the derivative the code should return -/

theorem loss_p_hasDerivWithinAt_right (self : ABCFunc ℝ) (hc : 0 < self.c_)
    (hθ : self.thres_ = self.c_ / (1 + self.c_)) (u : ℝ) (hu : self.thres_ ≤ u) :
    HasDerivWithinAt (loss_p_spec self) (-(((1 + self.c_) * u + (1 - self.c_)) ^ (-2 : ℤ)))
      (Set.Ici self.thres_) u := by
  have h := (rational_p_hasDerivAt self.c_ self.thres_ u hc hθ hu).hasDerivWithinAt
    (s := Set.Ici self.thres_)
  refine h.congr ?_ ?_
  · intro x hx
    have : self.thres_ ≤ x := Set.mem_Ici.mp hx
    simp [loss_p_spec, this]
  · simp [loss_p_spec, hu]

theorem loss_p_hasDerivWithinAt_left (self : ABCFunc ℝ) (hc : 0 < self.c_)
    (hθ : self.thres_ = self.c_ / (1 + self.c_)) (u : ℝ) (hu : u ∈ Set.Iic self.thres_) :
    HasDerivWithinAt (loss_p_spec self) (-1) (Set.Iic self.thres_) u := by
  have h : HasDerivWithinAt (fun y : ℝ => 1 - y) (-1) (Set.Iic self.thres_) u := by
    simpa using ((hasDerivAt_id u).const_sub 1).hasDerivWithinAt
  have key : ∀ x ∈ Set.Iic self.thres_, loss_p_spec self x = 1 - x := by
    intro x hx
    rcases eq_or_lt_of_le (Set.mem_Iic.mp hx) with h1 | h1
    · subst h1
      have hm := thres_mul _ _ hc hθ
      have e : (1 + self.c_) * (1 + self.c_) * self.thres_ + (1 - self.c_ * self.c_)
          = 1 + self.c_ := by
        have : (1 + self.c_) * (1 + self.c_) * self.thres_
            = (1 + self.c_) * ((1 + self.c_) * self.thres_) := by ring
        rw [this, hm]; ring
      simp only [loss_p_spec, ge_iff_le, le_refl, if_true, e]
      rw [hθ]; field_simp
    · have : ¬ self.thres_ ≤ x := by intro h2; linarith
      simp [loss_p_spec, this]
  exact h.congr key (key u hu)

/-- The derivative of `loss_p_spec`: `-1` below the threshold and
`-((1+c)u + (1-c))^(-2)` from the threshold on. -/
theorem loss_p_hasDerivAt (self : ABCFunc ℝ) (hc : 0 < self.c_)
    (hθ : self.thres_ = self.c_ / (1 + self.c_)) (u : ℝ) :
    HasDerivAt (loss_p_spec self)
      (if self.thres_ ≤ u then -(((1 + self.c_) * u + (1 - self.c_)) ^ (-2 : ℤ)) else -1) u := by
  rcases lt_trichotomy u self.thres_ with h | h | h
  · have : ¬ self.thres_ ≤ u := by intro h2; linarith
    rw [if_neg this]
    exact (loss_p_hasDerivWithinAt_left self hc hθ u (Set.mem_Iic.mpr h.le)).hasDerivAt
      (Iic_mem_nhds h)
  · rw [if_pos h.ge]
    have hr := loss_p_hasDerivWithinAt_right self hc hθ u h.ge
    have e : -(((1 + self.c_) * u + (1 - self.c_)) ^ (-2 : ℤ)) = -1 := by
      have hm := thres_mul _ _ hc hθ
      have : (1 + self.c_) * u + (1 - self.c_) = 1 := by rw [h]; linarith
      rw [this]; simp
    rw [e] at hr ⊢
    have hl := loss_p_hasDerivWithinAt_left self hc hθ u (Set.mem_Iic.mpr h.le)
    have hun := hl.union hr
    rw [Set.Iic_union_Ici] at hun
    exact hasDerivWithinAt_univ.mp hun
  · rw [if_pos h.le]
    exact (loss_p_hasDerivWithinAt_right self hc hθ u h.le).hasDerivAt (Ici_mem_nhds h)

/-- From the threshold on, `dloss_p_spec` returns the negative of the derivative of `loss_p_spec`. -/
theorem dloss_p_wrong_sign (self : ABCFunc ℝ) (hc : 0 < self.c_)
    (hθ : self.thres_ = self.c_ / (1 + self.c_)) (u : ℝ) (hu : self.thres_ ≤ u) :
    HasDerivAt (loss_p_spec self) (-(dloss_p_spec self u)) u ∧ 0 < dloss_p_spec self u ∧
    ¬ HasDerivAt (loss_p_spec self) (dloss_p_spec self u) u := by
  have h := loss_p_hasDerivAt self hc hθ u
  rw [if_pos hu] at h
  have hd : dloss_p_spec self u = ((1 + self.c_) * u + (1 - self.c_)) ^ (-2 : ℤ) := by
    simp [dloss_p_spec, hu]
  have hb := dloss_p_base self.c_ self.thres_ u hc hθ hu
  have hpos : 0 < dloss_p_spec self u := by
    rw [hd]; apply zpow_pos; linarith
  refine ⟨by rw [hd]; exact h, hpos, fun hbad => ?_⟩
  have := hbad.unique h
  rw [hd] at hpos
  linarith

theorem dloss_p_below (self : ABCFunc ℝ) (u : ℝ) (hu : u < self.thres_) :
    dloss_p_spec self u = -1 := by
  have : ¬ self.thres_ ≤ u := by intro h2; linarith
  simp [dloss_p_spec, this]

theorem dloss_p_at_thres (self : ABCFunc ℝ) (hc : 0 < self.c_)
    (hθ : self.thres_ = self.c_ / (1 + self.c_)) : dloss_p_spec self self.thres_ = 1 := by
  have hm := thres_mul _ _ hc hθ
  have : (1 + self.c_) * self.thres_ + (1 - self.c_) = 1 := by linarith
  simp [dloss_p_spec, this]

/-- Every evaluator the constructor returns has `c_ = c` and `thres_ = c / (1 + c)`. -/
theorem ctor_thres {α : Type} [LinearOrderedField α] (m : Libm α) (hw : Nat) (c lambda : α)
    (kernel : List Char) (nthreads : Nat) (self : ABCFunc α)
    (h : ABCFunc.ctor m hw c lambda kernel nthreads = Except.ok self) :
    self.c_ = c ∧ self.thres_ = self.c_ / (1 + self.c_) ∧ self.nthreads_ = min nthreads hw := by
  unfold ABCFunc.ctor at h
  simp only at h
  split at h
  · cases h
  · split at h
    · split at h
      · cases h
      · split at h
        · cases h
        · cases h; exact ⟨rfl, rfl, rfl⟩
    · split at h
      · split at h
        · cases h
        · split at h
          · cases h
          · split at h
            · cases h
            · split at h
              · cases h
              · cases h; exact ⟨rfl, rfl, rfl⟩
      · cases h

/-- The sample evaluator is what the constructor returns for the kernel string `poly 1 2`
when `std::stod` reads `1` and `2`. -/
theorem ctor_poly_evaluator {α : Type} [LinearOrderedField α] (m : Libm α)
    (h1 : m.stod ['1'] = some 1) (h2 : m.stod ['2'] = some 2) (n : Nat) :
    ABCFunc.ctor m n 1 0 ['p', 'o', 'l', 'y', ' ', '1', ' ', '2'] n
      = Except.ok (poly_evaluator n) := by
  have ht : tokens_aux (['p', 'o', 'l', 'y', ' ', '1', ' ', '2'].map Char.toUpper) []
      = [['P', 'O', 'L', 'Y'], ['1'], ['2']] := by decide
  simp only [ABCFunc.ctor, ht]
  simp [h1, h2, poly_evaluator]

/-- The value `ABCFunc::ABCFunc` gives `thres_`. -/
theorem init_thres {α : Type} [LinearOrderedField α] (hw : Nat) (c lambda : α) (n : Nat) :
    (ABCFunc.init hw c lambda n).thres_ = (ABCFunc.init hw c lambda n).c_ /
      (1 + (ABCFunc.init hw c lambda n).c_) := rfl

/-! ## The statics of the loss functions -/

theorem static_init_some {α : Type} (c : α × α) (e1 e2 : α) :
    static_init (some c) e1 e2 = c := rfl

theorem static_init_none {α : Type} (e1 e2 : α) :
    static_init (none : Option (α × α)) e1 e2 = (e1, e2) := rfl

theorem Statics.agree_refl {α : Type} [LinearOrderedField α] (self : ABCFunc α)
    (st : Statics α) : Statics.agree self st st := ⟨rfl, rfl, rfl, rfl⟩

/-- The value of a call depends on the statics only through the constants the call finds. -/
theorem loss_p_agree {α : Type} [LinearOrderedField α] (self : ABCFunc α) (st s : Statics α)
    (h : Statics.agree self st s) (x : α) :
    (loss_p self x s).1 = (loss_p self x st).1 ∧ Statics.agree self st (loss_p self x s).2 := by
  obtain ⟨h1, h2, h3, h4⟩ := h
  refine ⟨?_, ?_, h2, h3, h4⟩
  · simp only [loss_p, h1]
  · simp only [loss_p, static_init_some, h1]

theorem loss_m_agree {α : Type} [LinearOrderedField α] (self : ABCFunc α) (st s : Statics α)
    (h : Statics.agree self st s) (x : α) :
    (loss_m self x s).1 = (loss_m self x st).1 ∧ Statics.agree self st (loss_m self x s).2 := by
  obtain ⟨h1, h2, h3, h4⟩ := h
  refine ⟨?_, h1, ?_, h3, h4⟩
  · simp only [loss_m, h2]
  · simp only [loss_m, static_init_some, h2]

theorem dloss_p_agree {α : Type} [LinearOrderedField α] (self : ABCFunc α) (st s : Statics α)
    (h : Statics.agree self st s) (x : α) :
    (dloss_p self x s).1 = (dloss_p self x st).1 ∧
      Statics.agree self st (dloss_p self x s).2 := by
  obtain ⟨h1, h2, h3, h4⟩ := h
  refine ⟨?_, h1, h2, ?_, h4⟩
  · simp only [dloss_p, h3]
  · simp only [dloss_p, static_init_some, h3]

theorem dloss_m_agree {α : Type} [LinearOrderedField α] (self : ABCFunc α) (st s : Statics α)
    (h : Statics.agree self st s) (x : α) :
    (dloss_m self x s).1 = (dloss_m self x st).1 ∧
      Statics.agree self st (dloss_m self x s).2 := by
  obtain ⟨h1, h2, h3, h4⟩ := h
  refine ⟨?_, h1, h2, h3, ?_⟩
  · simp only [dloss_m, h4]
  · simp only [dloss_m, static_init_some, h4]

/-- Before any call the statics are those of every evaluator. -/
theorem Statics.own_fresh {α : Type} [LinearOrderedField α] (self : ABCFunc α) :
    Statics.own self Statics.fresh := Statics.agree_refl self _

/-- With its own constants in the statics the code computes the loss functions of the
specification. -/
theorem loss_own {α : Type} [LinearOrderedField α] (self : ABCFunc α) (st : Statics α)
    (h : Statics.own self st) (x : α) :
    (loss_p self x st).1 = loss_p_spec self x ∧ (loss_m self x st).1 = loss_m_spec self x ∧
    (dloss_p self x st).1 = dloss_p_spec self x ∧
    (dloss_m self x st).1 = dloss_m_spec self x := by
  exact ⟨(loss_p_agree self _ st h x).1, (loss_m_agree self _ st h x).1,
    (dloss_p_agree self _ st h x).1, (dloss_m_agree self _ st h x).1⟩

/-- The loss functions of the first evaluator of a process are those of the specification. -/
theorem loss_fresh {α : Type} [LinearOrderedField α] (self : ABCFunc α) :
    (fun x => (loss_p self x Statics.fresh).1) = loss_p_spec self ∧
    (fun x => (loss_m self x Statics.fresh).1) = loss_m_spec self ∧
    (fun x => (dloss_p self x Statics.fresh).1) = dloss_p_spec self ∧
    (fun x => (dloss_m self x Statics.fresh).1) = dloss_m_spec self :=
  ⟨rfl, rfl, rfl, rfl⟩

/-! ## The loss functions of the code -/

/-- A function that agrees below `a` with a function continuous at `a` and has another value
at `a` is not continuous at `a`. -/
theorem not_continuousAt_of_jump_left (f g : ℝ → ℝ) (a : ℝ) (hg : ContinuousAt g a)
    (hfg : ∀ u, u < a → f u = g u) (hne : f a ≠ g a) : ¬ ContinuousAt f a := by
  intro hc
  have t1 : Filter.Tendsto f (nhdsWithin a (Set.Iio a)) (nhds (f a)) :=
    hc.tendsto.mono_left nhdsWithin_le_nhds
  have t2 : Filter.Tendsto f (nhdsWithin a (Set.Iio a)) (nhds (g a)) := by
    apply Filter.Tendsto.congr' _ (hg.tendsto.mono_left nhdsWithin_le_nhds)
    exact eventually_nhdsWithin_of_forall (fun u hu => (hfg u hu).symm)
  exact hne (tendsto_nhds_unique t1 t2)

/-- A function that agrees above `a` with a function continuous at `a` and has another value
at `a` is not continuous at `a`. -/
theorem not_continuousAt_of_jump_right (f g : ℝ → ℝ) (a : ℝ) (hg : ContinuousAt g a)
    (hfg : ∀ u, a < u → f u = g u) (hne : f a ≠ g a) : ¬ ContinuousAt f a := by
  intro hc
  have t1 : Filter.Tendsto f (nhdsWithin a (Set.Ioi a)) (nhds (f a)) :=
    hc.tendsto.mono_left nhdsWithin_le_nhds
  have t2 : Filter.Tendsto f (nhdsWithin a (Set.Ioi a)) (nhds (g a)) := by
    apply Filter.Tendsto.congr' _ (hg.tendsto.mono_left nhdsWithin_le_nhds)
    exact eventually_nhdsWithin_of_forall (fun u hu => (hfg u hu).symm)
  exact hne (tendsto_nhds_unique t1 t2)

/-- The statics an evaluator with robustness constant 10 leaves behind. -/
theorem stale_statics_eq :
    (stale_statics : Statics ℝ)
      = Statics.mk (some (121, -99)) (some (121, -99)) (some (11, -9)) (some (11, -9)) := by
  simp only [stale_statics, loss_p, loss_m, dloss_p, dloss_m, Statics.fresh, static_init,
    ABCFunc.init]
  norm_num

/-- The threshold of the evaluator with robustness constant 1/10. -/
theorem thres_tenth : (ABCFunc.init 1 (1 / 10 : ℝ) 0 1).thres_ = 1 / 11 := by
  norm_num [ABCFunc.init]

/-- The function `loss_p` of an evaluator with robustness constant 1/10, called after an
evaluator with robustness constant 10: it is linear below the threshold 1/11 and returns
`1 / (121 u - 99)` from the threshold on. -/
theorem loss_p_stale (u : ℝ) :
    (loss_p (ABCFunc.init 1 (1 / 10 : ℝ) 0 1) u stale_statics).1
      = if u ≥ 1 / 11 then 1 / (121 * u + -99) else 1 - u := by
  simp only [loss_p, stale_statics_eq, static_init, thres_tenth]

/-- The function `loss_m` of an evaluator with robustness constant 1/10, called after an
evaluator with robustness constant 10. -/
theorem loss_m_stale (u : ℝ) :
    (loss_m (ABCFunc.init 1 (1 / 10 : ℝ) 0 1) u stale_statics).1
      = if -u ≥ 1 / 11 then 1 / (-99 - 121 * u) else 1 + u := by
  simp only [loss_m, stale_statics_eq, static_init, thres_tenth]

/-- The function `dloss_m` of an evaluator with robustness constant 1/10, called after an
evaluator with robustness constant 10. -/
theorem dloss_m_stale (u : ℝ) :
    (dloss_m (ABCFunc.init 1 (1 / 10 : ℝ) 0 1) u stale_statics).1
      = if -u ≥ 1 / 11 then (-9 - 11 * u) ^ (-2 : ℤ) else 1 := by
  simp only [dloss_m, stale_statics_eq, static_init, thres_tenth]

/-- With the statics of another evaluator `loss_p` jumps at the junction. -/
theorem loss_p_stale_jump :
    ¬ ContinuousAt (fun u => (loss_p (ABCFunc.init 1 (1 / 10 : ℝ) 0 1) u stale_statics).1)
      (1 / 11) := by
  apply not_continuousAt_of_jump_left _ (fun u => 1 - u) (1 / 11)
    (continuous_const.sub continuous_id).continuousAt
  · intro u hu
    show (loss_p (ABCFunc.init 1 (1 / 10 : ℝ) 0 1) u stale_statics).1 = 1 - u
    rw [loss_p_stale, if_neg (not_le.mpr hu)]
  · show (loss_p (ABCFunc.init 1 (1 / 10 : ℝ) 0 1) (1 / 11) stale_statics).1 ≠ 1 - 1 / 11
    rw [loss_p_stale, if_pos le_rfl]
    norm_num

/-- With the statics of another evaluator `loss_m` jumps at the junction. -/
theorem loss_m_stale_jump :
    ¬ ContinuousAt (fun u => (loss_m (ABCFunc.init 1 (1 / 10 : ℝ) 0 1) u stale_statics).1)
      (-(1 / 11)) := by
  apply not_continuousAt_of_jump_right _ (fun u => 1 + u) (-(1 / 11))
    (continuous_const.add continuous_id).continuousAt
  · intro u hu
    show (loss_m (ABCFunc.init 1 (1 / 10 : ℝ) 0 1) u stale_statics).1 = 1 + u
    rw [loss_m_stale, if_neg (by intro h; linarith)]
  · show (loss_m (ABCFunc.init 1 (1 / 10 : ℝ) 0 1) (-(1 / 11)) stale_statics).1
      ≠ 1 + -(1 / 11)
    rw [loss_m_stale, if_pos (by norm_num)]
    norm_num

/-- The loss functions of the first evaluator of a process (and of every evaluator while the
statics hold its own constants) are continuous, and `dloss_m` is the derivative of
`loss_m`. -/
theorem loss_own_smooth (self : ABCFunc ℝ) (hc : 0 < self.c_)
    (hθ : self.thres_ = self.c_ / (1 + self.c_)) (st : Statics ℝ) (hst : Statics.own self st) :
    Continuous (fun u => (loss_p self u st).1) ∧ Continuous (fun u => (loss_m self u st).1) ∧
    (∀ u, HasDerivAt (fun u => (loss_m self u st).1) (dloss_m self u st).1 u) := by
  have e1 : (fun u => (loss_p self u st).1) = loss_p_spec self :=
    funext fun u => (loss_own self st hst u).1
  have e2 : (fun u => (loss_m self u st).1) = loss_m_spec self :=
    funext fun u => (loss_own self st hst u).2.1
  obtain ⟨-, -, -, -, h1, h2⟩ := loss_spec_junction_continuous self hc hθ
  obtain ⟨h3, -⟩ := dloss_m_spec_is_derivative self hc hθ
  rw [e1, e2]
  refine ⟨h1, h2, fun u => ?_⟩
  rw [(loss_own self st hst u).2.2.2]
  exact h3 u

/-- C5 fails for an evaluator with robustness constant 1/10 (θ = 1/11) whose calls follow
those of an evaluator with robustness constant 10: the statics still hold c1 = 121,
c2 = -99, so `loss_p` returns -1/88 at the junction and `1 - u` below it, `loss_m` returns
-1/88 at its junction and `1 + u` above it, and neither is continuous there. -/
theorem loss_junction_stale_statics :
    (ABCFunc.init 1 (1 / 10 : ℝ) 0 1).thres_ = 1 / 11 ∧
    (loss_p (ABCFunc.init 1 (1 / 10 : ℝ) 0 1) (1 / 11) stale_statics).1 = -(1 / 88) ∧
    (∀ u : ℝ, u < 1 / 11 →
      (loss_p (ABCFunc.init 1 (1 / 10 : ℝ) 0 1) u stale_statics).1 = 1 - u) ∧
    ¬ ContinuousAt (fun u => (loss_p (ABCFunc.init 1 (1 / 10 : ℝ) 0 1) u stale_statics).1)
      (1 / 11) ∧
    (loss_m (ABCFunc.init 1 (1 / 10 : ℝ) 0 1) (-(1 / 11)) stale_statics).1 = -(1 / 88) ∧
    (∀ u : ℝ, -(1 / 11) < u →
      (loss_m (ABCFunc.init 1 (1 / 10 : ℝ) 0 1) u stale_statics).1 = 1 + u) ∧
    ¬ ContinuousAt (fun u => (loss_m (ABCFunc.init 1 (1 / 10 : ℝ) 0 1) u stale_statics).1)
      (-(1 / 11)) := by
  refine ⟨thres_tenth, ?_, ?_, loss_p_stale_jump, ?_, ?_, loss_m_stale_jump⟩
  · rw [loss_p_stale, if_pos le_rfl]
    norm_num
  · intro u hu
    rw [loss_p_stale, if_neg (not_le.mpr hu)]
  · rw [loss_m_stale, if_pos (by norm_num)]
    norm_num
  · intro u hu
    rw [loss_m_stale, if_neg (by intro h; linarith)]

/-- C8 fails for an evaluator with robustness constant 1/10 (θ = 1/11) whose calls follow
those of an evaluator with robustness constant 10: at the junction u = -1/11 the rational
branch of `dloss_m` gives 1/64 and the linear branch 1, and `loss_m` has no derivative
there, so the value `dloss_m` returns is not its derivative. -/
theorem dloss_m_stale_statics :
    (dloss_m (ABCFunc.init 1 (1 / 10 : ℝ) 0 1) (-(1 / 11)) stale_statics).1 = 1 / 64 ∧
    (∀ u : ℝ, -(1 / 11) < u →
      (dloss_m (ABCFunc.init 1 (1 / 10 : ℝ) 0 1) u stale_statics).1 = 1) ∧
    (∀ d : ℝ, ¬ HasDerivAt
      (fun u => (loss_m (ABCFunc.init 1 (1 / 10 : ℝ) 0 1) u stale_statics).1) d (-(1 / 11))) ∧
    ¬ HasDerivAt (fun u => (loss_m (ABCFunc.init 1 (1 / 10 : ℝ) 0 1) u stale_statics).1)
      (dloss_m (ABCFunc.init 1 (1 / 10 : ℝ) 0 1) (-(1 / 11)) stale_statics).1 (-(1 / 11)) := by
  have hd : ∀ d : ℝ, ¬ HasDerivAt
      (fun u => (loss_m (ABCFunc.init 1 (1 / 10 : ℝ) 0 1) u stale_statics).1) d
      (-(1 / 11)) := fun d h => loss_m_stale_jump h.continuousAt
  refine ⟨?_, ?_, hd, hd _⟩
  · rw [dloss_m_stale, if_pos (by norm_num)]
    norm_num
  · intro u hu
    rw [dloss_m_stale, if_neg (by intro h; linarith)]

/-- C6 at c = 1 (theta = 1/2), for the first evaluator of the process: `dloss_p` returns 1
at the junction, the value of its rational branch, and -1 at every point below it; it is not
continuous there. -/
theorem dloss_p_junction_jump :
    (dloss_p (ABCFunc.init 1 (1 : ℝ) 0 1) (1 / 2) Statics.fresh).1 = 1 ∧
    (∀ u : ℝ, u < 1 / 2 → (dloss_p (ABCFunc.init 1 (1 : ℝ) 0 1) u Statics.fresh).1 = -1) ∧
    ¬ ContinuousAt (fun u => (dloss_p (ABCFunc.init 1 (1 : ℝ) 0 1) u Statics.fresh).1)
      (1 / 2) := by
  have hθ : (ABCFunc.init 1 (1 : ℝ) 0 1).thres_ = 1 / 2 := by norm_num [ABCFunc.init]
  have h1 : dloss_p_spec (ABCFunc.init 1 (1 : ℝ) 0 1) (1 / 2) = 1 := by
    have := dloss_p_at_thres (ABCFunc.init 1 (1 : ℝ) 0 1) (by norm_num [ABCFunc.init]) rfl
    rwa [hθ] at this
  have h2 : ∀ u : ℝ, u < 1 / 2 → dloss_p_spec (ABCFunc.init 1 (1 : ℝ) 0 1) u = -1 := by
    intro u hu
    exact dloss_p_below _ u (by rw [hθ]; exact hu)
  refine ⟨h1, h2, ?_⟩
  apply not_continuousAt_of_jump_left _ (fun _ => -1) (1 / 2) continuousAt_const h2
  show dloss_p_spec (ABCFunc.init 1 (1 : ℝ) 0 1) (1 / 2) ≠ -1
  rw [h1]
  norm_num

/-- C7 at c = 1, u = 1, for the first evaluator of the process: the derivative of `loss_p` is
-1/4 while `dloss_p` returns 1/4, so the value `dloss_p` returns is not the derivative of
`loss_p`. -/
theorem dloss_p_not_derivative :
    HasDerivAt (fun u => (loss_p (ABCFunc.init 1 (1 : ℝ) 0 1) u Statics.fresh).1)
      (-(1 / 4)) 1 ∧
    (dloss_p (ABCFunc.init 1 (1 : ℝ) 0 1) 1 Statics.fresh).1 = 1 / 4 ∧
    ¬ HasDerivAt (fun u => (loss_p (ABCFunc.init 1 (1 : ℝ) 0 1) u Statics.fresh).1)
      (dloss_p (ABCFunc.init 1 (1 : ℝ) 0 1) 1 Statics.fresh).1 1 := by
  have hθ : (ABCFunc.init 1 (1 : ℝ) 0 1).thres_ = 1 / 2 := by norm_num [ABCFunc.init]
  obtain ⟨h1, -, h3⟩ := dloss_p_wrong_sign (ABCFunc.init 1 (1 : ℝ) 0 1)
    (by norm_num [ABCFunc.init]) rfl 1 (by rw [hθ]; norm_num)
  have hv : dloss_p_spec (ABCFunc.init 1 (1 : ℝ) 0 1) 1 = 1 / 4 := by
    simp only [dloss_p_spec, hθ]
    norm_num [ABCFunc.init]
  refine ⟨?_, hv, h3⟩
  rw [hv] at h1; exact h1

/-! ## Loops -/

/-- The rule for a counted loop: an invariant that holds at entry and is carried by every
iteration holds at exit, and the loop does not fail. -/
theorem foldlM_range'_inv {σ : Type} (step : σ → Nat → Option σ) (Inv : Nat → σ → Prop)
    (cnt : Nat) : ∀ (s : Nat) (init : σ), Inv s init →
    (∀ i st, s ≤ i → i < s + cnt → Inv i st → ∃ st', step st i = some st' ∧ Inv (i + 1) st') →
    ∃ st', (List.range' s cnt).foldlM step init = some st' ∧ Inv (s + cnt) st' := by
  induction cnt with
  | zero => intro s init h0 _; exact ⟨init, by simp, by simpa using h0⟩
  | succ n ih =>
    intro s init h0 hstep
    obtain ⟨st1, h1, hinv1⟩ := hstep s init le_rfl (by omega) h0
    obtain ⟨st', h2, hinv2⟩ := ih (s + 1) st1 hinv1 (fun i st hi hlt hinv =>
      hstep i st (by omega) (by omega) hinv)
    refine ⟨st', ?_, ?_⟩
    · rw [List.range'_succ, List.foldlM_cons, h1]; exact h2
    · have : s + (n + 1) = s + 1 + n := by omega
      rw [this]; exact hinv2

theorem store_eq_some {β : Type} (l : List β) (i : Nat) (v : β) (h : i < l.length) :
    store l i v = some (l.set i v) := by
  simp [store, h]

theorem resize_length {β : Type} [Zero β] (l : List β) (n : Nat) : (resize l n).length = n := by
  simp [resize]; omega

theorem fill_eq_some {α : Type} (l : List α) (a b : Nat) (v : α) (hab : a ≤ b)
    (hb : b ≤ l.length) :
    ∃ l', fill l a b v = some l' ∧ l'.length = l.length ∧
      ∀ t, l'[t]? = if a ≤ t ∧ t < b then some v else l[t]? := by
  refine ⟨l.take a ++ List.replicate (b - a) v ++ l.drop b, by simp [fill, hab, hb], ?_, ?_⟩
  · simp; omega
  · intro t
    by_cases h1 : t < a
    · have : ¬ (a ≤ t ∧ t < b) := by omega
      rw [if_neg this, List.append_assoc, List.getElem?_append_left (by simp; omega)]
      simp [List.getElem?_take, h1]
    · by_cases h2 : t < b
      · have : (a ≤ t ∧ t < b) := by omega
        rw [if_pos this, List.append_assoc, List.getElem?_append_right (by simp; omega),
          List.getElem?_append_left (by simp; omega)]
        simp [List.getElem?_replicate]; omega
      · have : ¬ (a ≤ t ∧ t < b) := by omega
        rw [if_neg this, List.getElem?_append_right (by simp; omega)]
        simp
        congr 1
        omega

/-! ## Simplex encoder -/

/-- The loop `w_[j * k_ - 1] += c3`, `j = 1 .. k_ - 1`. -/
theorem simplex_w_loop {α : Type} [LinearOrderedField α] (k : Nat) (hk : 2 ≤ k) (c3 : α)
    (w0 : List α) (base : Nat → α) (hlen : w0.length = k * (k - 1))
    (hbase : ∀ t, t < k * (k - 1) → w0[t]? = some (base t)) :
    ∃ w, (List.range' 1 (k - 1)).foldlM
        (fun w j => (w[j * k - 1]?).bind (fun old => store w (j * k - 1) (old + c3))) w0 = some w ∧
      w.length = k * (k - 1) ∧
      ∀ t, t < k * (k - 1) → w[t]? = some (base t + if (t + 1) % k = 0 then c3 else 0) := by
  have hk0 : 0 < k := by omega
  obtain ⟨w, hw, hlen', hval⟩ := foldlM_range'_inv
    (fun w j => (w[j * k - 1]?).bind (fun old => store w (j * k - 1) (old + c3)))
    (fun j (w : List α) => w.length = k * (k - 1) ∧ ∀ t, t < k * (k - 1) →
      w[t]? = some (base t + if (t + 1) % k = 0 ∧ (t + 1) / k < j then c3 else 0))
    (k - 1) 1 w0 ⟨hlen, fun t ht => by
      have : ¬ ((t + 1) % k = 0 ∧ (t + 1) / k < 1) := by
        rintro ⟨h1, h2⟩
        have := Nat.div_add_mod (t + 1) k
        have h3 : (t + 1) / k = 0 := Nat.lt_one_iff.mp h2
        rw [h1, h3] at this; simp at this
      rw [if_neg this, add_zero]; exact hbase t ht⟩
    (by
      rintro j w hj1 hj2 ⟨hl, hv⟩
      have hjk : j * k ≤ (k - 1) * k := Nat.mul_le_mul_right k (by omega)
      have hjk1 : 1 * k ≤ j * k := Nat.mul_le_mul_right k hj1
      have hcomm : (k - 1) * k = k * (k - 1) := Nat.mul_comm _ _
      have hidx : j * k - 1 < k * (k - 1) := by omega
      have hmod : (j * k - 1 + 1) % k = 0 := by
        have : j * k - 1 + 1 = j * k := by omega
        rw [this]; exact Nat.mul_mod_left _ _
      have hdiv : (j * k - 1 + 1) / k = j := by
        have : j * k - 1 + 1 = j * k := by omega
        rw [this]; exact Nat.mul_div_cancel _ hk0
      have hold := hv _ hidx
      rw [if_neg (by rw [hdiv]; omega), add_zero] at hold
      refine ⟨w.set (j * k - 1) (base (j * k - 1) + c3), ?_, ?_, ?_⟩
      · simp only [hold, Option.some_bind]
        exact store_eq_some _ _ _ (by omega)
      · simpa using hl
      · intro t ht
        rw [List.getElem?_set]
        by_cases e : j * k - 1 = t
        · subst e
          rw [if_pos rfl, if_pos (by omega), if_pos ⟨hmod, by rw [hdiv]; omega⟩]
        · rw [if_neg e, hv t ht]
          congr 2
          refine if_congr ⟨?_, ?_⟩ rfl rfl
          · rintro ⟨h1, h2⟩; exact ⟨h1, Nat.lt_succ_of_lt h2⟩
          · rintro ⟨h1, h2⟩
            refine ⟨h1, ?_⟩
            rcases Nat.lt_succ_iff_lt_or_eq.mp h2 with h3 | h3
            · exact h3
            · exfalso
              have := Nat.div_add_mod (t + 1) k
              rw [h1, h3, Nat.mul_comm] at this
              omega)
  refine ⟨w, hw, hlen', fun t ht => ?_⟩
  rw [hval t ht]
  congr 2
  refine if_congr ⟨?_, ?_⟩ rfl rfl
  · rintro ⟨h1, _⟩; exact h1
  · intro h1
    refine ⟨h1, ?_⟩
    have h2 := Nat.div_add_mod (t + 1) k
    rw [h1] at h2
    have h4 : k * (k - 1) + k = k * k := by
      obtain ⟨k', rfl⟩ : ∃ k', k = k' + 1 := ⟨k - 1, by omega⟩
      simp only [Nat.add_sub_cancel]; ring
    have h3 : k * ((t + 1) / k) < k * k := by omega
    have := Nat.lt_of_mul_lt_mul_left h3
    omega

theorem div_mod_of_eq (k j r : Nat) (hr : r < k) : (j * k + r) / k = j ∧ (j * k + r) % k = r := by
  have hk : 0 < k := by omega
  constructor
  · rw [Nat.mul_comm, Nat.mul_add_div hk, Nat.div_eq_of_lt hr, Nat.add_zero]
  · rw [Nat.mul_comm, Nat.mul_add_mod, Nat.mod_eq_of_lt hr]

theorem eq_of_div_mod (k t j r : Nat) (h1 : t / k = j) (h2 : t % k = r) : t = j * k + r := by
  have := Nat.div_add_mod t k
  rw [h1, h2, Nat.mul_comm] at this
  exact this.symm

/-- The loop `wt_[j * k_] = c1; wt_[j * k_ + j + 1] += c3`, `j = 0 .. k_ - 2`. -/
theorem simplex_wt_loop {α : Type} [LinearOrderedField α] (k : Nat) (hk : 2 ≤ k) (c1 c2 c3 : α)
    (wt0 : List α) (hlen : wt0.length = k * (k - 1))
    (hbase : ∀ t, t < k * (k - 1) → wt0[t]? = some c2) :
    ∃ wt, (List.range' 0 (k - 1)).foldlM
        (fun wt j => do
          let wt ← store wt (j * k) c1
          let old ← wt[j * k + j + 1]?
          store wt (j * k + j + 1) (old + c3)) wt0 = some wt ∧
      wt.length = k * (k - 1) ∧
      ∀ t, t < k * (k - 1) → wt[t]? = some
        (if t % k = 0 then c1 else c2 + if t % k = t / k + 1 then c3 else 0) := by
  have hk0 : 0 < k := by omega
  obtain ⟨wt, hwt, hlen', hval⟩ := foldlM_range'_inv
    (fun wt j => do
          let wt ← store wt (j * k) c1
          let old ← wt[j * k + j + 1]?
          store wt (j * k + j + 1) (old + c3))
    (fun j (wt : List α) => wt.length = k * (k - 1) ∧ ∀ t, t < k * (k - 1) →
      wt[t]? = some (if t / k < j then
        (if t % k = 0 then c1 else c2 + if t % k = t / k + 1 then c3 else 0) else c2))
    (k - 1) 0 wt0 ⟨hlen, fun t ht => by simpa using hbase t ht⟩
    (by
      rintro j wt _ hj2 ⟨hl, hv⟩
      have hjk : (j + 1) * k ≤ (k - 1) * k := Nat.mul_le_mul_right k (by omega)
      have hcomm : (k - 1) * k = k * (k - 1) := Nat.mul_comm _ _
      have hsucc : (j + 1) * k = j * k + k := by ring
      have hidx1 : j * k < k * (k - 1) := by omega
      have hidx2 : j * k + j + 1 < k * (k - 1) := by omega
      have hd1 := div_mod_of_eq k j 0 hk0
      have hd2 := div_mod_of_eq k j (j + 1) (by omega)
      simp only [Nat.add_zero] at hd1
      rw [← Nat.add_assoc] at hd2
      have hold : (wt.set (j * k) c1)[j * k + j + 1]? = some c2 := by
        rw [List.getElem?_set, if_neg (by omega), hv _ hidx2, if_neg (by rw [hd2.1]; omega)]
      refine ⟨(wt.set (j * k) c1).set (j * k + j + 1) (c2 + c3), ?_, ?_, ?_⟩
      · simp only [store_eq_some wt (j * k) c1 (by omega), Option.bind_eq_bind,
          Option.some_bind, hold]
        apply store_eq_some
        rw [List.length_set]; omega
      · simpa using hl
      · intro t ht
        rw [List.getElem?_set]
        by_cases e2 : j * k + j + 1 = t
        · subst e2
          rw [if_pos rfl,
            if_pos (show j * k + j + 1 < (wt.set (j * k) c1).length by
              rw [List.length_set]; omega),
            if_pos (by rw [hd2.1]; omega),
            if_neg (by rw [hd2.2]; omega), if_pos (by rw [hd2.1, hd2.2])]
        · rw [if_neg e2, List.getElem?_set]
          by_cases e1 : j * k = t
          · subst e1
            rw [if_pos rfl, if_pos (by omega), if_pos (by rw [hd1.1]; omega), if_pos hd1.2]
          · rw [if_neg e1, hv t ht]
            by_cases h1 : t / k < j
            · rw [if_pos h1, if_pos (Nat.lt_succ_of_lt h1)]
            · rw [if_neg h1]
              by_cases h2 : t / k = j
              · rw [if_pos (by omega)]
                have hm0 : ¬ t % k = 0 := by
                  intro h3
                  exact e1 (by have := eq_of_div_mod k t j 0 h2 h3; omega)
                have hm1 : ¬ t % k = t / k + 1 := by
                  intro h3
                  rw [h2] at h3
                  exact e2 (by have := eq_of_div_mod k t j (j + 1) h2 h3; omega)
                rw [if_neg hm0, if_neg hm1, add_zero]
              · rw [if_neg (by omega)])
  refine ⟨wt, hwt, hlen', fun t ht => ?_⟩
  rw [hval t ht, if_pos]
  have h4 : k * (k - 1) = (k - 1) * k := Nat.mul_comm _ _
  rw [Nat.zero_add]
  exact (Nat.div_lt_iff_lt_mul hk0).mpr (by omega)

/-- What `set_simplex_vertices` leaves in `w_` and `wt_`, entry by entry, for `k_ ≥ 2`. -/
theorem set_simplex_vertices_spec {α : Type} [LinearOrderedField α] (m : Libm α)
    (self : ABCFunc α) (hk : 2 ≤ self.k_) :
    ∃ w wt, set_simplex_vertices m self = some { self with w_ := w, wt_ := wt } ∧
      w.length = self.k_ * (self.k_ - 1) ∧ wt.length = self.k_ * (self.k_ - 1) ∧
      (∀ t, t < self.k_ * (self.k_ - 1) → w[t]? = some
        ((if t < self.k_ then simplex_c1 m self.k_ else simplex_c2 m self.k_) +
          if (t + 1) % self.k_ = 0 then simplex_c3 m self.k_ else 0)) ∧
      (∀ t, t < self.k_ * (self.k_ - 1) → wt[t]? = some
        (if t % self.k_ = 0 then simplex_c1 m self.k_
          else simplex_c2 m self.k_ +
            if t % self.k_ = t / self.k_ + 1 then simplex_c3 m self.k_ else 0)) := by
  have hsz : self.k_ ≤ self.k_ * (self.k_ - 1) := by
    have := Nat.mul_le_mul_left self.k_ (show 1 ≤ self.k_ - 1 by omega)
    omega
  obtain ⟨w1, hw1, hl1, hv1⟩ := fill_eq_some (resize self.w_ (self.k_ * (self.k_ - 1))) 0
    self.k_ (simplex_c1 m self.k_) (Nat.zero_le _) (by rw [resize_length]; exact hsz)
  rw [resize_length] at hl1
  obtain ⟨w2, hw2, hl2, hv2⟩ := fill_eq_some w1 self.k_ (self.k_ * (self.k_ - 1))
    (simplex_c2 m self.k_) hsz (by omega)
  rw [hl1] at hl2
  obtain ⟨w, hw, hl, hv⟩ := simplex_w_loop self.k_ hk (simplex_c3 m self.k_) w2
    (fun t => if t < self.k_ then simplex_c1 m self.k_ else simplex_c2 m self.k_) hl2
    (fun t ht => by
      rw [hv2 t]
      by_cases h : t < self.k_
      · rw [if_neg (by omega), hv1 t, if_pos ⟨Nat.zero_le _, h⟩]; simp only [h, if_true]
      · rw [if_pos ⟨by omega, ht⟩]; simp only [h, if_false])
  obtain ⟨wt1, hwt1, hlt1, hvt1⟩ := fill_eq_some (resize self.wt_ (self.k_ * (self.k_ - 1))) 0
    (self.k_ * (self.k_ - 1)) (simplex_c2 m self.k_) (Nat.zero_le _)
    (by rw [resize_length])
  rw [resize_length] at hlt1
  obtain ⟨wt, hwt, hlt, hvt⟩ := simplex_wt_loop self.k_ hk (simplex_c1 m self.k_)
    (simplex_c2 m self.k_) (simplex_c3 m self.k_) wt1 hlt1
    (fun t ht => by rw [hvt1 t, if_pos ⟨Nat.zero_le _, ht⟩])
  refine ⟨w, wt, ?_, hl, hlt, hv, hvt⟩
  simp only [Option.bind_eq_bind] at hwt
  have hk0 : ¬ self.k_ = 0 := by omega
  simp only [set_simplex_vertices, hw1, hw2, hw, hwt1, hwt, hk0, if_false,
    Option.bind_eq_bind, Option.some_bind, Option.pure_def]

theorem w_index_mod (k r j : Nat) (hr : r < k) (hj : j < k - 1) :
    (r * (k - 1) + j + 1) % k = 0 ↔ j + 1 = r := by
  obtain ⟨k', rfl⟩ : ∃ k', k = k' + 1 := ⟨k - 1, by omega⟩
  simp only [Nat.add_sub_cancel] at hj ⊢
  rcases Nat.lt_trichotomy (j + 1) r with h | h | h
  · obtain ⟨r', rfl⟩ : ∃ r', r = r' + 1 := ⟨r - 1, by omega⟩
    have e : (r' + 1) * k' + j + 1 = r' * (k' + 1) + (k' + 1 - (r' - j)) := by
      have h1 : (r' + 1) * k' = r' * k' + k' := by ring
      have h2 : r' * (k' + 1) = r' * k' + r' := by ring
      omega
    rw [e, (div_mod_of_eq (k' + 1) r' (k' + 1 - (r' - j)) (by omega)).2]
    omega
  · subst h
    have e : (j + 1) * k' + j + 1 = (j + 1) * (k' + 1) + 0 := by ring
    rw [e, (div_mod_of_eq (k' + 1) (j + 1) 0 (by omega)).2]
    simp
  · have e : r * k' + j + 1 = r * (k' + 1) + (j + 1 - r) := by
      have h2 : r * (k' + 1) = r * k' + r := by ring
      omega
    rw [e, (div_mod_of_eq (k' + 1) r (j + 1 - r) (by omega)).2]
    omega

theorem w_index_lt (k r j : Nat) (hr : r < k) (hj : j < k - 1) :
    r * (k - 1) + j < k * (k - 1) := by
  have h1 : (r + 1) * (k - 1) ≤ k * (k - 1) := Nat.mul_le_mul_right _ (by omega)
  have h2 : (r + 1) * (k - 1) = r * (k - 1) + (k - 1) := by ring
  omega

/-- Rows `0` and `r ≥ 2` of `w_` as `set_simplex_vertices` leaves them: row `0` is
`(c1, ..., c1)` and row `r ≥ 2` is `c2` everywhere but `c2 + c3` at coordinate `r - 1`. -/
theorem set_simplex_vertices_rows {α : Type} [LinearOrderedField α] (m : Libm α)
    (self : ABCFunc α) (hk : 2 ≤ self.k_) :
    ∃ self', set_simplex_vertices m self = some self' ∧ self'.k_ = self.k_ ∧
      (∀ j, j < self.k_ - 1 → W_entry self'.w_ self.k_ 0 j = simplex_c1 m self.k_) ∧
      (∀ j, j < self.k_ - 1 → W_entry self'.w_ self.k_ 1 j =
        if j = 0 then simplex_c1 m self.k_ + simplex_c3 m self.k_ else simplex_c2 m self.k_) ∧
      (∀ r j, 2 ≤ r → r < self.k_ → j < self.k_ - 1 → W_entry self'.w_ self.k_ r j =
        simplex_c2 m self.k_ + if j + 1 = r then simplex_c3 m self.k_ else 0) := by
  obtain ⟨w, wt, h, hl, -, hv, -⟩ := set_simplex_vertices_spec m self hk
  refine ⟨_, h, rfl, ?_, ?_, ?_⟩
  · intro j hj
    have ht := w_index_lt self.k_ 0 j (by omega) hj
    have hm := w_index_mod self.k_ 0 j (by omega) hj
    simp only [W_entry, List.getD_eq_getElem?_getD, hv _ ht, Option.getD_some]
    rw [if_pos (by omega), if_neg (by rw [hm]; omega), add_zero]
  · intro j hj
    have ht := w_index_lt self.k_ 1 j (by omega) hj
    have hm := w_index_mod self.k_ 1 j (by omega) hj
    simp only [W_entry, List.getD_eq_getElem?_getD, hv _ ht, Option.getD_some]
    by_cases h0 : j = 0
    · rw [if_pos (by omega), if_pos (by rw [hm]; omega), if_pos h0]
    · rw [if_neg (by omega), if_neg (by rw [hm]; omega), if_neg h0, add_zero]
  · intro r j hr2 hr hj
    have ht := w_index_lt self.k_ r j hr hj
    have hm := w_index_mod self.k_ r j hr hj
    have hge : ¬ r * (self.k_ - 1) + j < self.k_ := by
      have := Nat.mul_le_mul_right (self.k_ - 1) hr2
      omega
    simp only [W_entry, List.getD_eq_getElem?_getD, hv _ ht, Option.getD_some]
    rw [if_neg hge]
    congr 1
    exact if_congr hm rfl rfl

/-- The algebra behind the simplex: for `s² = K` and `a²(K-1) = 1`, with `c1 = a`,
`c2 = -(1+s)a³` and `c3 = s·a`. -/
theorem simplex_algebra (a s K : ℝ) (hs : s ^ 2 = K) (ha : a ^ 2 * (K - 1) = 1) :
    (K - 2) * (a - -(1 + s) * a ^ 3) ^ 2 + (a - -(1 + s) * a ^ 3 - s * a) ^ 2
      = 2 * K / (K - 1) ∧
    2 * (s * a) ^ 2 = 2 * K / (K - 1) ∧
    (K - 1) * (-(1 + s) * a ^ 3) + s * a = -a := by
  subst hs
  have hK : s ^ 2 - 1 ≠ 0 := by
    intro h; rw [h] at ha; simp at ha
  have ha2 : a ^ 2 = 1 / (s ^ 2 - 1) := by field_simp; linarith
  have ha3 : a ^ 3 = a / (s ^ 2 - 1) := by
    calc a ^ 3 = a * a ^ 2 := by ring
      _ = a / (s ^ 2 - 1) := by rw [ha2]; ring
  refine ⟨?_, ?_, ?_⟩
  · have goal : (s ^ 2 - 2) * (a - -(1 + s) * (a / (s ^ 2 - 1))) ^ 2 +
        (a - -(1 + s) * (a / (s ^ 2 - 1)) - s * a) ^ 2 = 2 * s ^ 2 * a ^ 2 := by
      field_simp
      ring
    rw [ha3, goal, ha2]; field_simp
  · rw [mul_pow, ha2]; field_simp
  · rw [ha3]; field_simp; ring

/-- The constants of `set_simplex_vertices` over the reals. -/
theorem simplex_consts (m : Libm ℝ) (hm : m.sqrt = Real.sqrt) (k : Nat) (hk : 2 ≤ k) :
    0 < simplex_c1 m k ∧ simplex_c1 m k ^ 2 * ((k : ℝ) - 1) = 1 ∧
    Real.sqrt k ^ 2 = (k : ℝ) ∧ simplex_c3 m k = Real.sqrt k * simplex_c1 m k ∧
    simplex_c2 m k = -(1 + Real.sqrt k) * simplex_c1 m k ^ 3 ∧
    simplex_c1 m k = 1 / Real.sqrt ((k : ℝ) - 1) := by
  have hK : (2 : ℝ) ≤ (k : ℝ) := by exact_mod_cast hk
  have hcast : (((k - 1 : Nat)) : ℝ) = (k : ℝ) - 1 := by
    rw [Nat.cast_sub (by omega)]; simp
  have hpos : 0 < Real.sqrt ((k : ℝ) - 1) := Real.sqrt_pos.mpr (by linarith)
  have hsq : Real.sqrt ((k : ℝ) - 1) ^ 2 = (k : ℝ) - 1 := Real.sq_sqrt (by linarith)
  have hc1 : simplex_c1 m k = 1 / Real.sqrt ((k : ℝ) - 1) := by
    simp only [simplex_c1, hm, hcast]
  refine ⟨?_, ?_, Real.sq_sqrt (by linarith), ?_, ?_, hc1⟩
  · rw [hc1]; positivity
  · rw [hc1, div_pow, one_pow, hsq]; exact div_mul_cancel₀ _ (by linarith)
  · simp only [simplex_c3, hm]
  · simp only [simplex_c2, hm]

theorem sum_ite_succ (n r : Nat) (hr1 : 1 ≤ r) (hr : r ≤ n) (v : ℝ) :
    Finset.sum (Finset.range n) (fun j => if j + 1 = r then v else 0) = v := by
  rw [Finset.sum_eq_single (r - 1)]
  · rw [if_pos (by omega)]
  · intro b _ hb; rw [if_neg (by omega)]
  · intro h; exact absurd (Finset.mem_range.mpr (by omega)) h

theorem W_sq_dist_comm {α : Type} [LinearOrderedField α] (w : List α) (k r s : Nat) :
    W_sq_dist w k r s = W_sq_dist w k s r := by
  unfold W_sq_dist
  apply Finset.sum_congr rfl
  intro j _; ring

/-- Row sums and squared distances of the rows `0, 2, 3, ..., k-1` of `w_` in terms of the
constants `c1`, `c2`, `c3`. -/
theorem simplex_rows_sums (m : Libm ℝ) (self : ABCFunc ℝ) (hk : 2 ≤ self.k_) :
    ∃ self', set_simplex_vertices m self = some self' ∧ self'.k_ = self.k_ ∧
      W_row_sum self'.w_ self.k_ 0 = ((self.k_ : ℝ) - 1) * simplex_c1 m self.k_ ∧
      (∀ r, 2 ≤ r → r < self.k_ → W_row_sum self'.w_ self.k_ r =
        ((self.k_ : ℝ) - 1) * simplex_c2 m self.k_ + simplex_c3 m self.k_) ∧
      (∀ s, 2 ≤ s → s < self.k_ → W_sq_dist self'.w_ self.k_ 0 s =
        ((self.k_ : ℝ) - 2) * (simplex_c1 m self.k_ - simplex_c2 m self.k_) ^ 2 +
          (simplex_c1 m self.k_ - simplex_c2 m self.k_ - simplex_c3 m self.k_) ^ 2) ∧
      (∀ r s, 2 ≤ r → r < self.k_ → 2 ≤ s → s < self.k_ → r ≠ s →
        W_sq_dist self'.w_ self.k_ r s = 2 * simplex_c3 m self.k_ ^ 2) := by
  obtain ⟨self', h, hk', h0, -, hr⟩ := set_simplex_vertices_rows m self hk
  have hcast : (((self.k_ - 1 : Nat)) : ℝ) = (self.k_ : ℝ) - 1 := by
    rw [Nat.cast_sub (by omega)]; simp
  refine ⟨self', h, hk', ?_, ?_, ?_, ?_⟩
  · unfold W_row_sum
    rw [Finset.sum_congr rfl (fun j hj => h0 j (Finset.mem_range.mp hj))]
    rw [Finset.sum_const, Finset.card_range, nsmul_eq_mul, hcast]
  · intro r hr2 hrk
    unfold W_row_sum
    rw [Finset.sum_congr rfl (fun j hj => hr r j hr2 hrk (Finset.mem_range.mp hj))]
    rw [Finset.sum_add_distrib, Finset.sum_const, Finset.card_range, nsmul_eq_mul, hcast,
      sum_ite_succ _ r (by omega) (by omega)]
  · intro s hs2 hsk
    unfold W_sq_dist
    have e : ∀ j ∈ Finset.range (self.k_ - 1),
        (W_entry self'.w_ self.k_ 0 j - W_entry self'.w_ self.k_ s j) ^ 2
        = (simplex_c1 m self.k_ - simplex_c2 m self.k_) ^ 2 +
          (if j + 1 = s then
            (simplex_c1 m self.k_ - simplex_c2 m self.k_ - simplex_c3 m self.k_) ^ 2 -
              (simplex_c1 m self.k_ - simplex_c2 m self.k_) ^ 2 else 0) := by
      intro j hj
      rw [h0 j (Finset.mem_range.mp hj), hr s j hs2 hsk (Finset.mem_range.mp hj)]
      split_ifs <;> ring
    rw [Finset.sum_congr rfl e, Finset.sum_add_distrib, Finset.sum_const, Finset.card_range,
      nsmul_eq_mul, hcast, sum_ite_succ _ s (by omega) (by omega)]
    ring
  · intro r s hr2 hrk hs2 hsk hne
    unfold W_sq_dist
    have e : ∀ j ∈ Finset.range (self.k_ - 1),
        (W_entry self'.w_ self.k_ r j - W_entry self'.w_ self.k_ s j) ^ 2
        = (if j + 1 = r then simplex_c3 m self.k_ ^ 2 else 0) +
          (if j + 1 = s then simplex_c3 m self.k_ ^ 2 else 0) := by
      intro j hj
      rw [hr r j hr2 hrk (Finset.mem_range.mp hj), hr s j hs2 hsk (Finset.mem_range.mp hj)]
      by_cases h1 : j + 1 = r
      · have h2 : ¬ j + 1 = s := fun h2 => hne (h1.symm.trans h2)
        simp only [if_pos h1, if_neg h2]; ring
      · by_cases h2 : j + 1 = s
        · simp only [if_neg h1, if_pos h2]; ring
        · simp only [if_neg h1, if_neg h2]; ring
    rw [Finset.sum_congr rfl e, Finset.sum_add_distrib, sum_ite_succ _ r (by omega) (by omega),
      sum_ite_succ _ s (by omega) (by omega)]
    ring

/-- C9 (amended). For every k ≥ 2, in the matrix W (`w_`) built by `set_simplex_vertices`
and read as k rows of k-1 coordinates: row 0 sums to √(k-1), every row r ≥ 2 sums to the
same constant -1/√(k-1), and every two distinct rows other than row 1 are at the same
squared distance 2k/(k-1). -/
theorem simplex_rows_except_row_one (m : Libm ℝ) (hm : m.sqrt = Real.sqrt) (self : ABCFunc ℝ)
    (hk : 2 ≤ self.k_) :
    ∃ self', set_simplex_vertices m self = some self' ∧
      W_row_sum self'.w_ self.k_ 0 = Real.sqrt ((self.k_ : ℝ) - 1) ∧
      (∀ r, 2 ≤ r → r < self.k_ →
        W_row_sum self'.w_ self.k_ r = -(1 / Real.sqrt ((self.k_ : ℝ) - 1))) ∧
      (∀ r s, r < self.k_ → s < self.k_ → r ≠ 1 → s ≠ 1 → r ≠ s →
        W_sq_dist self'.w_ self.k_ r s = 2 * (self.k_ : ℝ) / ((self.k_ : ℝ) - 1)) := by
  obtain ⟨self', h, -, h0, hr, hd0, hd⟩ := simplex_rows_sums m self hk
  obtain ⟨hpos, ha2, hs, h3, h2, hc1⟩ := simplex_consts m hm self.k_ hk
  obtain ⟨a1, a2, a3⟩ := simplex_algebra (simplex_c1 m self.k_) (Real.sqrt self.k_)
    (self.k_ : ℝ) hs ha2
  have hK : (2 : ℝ) ≤ (self.k_ : ℝ) := by exact_mod_cast hk
  have hsq : Real.sqrt ((self.k_ : ℝ) - 1) ^ 2 = (self.k_ : ℝ) - 1 := Real.sq_sqrt (by linarith)
  have hpos' : 0 < Real.sqrt ((self.k_ : ℝ) - 1) := Real.sqrt_pos.mpr (by linarith)
  refine ⟨self', h, ?_, ?_, ?_⟩
  · rw [h0, hc1, ← hsq]
    rw [Real.sqrt_sq hpos'.le]
    field_simp; ring
  · intro r hr2 hrk
    rw [hr r hr2 hrk, h2, h3, a3, hc1]
  · intro r s hrk hsk hr1 hs1 hne
    rcases Nat.eq_zero_or_pos r with hr0 | hr0
    · subst hr0
      rw [hd0 s (by omega) hsk, h2, h3]; exact a1
    · rcases Nat.eq_zero_or_pos s with hs0 | hs0
      · subst hs0
        rw [W_sq_dist_comm, hd0 r (by omega) hrk, h2, h3]; exact a1
      · rw [hd r s (by omega) hrk (by omega) hsk hne, h3]; exact a2

/-- The amended C9 at three classes. -/
theorem simplex_rows_except_row_one_witness :
    2 ≤ 3 ∧
    ∃ self', set_simplex_vertices (Libm.mk Real.sqrt Real.exp Real.rpow (fun _ => none))
        { ABCFunc.init 1 (1 : ℝ) 0 1 with k_ := 3 } = some self' ∧
      W_row_sum self'.w_ 3 0 = Real.sqrt (((3 : ℕ) : ℝ) - 1) ∧
      (∀ r, 2 ≤ r → r < 3 →
        W_row_sum self'.w_ 3 r = -(1 / Real.sqrt (((3 : ℕ) : ℝ) - 1))) ∧
      (∀ r s, r < 3 → s < 3 → r ≠ 1 → s ≠ 1 → r ≠ s →
        W_sq_dist self'.w_ 3 r s = 2 * ((3 : ℕ) : ℝ) / (((3 : ℕ) : ℝ) - 1)) :=
  ⟨by decide, simplex_rows_except_row_one (Libm.mk Real.sqrt Real.exp Real.rpow (fun _ => none))
    rfl { ABCFunc.init 1 (1 : ℝ) 0 1 with k_ := 3 } (by decide)⟩

/-- C9 (as stated) fails at k = 3: the rows of W built by `set_simplex_vertices` do not all
have the same coordinate sum (row 0 sums to √2, row 2 to -1/√2), so W does not have the
regular simplex property. -/
theorem simplex_rows_not_regular :
    ∃ self', set_simplex_vertices (Libm.mk Real.sqrt Real.exp Real.rpow (fun _ => none))
        { ABCFunc.init 1 (1 : ℝ) 0 1 with k_ := 3 } = some self' ∧
      ¬ regular_simplex_rows self'.w_ 3 := by
  obtain ⟨self', h, -, h0, hr, -, -⟩ := simplex_rows_sums
    (Libm.mk Real.sqrt Real.exp Real.rpow (fun _ => none))
    { ABCFunc.init 1 (1 : ℝ) 0 1 with k_ := 3 } (by decide)
  obtain ⟨hpos, ha2, hs, h3, h2, -⟩ := simplex_consts
    (Libm.mk Real.sqrt Real.exp Real.rpow (fun _ => none)) rfl 3 (by decide)
  obtain ⟨-, -, a3⟩ := simplex_algebra _ _ _ hs ha2
  refine ⟨self', h, ?_⟩
  rintro ⟨⟨c, hc⟩, -⟩
  have e0 := (h0.symm.trans (hc 0 (by decide)))
  have e2 := ((hr 2 (by decide) (by decide)).symm.trans (hc 2 (by decide)))
  rw [h2, h3, a3] at e2
  have hK : (0 : ℝ) < ((3 : ℕ) : ℝ) - 1 := by norm_num
  have : 0 < (((3 : ℕ) : ℝ) - 1) * simplex_c1
      (Libm.mk Real.sqrt Real.exp Real.rpow (fun _ => none)) 3 := mul_pos hK hpos
  change (((3 : ℕ) : ℝ) - 1) * simplex_c1 _ 3 = c at e0
  change -simplex_c1 _ 3 = c at e2
  linarith

/-- C10 at k = 2: `set_simplex_vertices` leaves `w_ = [1, 1 + √2]` and `wt_ = [1, -1]`, so
`wt_[0 * k + 1] = -1` while `w_[1 * (k - 1) + 0] = 1 + √2`: `wt_` is not the transpose of
`w_`. -/
theorem simplex_wt_not_transpose :
    ∃ self', set_simplex_vertices (Libm.mk Real.sqrt Real.exp Real.rpow (fun _ => none))
        { ABCFunc.init 1 (1 : ℝ) 0 1 with k_ := 2 } = some self' ∧
      self'.w_ = [1, 1 + Real.sqrt 2] ∧ self'.wt_ = [1, -1] ∧
      self'.wt_[0 * 2 + 1]? ≠ self'.w_[1 * (2 - 1) + 0]? := by
  refine ⟨_, rfl, ?_, ?_, ?_⟩
  · simp [set_simplex_vertices, simplex_c1, simplex_c2, simplex_c3, ABCFunc.init, resize, fill,
      store, List.range']
  · simp [set_simplex_vertices, simplex_c1, simplex_c2, simplex_c3, ABCFunc.init, resize, fill,
      store, List.range']
  · simp [set_simplex_vertices, simplex_c1, simplex_c2, simplex_c3, ABCFunc.init, resize, fill,
      store, List.range']
    intro h
    have : (0 : ℝ) ≤ Real.sqrt 2 := Real.sqrt_nonneg 2
    linarith

/-! ## Kernel engine: the feature buffer -/

/-- A counted loop that adds `f t` to its accumulator in iteration `t` returns the sum. -/
theorem foldlM_range'_sum {α : Type} [AddCommMonoid α] (step : α → Nat → Option α)
    (f : Nat → α) (s cnt : Nat) (init : α)
    (h : ∀ acc t, s ≤ t → t < s + cnt → step acc t = some (acc + f t)) :
    (List.range' s cnt).foldlM step init =
      some (init + Finset.sum (Finset.range cnt) (fun t => f (s + t))) := by
  induction cnt with
  | zero => simp
  | succ n ih =>
    rw [List.range'_concat, List.foldlM_append, ih (fun acc t h1 h2 => h acc t h1 (by omega))]
    simp only [Option.bind_eq_bind, Option.some_bind, List.foldlM_cons, List.foldlM_nil, one_mul]
    rw [h _ _ (by omega) (by omega), Finset.sum_range_succ, add_assoc]
    rfl

theorem getD_of_getElem? {β : Type} (l : List β) (i : Nat) (v d : β) (h : l[i]? = some v) :
    l.getD i d = v := by
  simp [List.getD_eq_getElem?_getD, h]

theorem getElem?_of_lt {β : Type} (l : List β) (i : Nat) (d : β) (h : i < l.length) :
    l[i]? = some (l.getD i d) := by
  simp [List.getD_eq_getElem?_getD, List.getElem?_eq_getElem h]

theorem index_inj (nvar r c r' c' : Nat) (hc : c < nvar) (hc' : c' < nvar)
    (h : r * nvar + c = r' * nvar + c') : r = r' ∧ c = c' := by
  have h1 := div_mod_of_eq nvar r c hc
  have h2 := div_mod_of_eq nvar r' c' hc'
  rw [h] at h1
  exact ⟨h1.1.symm.trans h2.1, h1.2.symm.trans h2.2⟩

theorem index_lt (n nvar r c : Nat) (hr : r < n) (hc : c < nvar) : r * nvar + c < n * nvar := by
  have h1 : (r + 1) * nvar ≤ n * nvar := Nat.mul_le_mul_right _ hr
  have h2 : (r + 1) * nvar = r * nvar + nvar := by ring
  omega

/-- One column copied into the row-major buffer. -/
theorem copy_column_spec {α : Type} (n nvar pos : Nat) (col temp : List α) (d0 : α)
    (hpos : pos < nvar) (hcol : col.length = n) (hlen : temp.length = n * nvar) :
    ∃ temp', (List.range' 0 n).foldlM
        (fun temp j => (col[j]?).bind (fun v => store temp (pos + j * nvar) v)) temp = some temp' ∧
      temp'.length = n * nvar ∧
      ∀ r c, r < n → c < nvar → temp'[r * nvar + c]? =
        if c = pos then some (col.getD r d0) else temp[r * nvar + c]? := by
  obtain ⟨temp', h, hl, hv⟩ := foldlM_range'_inv
    (fun temp j => (col[j]?).bind (fun v => store temp (pos + j * nvar) v))
    (fun j (t : List α) => t.length = n * nvar ∧ ∀ r c, r < n → c < nvar →
      t[r * nvar + c]? = if c = pos ∧ r < j then some (col.getD r d0) else temp[r * nvar + c]?)
    n 0 temp ⟨hlen, fun r c _ _ => by simp⟩
    (by
      rintro j t _ hj ⟨hl, hv⟩
      have hj' : j < n := by omega
      have hidx := index_lt n nvar j pos hj' hpos
      refine ⟨t.set (pos + j * nvar) (col.getD j d0), ?_, by simpa using hl, ?_⟩
      · beta_reduce
        rw [getElem?_of_lt col j d0 (by omega)]
        simp only [Option.some_bind]
        exact store_eq_some _ _ _ (by omega)
      · intro r c hr hc
        rw [List.getElem?_set]
        by_cases e : pos + j * nvar = r * nvar + c
        · have := index_inj nvar j pos r c hpos hc (by omega)
          obtain ⟨rfl, rfl⟩ := this
          rw [if_pos e, if_pos (by omega), if_pos ⟨rfl, by omega⟩]
        · rw [if_neg e, hv r c hr hc]
          refine if_congr ⟨fun ⟨h1, h2⟩ => ⟨h1, by omega⟩, fun ⟨h1, h2⟩ => ⟨h1, ?_⟩⟩ rfl rfl
          rcases Nat.lt_succ_iff_lt_or_eq.mp h2 with h3 | h3
          · exact h3
          · exfalso; apply e; rw [h1, h3]; omega)
  refine ⟨temp', h, hl, fun r c hr hc => ?_⟩
  rw [hv r c hr hc]
  exact if_congr ⟨fun h => h.1, fun h => ⟨h, by omega⟩⟩ rfl rfl

/-- One of the three column-copying loops. -/
theorem copy_columns_spec {α : Type} [LinearOrderedField α] (self : ABCFunc α)
    (cols : List (List α)) (off : Nat) (temp : List α) (d0 : α)
    (hoff : off + cols.length ≤ self.nvar_)
    (hcols : ∀ col ∈ cols, col.length = self.nsample_)
    (hlen : temp.length = self.nsample_ * self.nvar_) :
    ∃ temp', copy_columns self cols cols.length off temp = some temp' ∧
      temp'.length = self.nsample_ * self.nvar_ ∧
      ∀ r c, r < self.nsample_ → c < self.nvar_ → temp'[r * self.nvar_ + c]? =
        if off ≤ c ∧ c < off + cols.length then some ((cols.getD (c - off) []).getD r d0)
        else temp[r * self.nvar_ + c]? := by
  obtain ⟨temp', h, hl, hv⟩ := foldlM_range'_inv
    (fun temp i => (cols[i]?).bind (fun col =>
      (List.range' 0 self.nsample_).foldlM
        (fun temp j => (col[j]?).bind (fun v => store temp (off + i + j * self.nvar_) v))
        temp))
    (fun i (t : List α) => t.length = self.nsample_ * self.nvar_ ∧
      ∀ r c, r < self.nsample_ → c < self.nvar_ → t[r * self.nvar_ + c]? =
        if off ≤ c ∧ c < off + i then some ((cols.getD (c - off) []).getD r d0)
        else temp[r * self.nvar_ + c]?)
    cols.length 0 temp ⟨hlen, fun r c _ _ => by
      rw [if_neg (by omega)]⟩
    (by
      rintro i t _ hi ⟨hl, hv⟩
      have hi' : i < cols.length := by omega
      have hcol := getElem?_of_lt cols i [] hi'
      have hmem : cols.getD i [] ∈ cols := by
        rw [List.getD_eq_getElem?_getD, List.getElem?_eq_getElem hi']
        exact List.getElem_mem _
      obtain ⟨t', h', hl', hv'⟩ := copy_column_spec self.nsample_ self.nvar_ (off + i)
        (cols.getD i []) t d0 (by omega) (hcols _ hmem) hl
      refine ⟨t', ?_, hl', ?_⟩
      · beta_reduce
        rw [hcol]; exact h'
      · intro r c hr hc
        rw [hv' r c hr hc]
        by_cases e : c = off + i
        · rw [if_pos e, if_pos (by omega)]
          subst e
          rw [Nat.add_sub_cancel_left]
        · rw [if_neg e, hv r c hr hc]
          exact if_congr ⟨fun ⟨h1, h2⟩ => ⟨h1, by omega⟩, fun ⟨h1, h2⟩ => ⟨h1, by omega⟩⟩
            rfl rfl)
  refine ⟨temp', h, hl, fun r c hr hc => ?_⟩
  rw [hv r c hr hc]
  simp only [Nat.zero_add]

theorem getD_map_cast {α : Type} [LinearOrderedField α] (cols : List (List Int)) (i r : Nat)
    (hi : i < cols.length) (hr : r < (cols.getD i []).length) :
    ((cols.map (fun col => List.map (fun v : Int => (v : α)) col)).getD i []).getD r 0 =
      (((cols.getD i []).getD r 0 : Int) : α) := by
  simp only [List.getD_eq_getElem?_getD, List.getElem?_map, List.getElem?_eq_getElem hi,
    Option.map_some', Option.getD_some] at hr ⊢
  rw [List.getElem?_eq_getElem hr]
  simp

theorem wf_cols {α : Type} [LinearOrderedField α] (data : Data α) (hwf : data.wf = true) :
    (∀ col ∈ data.cont, col.length = data.nsample) ∧
    (∀ col ∈ data.ord, col.length = data.nsample) ∧
    (∀ col ∈ data.nom, col.length = data.nsample) ∧
    data.act.length = data.nsample ∧ data.resp.length = data.nsample ∧
    data.prob.length = data.nsample := by
  simp only [Data.wf, Bool.and_eq_true, List.all_eq_true, beq_iff_eq] at hwf
  obtain ⟨⟨⟨⟨⟨h1, h2⟩, h3⟩, h4⟩, h5⟩, h6⟩ := hwf
  exact ⟨h1, h2, h3, h4, h5, h6⟩

/-- The buffer `temp` of `compute_kernel_matrix` holds the samples row by row. -/
theorem feature_matrix_spec {α : Type} [LinearOrderedField α] (self : ABCFunc α)
    (data : Data α) (hwf : data.wf = true) (hd : dims_bound self data) :
    ∃ d, feature_matrix self data = some d ∧ d.length = self.nsample_ * self.nvar_ ∧
      ∀ r c, r < self.nsample_ → c < self.nvar_ →
        d[r * self.nvar_ + c]? = some (data.feature r c) := by
  obtain ⟨hn, hc, ho, hm, hv, -⟩ := hd
  obtain ⟨w1, w2, w3, -, -, -⟩ := wf_cols data hwf
  obtain ⟨t1, e1, l1, v1⟩ := copy_columns_spec self data.cont 0
    (List.replicate (self.nsample_ * self.nvar_) 0) 0 (by omega)
    (fun col hcol => by rw [hn]; exact w1 col hcol) (by simp)
  obtain ⟨t2, e2, l2, v2⟩ := copy_columns_spec self
    (data.ord.map (fun col => List.map (fun v : Int => (v : α)) col)) self.ncont_ t1 0
    (by rw [List.length_map]; omega)
    (fun col hcol => by
      obtain ⟨c0, hc0, rfl⟩ := List.mem_map.mp hcol
      rw [List.length_map, hn]; exact w2 c0 hc0) l1
  obtain ⟨t3, e3, l3, v3⟩ := copy_columns_spec self
    (data.nom.map (fun col => List.map (fun v : Int => (v : α)) col)) (self.ncont_ + self.nord_) t2 0
    (by rw [List.length_map]; omega)
    (fun col hcol => by
      obtain ⟨c0, hc0, rfl⟩ := List.mem_map.mp hcol
      rw [List.length_map, hn]; exact w3 c0 hc0) l2
  rw [List.length_map] at e2 e3 v2 v3
  refine ⟨t3, ?_, l3, ?_⟩
  · simp only [feature_matrix, Option.bind_eq_bind]
    rw [hc, e1, Option.some_bind, ho, ← hc, e2, Option.some_bind, hm, ← ho, e3]
  · intro r c hr hcv
    rw [v3 r c hr hcv]
    by_cases h3 : self.ncont_ + self.nord_ ≤ c
    · rw [if_pos ⟨h3, by omega⟩]
      have hi : c - (self.ncont_ + self.nord_) < data.nom.length := by omega
      have hmem : data.nom.getD (c - (self.ncont_ + self.nord_)) [] ∈ data.nom := by
        rw [List.getD_eq_getElem?_getD, List.getElem?_eq_getElem hi]
        exact List.getElem_mem _
      rw [getD_map_cast data.nom _ r hi (by rw [w3 _ hmem]; omega)]
      simp only [Data.feature]
      rw [if_neg (by omega), if_neg (by omega), hc, ho]
    · rw [if_neg (by omega), v2 r c hr hcv]
      by_cases h2 : self.ncont_ ≤ c
      · rw [if_pos ⟨h2, by omega⟩]
        have hi : c - self.ncont_ < data.ord.length := by omega
        have hmem : data.ord.getD (c - self.ncont_) [] ∈ data.ord := by
          rw [List.getD_eq_getElem?_getD, List.getElem?_eq_getElem hi]
          exact List.getElem_mem _
        rw [getD_map_cast data.ord _ r hi (by rw [w2 _ hmem]; omega)]
        simp only [Data.feature]
        rw [if_neg (by omega), if_pos (by omega), hc]
      · rw [if_neg (by omega), v1 r c hr hcv, if_pos ⟨Nat.zero_le _, by omega⟩]
        simp only [Data.feature]
        rw [if_pos (by omega), Nat.sub_zero]

/-- On the feature buffer the selected kernel function returns the kernel of the
specification. -/
theorem call_func_spec {α : Type} [LinearOrderedField α] (m : Libm α) (self : ABCFunc α)
    (data : Data α) (d : List α) (hd : dims_bound self data)
    (hv : ∀ r c, r < self.nsample_ → c < self.nvar_ →
      d[r * self.nvar_ + c]? = some (data.feature r c))
    (i j : Nat) (hi : i < self.nsample_) (hj : j < self.nsample_) :
    call_func m self d i j = some (kernel_spec m self data i j) := by
  obtain ⟨hn, hc, ho, hm, hvar, hcomp⟩ := hd
  have hcv : self.ncomp_ ≤ self.nvar_ := by omega
  have hnom : self.nvar_ - self.ncomp_ = data.nom.length := by omega
  unfold call_func kernel_spec
  cases hf : self.func_ with
  | rbf =>
    simp only [rbf, Option.bind_eq_bind, Option.pure_def]
    rw [foldlM_range'_sum _ (fun k => (data.feature i k - data.feature j k) ^ 2) 0 self.ncomp_ 0
      (fun acc t _ ht => by
        rw [hv i t hi (by omega), hv j t hj (by omega)]; rfl)]
    simp only [Option.some_bind, zero_add]
    rw [foldlM_range'_sum _
      (fun k => equal_to (data.feature i k) (data.feature j k)) self.ncomp_ _ _
      (fun acc t _ ht => by
        rw [hv i t hi (by omega), hv j t hj (by omega)]; rfl)]
    simp only [Option.some_bind, hnom, ← hcomp, equal_to]
    rw [mul_comm]
  | poly =>
    simp only [poly, inner_product, inner_product_with, Option.bind_eq_bind, Option.pure_def,
      Nat.add_sub_cancel_left]
    rw [foldlM_range'_sum _ (fun k => data.feature i k * data.feature j k) 0 self.ncomp_ 0
      (fun acc t _ ht => by
        rw [hv i t hi (by omega), hv j t hj (by omega)]; rfl)]
    simp only [Option.some_bind, zero_add]
    have e : self.nvar_ + i * self.nvar_ - (self.ncomp_ + i * self.nvar_) = data.nom.length := by
      omega
    have e' : i * self.nvar_ + self.nvar_ - (i * self.nvar_ + self.ncomp_)
        = data.nom.length := by omega
    rw [e']
    rw [foldlM_range'_sum _
      (fun k => equal_to (data.feature i (self.ncomp_ + k)) (data.feature j (self.ncomp_ + k)))
      0 data.nom.length 0
      (fun acc t _ ht => by
        rw [Nat.add_assoc, Nat.add_assoc, hv i _ hi (by omega), hv j _ hj (by omega)]; rfl)]
    simp only [Option.some_bind, zero_add, ← hcomp, equal_to]

/-- The kernel of the specification is symmetric in the two samples. -/
theorem kernel_spec_comm {α : Type} [LinearOrderedField α] (m : Libm α) (self : ABCFunc α)
    (data : Data α) (i j : Nat) : kernel_spec m self data i j = kernel_spec m self data j i := by
  unfold kernel_spec
  have e1 : ∀ c, (data.feature i c - data.feature j c) ^ 2
      = (data.feature j c - data.feature i c) ^ 2 := fun c => by ring
  have e2 : ∀ c, data.feature i c * data.feature j c = data.feature j c * data.feature i c :=
    fun c => mul_comm _ _
  have e3 : ∀ c, (if data.feature i c = data.feature j c then (1 : α) else 0)
      = if data.feature j c = data.feature i c then 1 else 0 := fun c =>
    if_congr eq_comm rfl rfl
  cases self.func_ <;> simp only [e1, e2, e3]

/-! ## Kernel engine: the workers -/

theorem tri_start_mono (n : Nat) (a b : Nat) (h : a ≤ b) : tri_start n a ≤ tri_start n b := by
  induction b with
  | zero => have : a = 0 := by omega
            subst this; exact le_rfl
  | succ b ih =>
    rcases Nat.lt_succ_iff_lt_or_eq.mp (Nat.lt_succ_of_le h) with h1 | h1
    · have := ih (by omega)
      simp only [tri_start]; omega
    · subst h1; exact le_rfl

theorem tri_start_twice (n : Nat) (i : Nat) (h : i ≤ n) :
    2 * tri_start n i + i * i = 2 * n * i + i := by
  induction i with
  | zero => simp [tri_start]
  | succ i ih =>
    have := ih (by omega)
    have e1 : (i + 1) * (i + 1) = i * i + 2 * i + 1 := by ring
    have e2 : 2 * n * (i + 1) = 2 * n * i + 2 * n := by ring
    simp only [tri_start]
    omega

theorem tri_start_total (n : Nat) : tri_start n n = n * (n + 1) / 2 := by
  have h := tri_start_twice n n le_rfl
  have e1 : n * (n + 1) = n * n + n := by ring
  have e2 : 2 * n * n = 2 * (n * n) := by ring
  omega

/-- The store of one kernel value into a cell and its mirror image. -/
theorem write_pair {α : Type} (val : Nat → Nat → α) (n : Nat) (km : List α) (i k : Nat)
    (hik : i ≤ k) (hk : k < n) (hlen : km.length = n * n) :
    ∃ km', (store km (i * n + k) (val i k)).bind (fun km1 => store km1 (k * n + i) (val i k))
        = some km' ∧ km'.length = n * n ∧
      (∀ a b, a < n → b < n → cell_done val n km a b → cell_done val n km' a b) ∧
      cell_done val n km' i k ∧ cell_done val n km' k i := by
  have hi : i < n := by omega
  have h1 := index_lt n n i k hi hk
  have h2 := index_lt n n k i hk hi
  have key : ∀ a b, a < n → b < n →
      ((km.set (i * n + k) (val i k)).set (k * n + i) (val i k))[a * n + b]? =
        if (a = i ∧ b = k) ∨ (a = k ∧ b = i) then some (val i k) else km[a * n + b]? := by
    intro a b ha hb
    rw [List.getElem?_set]
    by_cases e1 : k * n + i = a * n + b
    · obtain ⟨rfl, rfl⟩ := index_inj n k i a b hi hb e1
      rw [if_pos e1, if_pos (by rw [List.length_set]; omega), if_pos (Or.inr ⟨rfl, rfl⟩)]
    · rw [if_neg e1, List.getElem?_set]
      by_cases e2 : i * n + k = a * n + b
      · obtain ⟨rfl, rfl⟩ := index_inj n i k a b hk hb e2
        rw [if_pos e2, if_pos (by omega), if_pos (Or.inl ⟨rfl, rfl⟩)]
      · rw [if_neg e2, if_neg]
        rintro (⟨rfl, rfl⟩ | ⟨rfl, rfl⟩)
        · exact e2 rfl
        · exact e1 rfl
  refine ⟨(km.set (i * n + k) (val i k)).set (k * n + i) (val i k), ?_, ?_, ?_, ?_, ?_⟩
  · rw [store_eq_some _ _ _ (by omega), Option.some_bind]
    exact store_eq_some _ _ _ (by rw [List.length_set]; omega)
  · simp [hlen]
  · intro a b ha hb hdone
    unfold cell_done at hdone ⊢
    rw [key a b ha hb]
    split_ifs with hc
    · rcases hc with ⟨rfl, rfl⟩ | ⟨rfl, rfl⟩
      · rw [min_eq_left hik, max_eq_right hik]
      · rw [min_eq_right hik, max_eq_left hik]
    · exact hdone
  · unfold cell_done
    rw [key i k hi hk, if_pos (Or.inl ⟨rfl, rfl⟩), min_eq_left hik, max_eq_right hik]
  · unfold cell_done
    rw [key k i hk hi, if_pos (Or.inr ⟨rfl, rfl⟩), min_eq_right hik, max_eq_left hik]

/-- The `while` loop of `kernel_worker` in row `i`: it succeeds, keeps the cells that are
done, and completes the cells of the ranks `max first j .. bound`. -/
theorem kernel_worker_while_spec {α : Type} [LinearOrderedField α] (m : Libm α)
    (self : ABCFunc α) (d : List α) (val : Nat → Nat → α)
    (hval : ∀ i k, i < self.nsample_ → k < self.nsample_ →
      call_func m self d i k = some (val i k))
    (first i j bound : Nat) (kmat : List α) (hi : i < self.nsample_)
    (hb : i + (bound - j) < self.nsample_)
    (hlen : kmat.length = self.nsample_ * self.nsample_) :
    ∃ kmat', kernel_worker_while m self d first i j bound kmat = some kmat' ∧
      kmat'.length = self.nsample_ * self.nsample_ ∧
      (∀ a b, a < self.nsample_ → b < self.nsample_ →
        cell_done val self.nsample_ kmat a b → cell_done val self.nsample_ kmat' a b) ∧
      (∀ it, j ≤ it → it ≤ bound → first ≤ it →
        cell_done val self.nsample_ kmat' i (i + it - j) ∧
        cell_done val self.nsample_ kmat' (i + it - j) i) := by
  obtain ⟨kmat', h, hl, hm, hd⟩ := foldlM_range'_inv
    (fun kmat iter =>
      if iter ≥ first then do
        let k := i + iter - j
        let v ← call_func m self d i k
        let kmat ← store kmat (i * self.nsample_ + k) v
        store kmat (k * self.nsample_ + i) v
      else pure kmat)
    (fun it (km : List α) => km.length = self.nsample_ * self.nsample_ ∧
      (∀ a b, a < self.nsample_ → b < self.nsample_ →
        cell_done val self.nsample_ kmat a b → cell_done val self.nsample_ km a b) ∧
      (∀ it', j ≤ it' → it' < it → first ≤ it' →
        cell_done val self.nsample_ km i (i + it' - j) ∧
        cell_done val self.nsample_ km (i + it' - j) i))
    (bound + 1 - j) j kmat ⟨hlen, fun _ _ _ _ h => h, fun it' h1 h2 _ => by omega⟩
    (by
      rintro it km hit1 hit2 ⟨hl, hm, hd⟩
      have hk : i + it - j < self.nsample_ := by omega
      beta_reduce
      by_cases hf : it ≥ first
      · rw [if_pos hf]
        obtain ⟨km', e, hl', hm', hd1, hd2⟩ := write_pair val self.nsample_ km i (i + it - j)
          (by omega) hk hl
        refine ⟨km', ?_, hl', fun a b ha hb h => hm' a b ha hb (hm a b ha hb h), ?_⟩
        · simp only [Option.bind_eq_bind, hval i _ hi hk, Option.some_bind]
          exact e
        · intro it' h1 h2 h3
          rcases Nat.lt_succ_iff_lt_or_eq.mp h2 with h4 | h4
          · obtain ⟨p1, p2⟩ := hd it' h1 h4 h3
            exact ⟨hm' _ _ hi (by omega) p1, hm' _ _ (by omega) hi p2⟩
          · subst h4; exact ⟨hd1, hd2⟩
      · rw [if_neg hf]
        refine ⟨km, rfl, hl, hm, ?_⟩
        intro it' h1 h2 h3
        rcases Nat.lt_succ_iff_lt_or_eq.mp h2 with h4 | h4
        · exact hd it' h1 h4 h3
        · subst h4; exact absurd h3 hf)
  refine ⟨kmat', h, hl, hm, fun it h1 h2 h3 => hd it h1 (by omega) h3⟩

/-- Once `iter` has passed `last`, the row loop of `kernel_worker` writes nothing more. -/
theorem kernel_worker_rows_done {α : Type} [LinearOrderedField α] (m : Libm α)
    (self : ABCFunc α) (d : List α) (first last : Nat) (kmat : List α) :
    ∀ rows i iter, i + rows = self.nsample_ → last < iter →
      kernel_worker_rows m self d first last rows i iter kmat = some kmat := by
  intro rows
  induction rows with
  | zero => intro i iter _ _; rfl
  | succ rows ih =>
    intro i iter hi hlt
    simp only [kernel_worker_rows]
    by_cases h1 : iter + self.nsample_ - i - 1 < first
    · rw [if_pos h1]
      exact ih (i + 1) _ (by omega) (by omega)
    · rw [if_neg h1, if_neg (by omega)]
      exact ih (i + 1) iter (by omega) hlt

/-- The row loop of `kernel_worker` from row `i` on: it succeeds, keeps the cells that are
done, and completes every upper-triangle cell of a row `≥ i` whose rank lies in
`[first, last]`. -/
theorem kernel_worker_rows_spec {α : Type} [LinearOrderedField α] (m : Libm α)
    (self : ABCFunc α) (d : List α) (val : Nat → Nat → α)
    (hval : ∀ i k, i < self.nsample_ → k < self.nsample_ →
      call_func m self d i k = some (val i k))
    (first last : Nat) :
    ∀ rows i (kmat : List α), i + rows = self.nsample_ →
      kmat.length = self.nsample_ * self.nsample_ →
      ∃ kmat', kernel_worker_rows m self d first last rows i (tri_start self.nsample_ i) kmat
          = some kmat' ∧
        kmat'.length = self.nsample_ * self.nsample_ ∧
        (∀ a b, a < self.nsample_ → b < self.nsample_ →
          cell_done val self.nsample_ kmat a b → cell_done val self.nsample_ kmat' a b) ∧
        (∀ a b, i ≤ a → a ≤ b → b < self.nsample_ →
          first ≤ tri_start self.nsample_ a + (b - a) →
          tri_start self.nsample_ a + (b - a) ≤ last →
          cell_done val self.nsample_ kmat' a b ∧ cell_done val self.nsample_ kmat' b a) := by
  intro rows
  induction rows with
  | zero =>
    intro i kmat hi hlen
    exact ⟨kmat, rfl, hlen, fun _ _ _ _ h => h, fun a b h1 h2 h3 _ _ => by omega⟩
  | succ rows ih =>
    intro i kmat hi hlen
    have hin : i < self.nsample_ := by omega
    have hnext : tri_start self.nsample_ (i + 1)
        = tri_start self.nsample_ i + self.nsample_ - i - 1 + 1 := by
      simp only [tri_start]; omega
    simp only [kernel_worker_rows]
    by_cases h1 : tri_start self.nsample_ i + self.nsample_ - i - 1 < first
    · -- the whole row lies before `first`
      rw [if_pos h1, ← hnext]
      obtain ⟨kmat', e, hl, hm, hd⟩ := ih (i + 1) kmat (by omega) hlen
      refine ⟨kmat', e, hl, hm, ?_⟩
      intro a b ha hab hb hf hla
      rcases Nat.eq_or_lt_of_le ha with h2 | h2
      · subst h2; omega
      · exact hd a b h2 hab hb hf hla
    · rw [if_neg h1]
      by_cases h2 : last ≥ tri_start self.nsample_ i
      · -- the row meets `[first, last]`
        rw [if_pos h2]
        obtain ⟨km1, e1, hl1, hm1, hd1⟩ := kernel_worker_while_spec m self d val hval first i
          (tri_start self.nsample_ i)
          (min last (tri_start self.nsample_ i + self.nsample_ - i - 1)) kmat hin
          (by
            have : min last (tri_start self.nsample_ i + self.nsample_ - i - 1)
                ≤ tri_start self.nsample_ i + self.nsample_ - i - 1 := min_le_right _ _
            omega)
          hlen
        rw [e1, Option.some_bind]
        have hrow : ∀ b, i ≤ b → b < self.nsample_ →
            first ≤ tri_start self.nsample_ i + (b - i) →
            tri_start self.nsample_ i + (b - i) ≤
              min last (tri_start self.nsample_ i + self.nsample_ - i - 1) →
            cell_done val self.nsample_ km1 i b ∧ cell_done val self.nsample_ km1 b i := by
          intro b hib hb hf hla
          have := hd1 (tri_start self.nsample_ i + (b - i)) (by omega) hla hf
          have e : i + (tri_start self.nsample_ i + (b - i)) - tri_start self.nsample_ i = b := by
            omega
          rwa [e] at this
        by_cases h3 : max (tri_start self.nsample_ i)
            (min last (tri_start self.nsample_ i + self.nsample_ - i - 1) + 1) > last
        · -- `last` lies in this row: the worker stops
          rw [if_pos h3]
          refine ⟨km1, rfl, hl1, hm1, ?_⟩
          have hmin : min last (tri_start self.nsample_ i + self.nsample_ - i - 1) = last := by
            rcases le_total last (tri_start self.nsample_ i + self.nsample_ - i - 1) with h | h
            · exact min_eq_left h
            · rw [min_eq_right h] at h3 ⊢
              have := max_lt_iff.mpr ⟨Nat.lt_succ_of_le h2, Nat.lt_succ_of_le h⟩
              omega
          have hle : last ≤ tri_start self.nsample_ i + self.nsample_ - i - 1 := by
            rw [← hmin]; exact min_le_right _ _
          intro a b ha hab hb hf hla
          rcases Nat.eq_or_lt_of_le ha with h4 | h4
          · subst h4
            exact hrow b hab hb hf (by rw [hmin]; exact hla)
          · have := tri_start_mono self.nsample_ (i + 1) a h4
            omega
        · -- the row ends before `last`: go on with the next row
          rw [if_neg h3]
          have hmin : min last (tri_start self.nsample_ i + self.nsample_ - i - 1)
              = tri_start self.nsample_ i + self.nsample_ - i - 1 := by
            rcases le_total last (tri_start self.nsample_ i + self.nsample_ - i - 1) with h | h
            · exfalso; apply h3
              rw [min_eq_left h]
              exact lt_of_lt_of_le (Nat.lt_succ_self _) (le_max_right _ _)
            · exact min_eq_right h
          have hiter : max (tri_start self.nsample_ i)
              (min last (tri_start self.nsample_ i + self.nsample_ - i - 1) + 1)
              = tri_start self.nsample_ (i + 1) := by
            rw [hmin, ← hnext]
            apply max_eq_right
            rw [hnext]; omega
          rw [hiter]
          obtain ⟨kmat', e, hl, hm, hd⟩ := ih (i + 1) km1 (by omega) hl1
          refine ⟨kmat', e, hl, fun a b ha hb h => hm a b ha hb (hm1 a b ha hb h), ?_⟩
          intro a b ha hab hb hf hla
          rcases Nat.eq_or_lt_of_le ha with h4 | h4
          · subst h4
            obtain ⟨p1, p2⟩ := hrow b hab hb hf (by rw [hmin]; omega)
            exact ⟨hm _ _ hin hb p1, hm _ _ hb hin p2⟩
          · exact hd a b h4 hab hb hf hla
      · -- `last` lies before this row
        rw [if_neg h2]
        rw [kernel_worker_rows_done m self d first last kmat rows (i + 1) _ (by omega) (by omega)]
        refine ⟨kmat, rfl, hlen, fun _ _ _ _ h => h, ?_⟩
        intro a b ha hab hb hf hla
        have := tri_start_mono self.nsample_ i a ha
        omega

/-! ## The contiguous-range partition -/

/-- Every unit of work `r < total` lies in the range of one worker: the first
`total % nt` workers take `total / nt + 1` units, the others `total / nt`. -/
theorem partition_cover (total nt r : Nat) (hnt : 0 < nt) (hr : r < total) :
    ∃ tid, tid < nt ∧
      ((tid < total % nt ∧ (total / nt + 1) * tid ≤ r ∧
          r < (total / nt + 1) * tid + (total / nt + 1)) ∨
       (¬ tid < total % nt ∧ total / nt * tid + total % nt ≤ r ∧
          r < total / nt * tid + total % nt + total / nt)) := by
  have hdm : nt * (total / nt) + total % nt = total := Nat.div_add_mod total nt
  have hrem : total % nt < nt := Nat.mod_lt _ hnt
  generalize hpw : total / nt = pw at hdm ⊢
  generalize hrm : total % nt = rem at hdm hrem ⊢
  by_cases hA : r < (pw + 1) * rem
  · refine ⟨r / (pw + 1), ?_, Or.inl ⟨?_, ?_, ?_⟩⟩
    · have : r / (pw + 1) < rem := (Nat.div_lt_iff_lt_mul (by omega)).mpr (by
        rw [Nat.mul_comm]; exact hA)
      omega
    · exact (Nat.div_lt_iff_lt_mul (by omega)).mpr (by rw [Nat.mul_comm]; exact hA)
    · exact Nat.mul_div_le r (pw + 1)
    · have := Nat.lt_mul_div_succ r (show 0 < pw + 1 by omega)
      rw [Nat.mul_add, Nat.mul_one] at this
      exact this
  · have e1 : (pw + 1) * rem = pw * rem + rem := by ring
    have e2 : nt * pw = pw * rem + pw * (nt - rem) := by
      rw [← Nat.mul_add, Nat.add_sub_cancel' (by omega), Nat.mul_comm]
    have hr' : r - (pw + 1) * rem < pw * (nt - rem) := by omega
    have hpw0 : 0 < pw := by
      rcases Nat.eq_zero_or_pos pw with h | h
      · rw [h] at hr'; simp at hr'
      · exact h
    have hq : (r - (pw + 1) * rem) / pw < nt - rem :=
      (Nat.div_lt_iff_lt_mul hpw0).mpr (by rw [Nat.mul_comm (nt - rem) pw]; exact hr')
    have h2 := Nat.mul_div_le (r - (pw + 1) * rem) pw
    have h3 := Nat.lt_mul_div_succ (r - (pw + 1) * rem) hpw0
    rw [Nat.mul_add, Nat.mul_one] at h3
    generalize (r - (pw + 1) * rem) / pw = q at hq h2 h3
    have e3 : pw * (rem + q) = pw * rem + pw * q := by ring
    refine ⟨rem + q, by omega, Or.inr ⟨by omega, ?_, ?_⟩⟩
    · rw [e3]; omega
    · rw [e3]; omega

/-- Every rank of the upper triangle lies in the range `[first, last]` of one
`kernel_worker`. -/
theorem kernel_range_cover {α : Type} [LinearOrderedField α] (self : ABCFunc α)
    (hnt : 1 ≤ self.nthreads_) (r : Nat) (hr : r < tri_start self.nsample_ self.nsample_) :
    ∃ tid, tid < self.nthreads_ ∧ (kernel_range self tid).1 ≤ r ∧
      r ≤ (kernel_range self tid).2 := by
  rw [tri_start_total] at hr
  obtain ⟨tid, h1, h2⟩ := partition_cover _ self.nthreads_ r hnt hr
  refine ⟨tid, h1, ?_⟩
  unfold kernel_range
  rcases h2 with ⟨ha, hb, hc⟩ | ⟨ha, hb, hc⟩
  · simp only [if_pos ha]; constructor <;> omega
  · simp only [if_neg ha]; constructor <;> omega

/-- All `kernel_worker` calls of `compute_kernel_matrix`, one after the other: every cell of
the buffer is written with the kernel value of its pair. -/
theorem kernel_workers_spec {α : Type} [LinearOrderedField α] (m : Libm α)
    (self : ABCFunc α) (d : List α) (val : Nat → Nat → α)
    (hval : ∀ i k, i < self.nsample_ → k < self.nsample_ →
      call_func m self d i k = some (val i k))
    (hnt : 1 ≤ self.nthreads_) (kmat0 : List α)
    (hlen : kmat0.length = self.nsample_ * self.nsample_) :
    ∃ kmat, (List.range' 0 self.nthreads_).foldlM
        (fun kmat tid => kernel_worker m self d tid kmat) kmat0 = some kmat ∧
      kmat.length = self.nsample_ * self.nsample_ ∧
      ∀ a b, a < self.nsample_ → b < self.nsample_ → cell_done val self.nsample_ kmat a b := by
  obtain ⟨kmat, h, hl, hd⟩ := foldlM_range'_inv
    (fun kmat tid => kernel_worker m self d tid kmat)
    (fun t (km : List α) => km.length = self.nsample_ * self.nsample_ ∧
      ∀ a b, a ≤ b → b < self.nsample_ →
        (∃ tid, tid < t ∧ (kernel_range self tid).1 ≤ tri_start self.nsample_ a + (b - a) ∧
          tri_start self.nsample_ a + (b - a) ≤ (kernel_range self tid).2) →
        cell_done val self.nsample_ km a b ∧ cell_done val self.nsample_ km b a)
    self.nthreads_ 0 kmat0 ⟨hlen, fun a b _ _ ⟨tid, h, _⟩ => by omega⟩
    (by
      rintro t km _ _ ⟨hl, hd⟩
      obtain ⟨km', e, hl', hm', hd'⟩ := kernel_worker_rows_spec m self d val hval
        (kernel_range self t).1 (kernel_range self t).2 self.nsample_ 0 km (by omega) hl
      refine ⟨km', e, hl', ?_⟩
      rintro a b hab hb ⟨tid, h1, h2, h3⟩
      rcases Nat.lt_succ_iff_lt_or_eq.mp h1 with h4 | h4
      · obtain ⟨p1, p2⟩ := hd a b hab hb ⟨tid, h4, h2, h3⟩
        exact ⟨hm' _ _ (by omega) hb p1, hm' _ _ hb (by omega) p2⟩
      · subst h4
        exact hd' a b (Nat.zero_le _) hab hb h2 h3)
  refine ⟨kmat, h, hl, ?_⟩
  have upper : ∀ a b, a ≤ b → b < self.nsample_ →
      cell_done val self.nsample_ kmat a b ∧ cell_done val self.nsample_ kmat b a := by
    intro a b hab hb
    have h1 : tri_start self.nsample_ a + (b - a) < tri_start self.nsample_ (a + 1) := by
      simp only [tri_start]; omega
    have h2 := tri_start_mono self.nsample_ (a + 1) self.nsample_ (by omega)
    obtain ⟨tid, p1, p2, p3⟩ := kernel_range_cover self hnt _ (lt_of_lt_of_le h1 h2)
    exact hd a b hab hb ⟨tid, by omega, p2, p3⟩
  intro a b ha hb
  rcases le_total a b with h | h
  · exact (upper a b h hb).1
  · exact (upper b a h ha).2

theorem index_div_mod (n t : Nat) (ht : t < n * n) : t / n < n ∧ t % n < n ∧
    t / n * n + t % n = t := by
  have hn : 0 < n := by
    rcases Nat.eq_zero_or_pos n with h | h
    · subst h; simp at ht
    · exact h
  refine ⟨(Nat.div_lt_iff_lt_mul hn).mpr ht, Nat.mod_lt _ hn, ?_⟩
  rw [Nat.mul_comm]; exact Nat.div_add_mod t n

/-- The function `compute_kernel_matrix` succeeds for every worker count `≥ 1`, and the Gram matrix it
leaves is the list of the kernel values of the specification, whatever the worker count. -/
theorem compute_kernel_matrix_spec {α : Type} [LinearOrderedField α] (m : Libm α)
    (self : ABCFunc α) (data : Data α) (hwf : data.wf = true) (hd : dims_bound self data)
    (hnt : 1 ≤ self.nthreads_) :
    compute_kernel_matrix m self data = some { self with
      kmat_ := (List.range' 0 (self.nsample_ * self.nsample_)).map
        (fun t => kernel_spec m self data (t / self.nsample_) (t % self.nsample_)) } := by
  obtain ⟨d, e1, -, hv⟩ := feature_matrix_spec self data hwf hd
  obtain ⟨kmat, e2, hl, hdone⟩ := kernel_workers_spec m self d (kernel_spec m self data)
    (fun i k hi hk => call_func_spec m self data d hd hv i k hi hk) hnt
    (resize self.kmat_ (self.nsample_ * self.nsample_)) (resize_length _ _)
  have hk : kmat = (List.range' 0 (self.nsample_ * self.nsample_)).map
      (fun t => kernel_spec m self data (t / self.nsample_) (t % self.nsample_)) := by
    apply List.ext_getElem?
    intro t
    by_cases ht : t < self.nsample_ * self.nsample_
    · obtain ⟨h1, h2, h3⟩ := index_div_mod self.nsample_ t ht
      have := hdone _ _ h1 h2
      unfold cell_done at this
      rw [h3] at this
      rw [this, List.getElem?_map, List.getElem?_range' _ _ ht]
      simp only [Option.map_some', Nat.zero_add, one_mul]
      congr 1
      rcases le_total (t / self.nsample_) (t % self.nsample_) with h | h
      · rw [min_eq_left h, max_eq_right h]
      · rw [min_eq_right h, max_eq_left h]; exact kernel_spec_comm _ _ _ _ _
    · rw [List.getElem?_eq_none (by omega), List.getElem?_eq_none (by simp; omega)]
  simp only [compute_kernel_matrix, e1, Option.bind_eq_bind, Option.some_bind, e2,
    Option.pure_def, hk]

theorem bind_dims_bound {α : Type} [LinearOrderedField α] (self : ABCFunc α) (data : Data α) :
    dims_bound (bind_dims self data) data := ⟨rfl, rfl, rfl, rfl, rfl, rfl⟩

/-- C3. For every sample count n, every well-formed feature matrix, both kernel choices
and every worker count nthreads ≥ 1, `compute_kernel_matrix` returns and the Gram matrix
it leaves is exactly symmetric: `kmat_[i*n+j]` and `kmat_[j*n+i]` hold the same value for
all i, j < n. -/
theorem gram_matrix_symmetric {α : Type} [LinearOrderedField α] (m : Libm α)
    (self : ABCFunc α) (data : Data α) (hwf : data.wf = true) (hd : dims_bound self data)
    (hnt : 1 ≤ self.nthreads_) :
    ∃ self', compute_kernel_matrix m self data = some self' ∧
      ∀ i j, i < self.nsample_ → j < self.nsample_ →
        ∃ v, self'.kmat_[i * self.nsample_ + j]? = some v ∧
          self'.kmat_[j * self.nsample_ + i]? = some v := by
  refine ⟨_, compute_kernel_matrix_spec m self data hwf hd hnt, ?_⟩
  intro i j hi hj
  refine ⟨kernel_spec m self data i j, ?_, ?_⟩
  · have h := index_lt _ _ i j hi hj
    simp only [List.getElem?_map, List.getElem?_range' _ _ h, Option.map_some', Nat.zero_add,
      one_mul, (div_mod_of_eq self.nsample_ i j hj).1, (div_mod_of_eq self.nsample_ i j hj).2]
  · have h := index_lt _ _ j i hj hi
    simp only [List.getElem?_map, List.getElem?_range' _ _ h, Option.map_some', Nat.zero_add,
      one_mul, (div_mod_of_eq self.nsample_ j i hi).1, (div_mod_of_eq self.nsample_ j i hi).2]
    rw [kernel_spec_comm]

/-- C4. For every sample count, every well-formed feature matrix and either kernel choice
there is one matrix `kmat` of n·n entries with `kmat[i*n+j] = kernel(sample_i, sample_j)`
for all i, j < n, and for every worker count nthreads ≥ 1 (also one greater than n(n+1)/2)
`compute_kernel_matrix` returns and leaves exactly this matrix in `kmat_`. -/
theorem gram_matrix_entries {α : Type} [LinearOrderedField α] (m : Libm α)
    (self : ABCFunc α) (data : Data α) (hwf : data.wf = true) (hd : dims_bound self data) :
    ∃ kmat : List α, kmat.length = self.nsample_ * self.nsample_ ∧
      (∀ i j, i < self.nsample_ → j < self.nsample_ →
        kmat[i * self.nsample_ + j]? = some (kernel_spec m self data i j)) ∧
      ∀ nt, 1 ≤ nt → compute_kernel_matrix m { self with nthreads_ := nt } data =
        some { self with nthreads_ := nt, kmat_ := kmat } := by
  refine ⟨(List.range' 0 (self.nsample_ * self.nsample_)).map
    (fun t => kernel_spec m self data (t / self.nsample_) (t % self.nsample_)), by simp, ?_, ?_⟩
  · intro i j hi hj
    have h := index_lt _ _ i j hi hj
    simp only [List.getElem?_map, List.getElem?_range' _ _ h, Option.map_some', Nat.zero_add,
      one_mul, (div_mod_of_eq self.nsample_ i j hj).1, (div_mod_of_eq self.nsample_ i j hj).2]
  · intro nt hnt
    exact compute_kernel_matrix_spec m { self with nthreads_ := nt } data hwf hd hnt

/-- C3 on the three-sample dataset with two workers. -/
theorem gram_matrix_symmetric_witness :
    (sample_data : Data ℝ).wf = true ∧
    dims_bound (bind_dims (poly_evaluator 2) sample_data) (sample_data : Data ℝ) ∧
    1 ≤ (bind_dims (poly_evaluator 2 : ABCFunc ℝ) sample_data).nthreads_ ∧
    ∃ self', compute_kernel_matrix (Libm.mk Real.sqrt Real.exp Real.rpow (fun _ => none))
        (bind_dims (poly_evaluator 2) sample_data) sample_data = some self' ∧
      ∀ i j, i < (bind_dims (poly_evaluator 2 : ABCFunc ℝ) sample_data).nsample_ →
        j < (bind_dims (poly_evaluator 2 : ABCFunc ℝ) sample_data).nsample_ →
        ∃ v, self'.kmat_[i * (bind_dims (poly_evaluator 2 : ABCFunc ℝ)
            sample_data).nsample_ + j]? = some v ∧
          self'.kmat_[j * (bind_dims (poly_evaluator 2 : ABCFunc ℝ)
            sample_data).nsample_ + i]? = some v :=
  ⟨rfl, bind_dims_bound _ _, by decide,
    gram_matrix_symmetric _ _ _ rfl (bind_dims_bound _ _) (by decide)⟩

/-- C4 on the three-sample dataset. -/
theorem gram_matrix_entries_witness :
    (sample_data : Data ℝ).wf = true ∧
    dims_bound (bind_dims (poly_evaluator 2) sample_data) (sample_data : Data ℝ) ∧
    ∃ kmat : List ℝ,
      kmat.length = (bind_dims (poly_evaluator 2 : ABCFunc ℝ) sample_data).nsample_ *
        (bind_dims (poly_evaluator 2 : ABCFunc ℝ) sample_data).nsample_ ∧
      (∀ i j, i < (bind_dims (poly_evaluator 2 : ABCFunc ℝ) sample_data).nsample_ →
        j < (bind_dims (poly_evaluator 2 : ABCFunc ℝ) sample_data).nsample_ →
        kmat[i * (bind_dims (poly_evaluator 2 : ABCFunc ℝ) sample_data).nsample_ + j]? =
          some (kernel_spec (Libm.mk Real.sqrt Real.exp Real.rpow (fun _ => none))
            (bind_dims (poly_evaluator 2) sample_data) sample_data i j)) ∧
      ∀ nt, 1 ≤ nt → compute_kernel_matrix (Libm.mk Real.sqrt Real.exp Real.rpow (fun _ => none))
          { bind_dims (poly_evaluator 2) sample_data with nthreads_ := nt } sample_data =
        some { bind_dims (poly_evaluator 2) sample_data with nthreads_ := nt, kmat_ := kmat } :=
  ⟨rfl, bind_dims_bound _ _, gram_matrix_entries _ _ _ rfl (bind_dims_bound _ _)⟩

/-! ## Objective evaluator: the value -/

theorem inner_product_with_spec {α : Type} [LinearOrderedField α] (op2 : α → α → α)
    (a : List α) (first1 last1 : Nat) (b : List α) (first2 : Nat) (init : α)
    (ha : first1 + (last1 - first1) ≤ a.length) (hb : first2 + (last1 - first1) ≤ b.length) :
    inner_product_with op2 a first1 last1 b first2 init =
      some (init + Finset.sum (Finset.range (last1 - first1))
        (fun t => op2 (a.getD (first1 + t) 0) (b.getD (first2 + t) 0))) := by
  unfold inner_product_with
  rw [foldlM_range'_sum _ (fun t => op2 (a.getD (first1 + t) 0) (b.getD (first2 + t) 0)) 0 _ init
    (fun acc t _ ht => by
      rw [getElem?_of_lt a (first1 + t) 0 (by omega), getElem?_of_lt b (first2 + t) 0 (by omega)]
      rfl)]
  simp only [Nat.zero_add]

/-- The two partition schemes with half-open ranges stay inside `[0, total)`. -/
theorem partition_bound (total nt tid : Nat) (htid : tid < nt) :
    (tid < total % nt → (total / nt + 1) * tid + (total / nt + 1) ≤ total) ∧
    (¬ tid < total % nt → total / nt * tid + total % nt + total / nt ≤ total) := by
  have hdm : nt * (total / nt) + total % nt = total := Nat.div_add_mod total nt
  have hrem : total % nt < nt := Nat.mod_lt _ (by omega)
  generalize total / nt = pw at hdm ⊢
  generalize total % nt = rem at hdm hrem ⊢
  constructor
  · intro h
    have h1 : (pw + 1) * (tid + 1) ≤ (pw + 1) * rem := Nat.mul_le_mul_left _ h
    have e1 : (pw + 1) * (tid + 1) = (pw + 1) * tid + (pw + 1) := by ring
    have e2 : (pw + 1) * rem = pw * rem + rem := by ring
    have h2 : pw * rem ≤ pw * nt := Nat.mul_le_mul_left _ (by omega)
    have e3 : nt * pw = pw * nt := Nat.mul_comm _ _
    omega
  · intro h
    have h1 : pw * (tid + 1) ≤ pw * nt := Nat.mul_le_mul_left _ htid
    have e1 : pw * (tid + 1) = pw * tid + pw := by ring
    have e3 : nt * pw = pw * nt := Nat.mul_comm _ _
    omega

/-- The sample loop body of `loss_worker` returns the alignment score of the
specification. -/
theorem loss_sample_spec {α : Type} [LinearOrderedField α] (self : ABCFunc α) (x : List α)
    (hb : bound_state self) (hx : x.length = (self.nsample_ + 1) * (self.k_ - 1))
    (i : Nat) (hi : i < self.nsample_) :
    loss_sample self x i = some (alignment_spec self x i) := by
  obtain ⟨hact, hrank, -, hw, -, hk⟩ := hb
  have hai : i < self.act_.length := by omega
  have hr : self.act_.getD i 0 < self.k_ := by
    apply hrank
    rw [List.getD_eq_getElem?_getD, List.getElem?_eq_getElem hai]
    exact List.getElem_mem _
  have hxl : x.length = (self.k_ - 1) * (self.nsample_ + 1) := by rw [hx, Nat.mul_comm]
  -- the projection loop
  obtain ⟨proj, hp, hpl, hpv⟩ := foldlM_range'_inv
    (fun proj j => do
      let j1 := j * (self.nsample_ + 1)
      let j2 := j1 + (self.nsample_ + 1)
      let x0 ← x[j1]?
      let v ← inner_product x (j1 + 1) j2 self.kmat_ (i * self.nsample_) x0
      store proj j v)
    (fun j (proj : List α) => proj.length = self.k_ - 1 ∧ ∀ t, t < j →
      proj[t]? = some (x.getD (t * (self.nsample_ + 1)) 0 +
        Finset.sum (Finset.range self.nsample_) (fun r =>
          x.getD (t * (self.nsample_ + 1) + 1 + r) 0 *
            self.kmat_.getD (i * self.nsample_ + r) 0)))
    (self.k_ - 1) 0 (List.replicate (self.k_ - 1) (0 : α)) ⟨by simp, fun t ht => by omega⟩
    (by
      rintro j proj _ hj ⟨hpl, hpv⟩
      have hj' : j < self.k_ - 1 := by omega
      have h0 := index_lt (self.k_ - 1) (self.nsample_ + 1) j 0 hj' (by omega)
      have hn := index_lt (self.k_ - 1) (self.nsample_ + 1) j self.nsample_ hj' (by omega)
      have hrow := index_lt self.nsample_ self.nsample_ i 0 hi (by omega)
      have hrow' : i * self.nsample_ + self.nsample_ ≤ self.nsample_ * self.nsample_ := by
        have h1 : (i + 1) * self.nsample_ ≤ self.nsample_ * self.nsample_ :=
          Nat.mul_le_mul_right _ hi
        have h2 : (i + 1) * self.nsample_ = i * self.nsample_ + self.nsample_ := by ring
        omega
      have ecount : j * (self.nsample_ + 1) + (self.nsample_ + 1) - (j * (self.nsample_ + 1) + 1)
          = self.nsample_ := by omega
      refine ⟨proj.set j (x.getD (j * (self.nsample_ + 1)) 0 +
        Finset.sum (Finset.range self.nsample_) (fun r =>
          x.getD (j * (self.nsample_ + 1) + 1 + r) 0 *
            self.kmat_.getD (i * self.nsample_ + r) 0)), ?_, by simpa using hpl, ?_⟩
      · simp only [Option.bind_eq_bind]
        rw [getElem?_of_lt x _ 0 (by omega), Option.some_bind]
        unfold inner_product
        rw [inner_product_with_spec _ _ _ _ _ _ _ (by omega) (by omega), Option.some_bind,
          ecount]
        exact store_eq_some _ _ _ (by omega)
      · intro t ht
        rw [List.getElem?_set]
        by_cases e : j = t
        · subst e
          rw [if_pos rfl, if_pos (by omega)]
        · rw [if_neg e]; exact hpv t (by omega))
  simp only [Option.bind_eq_bind] at hp
  simp only [loss_sample, Option.bind_eq_bind]
  rw [getElem?_of_lt self.act_ i 0 hai, Option.some_bind, hp, Option.some_bind]
  unfold inner_product
  have hwi := w_index_lt self.k_ (self.act_.getD i 0) 0 hr
  have ecount : self.act_.getD i 0 * (self.k_ - 1) + self.k_ - 1 -
      self.act_.getD i 0 * (self.k_ - 1) = self.k_ - 1 := by omega
  have hwb : self.act_.getD i 0 * (self.k_ - 1) + (self.k_ - 1) ≤ self.k_ * (self.k_ - 1) := by
    have h1 : (self.act_.getD i 0 + 1) * (self.k_ - 1) ≤ self.k_ * (self.k_ - 1) :=
      Nat.mul_le_mul_right _ hr
    have h2 : (self.act_.getD i 0 + 1) * (self.k_ - 1)
        = self.act_.getD i 0 * (self.k_ - 1) + (self.k_ - 1) := by ring
    omega
  rw [inner_product_with_spec _ _ _ _ _ _ _ (by rw [ecount]; omega) (by rw [ecount]; omega),
    ecount]
  unfold alignment_spec
  congr 1
  rw [zero_add]
  apply Finset.sum_congr rfl
  intro j hj
  have hj' := Finset.mem_range.mp hj
  rw [Nat.zero_add, getD_of_getElem? proj j _ 0 (hpv j (by omega))]
  congr 2
  apply Finset.sum_congr rfl
  intro r _
  exact mul_comm _ _

/-- The sample range of a `loss_worker` lies inside `[0, n)`. -/
theorem loss_range_bound {α : Type} [LinearOrderedField α] (self : ABCFunc α) (tid : Nat)
    (htid : tid < self.nthreads_) : (loss_range self tid).2 ≤ self.nsample_ := by
  obtain ⟨h1, h2⟩ := partition_bound self.nsample_ self.nthreads_ tid htid
  unfold loss_range
  by_cases h : tid < self.nsample_ % self.nthreads_
  · simp only [if_pos h]; have := h1 h; omega
  · simp only [if_neg h]; exact h2 h

/-- Every sample lies in the range of one `loss_worker`. -/
theorem loss_range_cover {α : Type} [LinearOrderedField α] (self : ABCFunc α)
    (hnt : 1 ≤ self.nthreads_) (i : Nat) (hi : i < self.nsample_) :
    ∃ tid, tid < self.nthreads_ ∧ (loss_range self tid).1 ≤ i ∧ i < (loss_range self tid).2 := by
  obtain ⟨tid, h1, h2⟩ := partition_cover _ self.nthreads_ i hnt hi
  refine ⟨tid, h1, ?_⟩
  unfold loss_range
  rcases h2 with ⟨ha, hb, hc⟩ | ⟨ha, hb, hc⟩
  · simp only [if_pos ha]; constructor <;> omega
  · simp only [if_neg ha]; constructor <;> omega

/-- One `loss_worker`: it succeeds, keeps the scores that are stored, and stores the scores
of its range. -/
theorem loss_worker_spec {α : Type} [LinearOrderedField α] (self : ABCFunc α) (x : List α)
    (hb : bound_state self) (hx : x.length = (self.nsample_ + 1) * (self.k_ - 1))
    (tid : Nat) (htid : tid < self.nthreads_) (u : List α) (hu : u.length = self.nsample_) :
    ∃ u', loss_worker self tid x u = some u' ∧ u'.length = self.nsample_ ∧
      (∀ i, u[i]? = some (alignment_spec self x i) → u'[i]? = some (alignment_spec self x i)) ∧
      (∀ i, (loss_range self tid).1 ≤ i → i < (loss_range self tid).2 →
        u'[i]? = some (alignment_spec self x i)) := by
  have hbound := loss_range_bound self tid htid
  obtain ⟨u', h, hl, hm, hd⟩ := foldlM_range'_inv
    (fun u i => (loss_sample self x i).bind (fun v => store u i v))
    (fun i (v : List α) => v.length = self.nsample_ ∧
      (∀ t, u[t]? = some (alignment_spec self x t) → v[t]? = some (alignment_spec self x t)) ∧
      (∀ t, (loss_range self tid).1 ≤ t → t < i → v[t]? = some (alignment_spec self x t)))
    ((loss_range self tid).2 - (loss_range self tid).1) (loss_range self tid).1 u
    ⟨hu, fun _ h => h, fun t h1 h2 => by omega⟩
    (by
      rintro i v hi1 hi2 ⟨hl, hm, hd⟩
      have hi : i < self.nsample_ := by omega
      refine ⟨v.set i (alignment_spec self x i), ?_, by simpa using hl, ?_, ?_⟩
      · beta_reduce
        rw [loss_sample_spec self x hb hx i hi, Option.some_bind]
        exact store_eq_some _ _ _ (by omega)
      · intro t ht
        rw [List.getElem?_set]
        by_cases e : i = t
        · subst e; rw [if_pos rfl, if_pos (by omega)]
        · rw [if_neg e]; exact hm t ht
      · intro t h1 h2
        rw [List.getElem?_set]
        by_cases e : i = t
        · subst e; rw [if_pos rfl, if_pos (by omega)]
        · rw [if_neg e]; exact hd t h1 (by omega))
  exact ⟨u', h, hl, hm, fun i h1 h2 => hd i h1 (by omega)⟩

/-- The function `compute_loss` returns the alignment scores of all samples. -/
theorem compute_loss_spec {α : Type} [LinearOrderedField α] (self : ABCFunc α) (x : List α)
    (hb : bound_state self) (hx : x.length = (self.nsample_ + 1) * (self.k_ - 1))
    (hnt : 1 ≤ self.nthreads_) :
    compute_loss self x = some ((List.range' 0 self.nsample_).map (alignment_spec self x)) := by
  obtain ⟨u, h, hl, hd⟩ := foldlM_range'_inv
    (fun u tid => loss_worker self tid x u)
    (fun t (u : List α) => u.length = self.nsample_ ∧
      ∀ i, (∃ tid, tid < t ∧ (loss_range self tid).1 ≤ i ∧ i < (loss_range self tid).2) →
        u[i]? = some (alignment_spec self x i))
    self.nthreads_ 0 (List.replicate self.nsample_ (0 : α))
    ⟨by simp, fun i ⟨tid, h, _⟩ => by omega⟩
    (by
      rintro t u _ ht ⟨hl, hd⟩
      obtain ⟨u', e, hl', hm', hd'⟩ := loss_worker_spec self x hb hx t (by omega) u hl
      refine ⟨u', e, hl', ?_⟩
      rintro i ⟨tid, h1, h2, h3⟩
      rcases Nat.lt_succ_iff_lt_or_eq.mp h1 with h4 | h4
      · exact hm' i (hd i ⟨tid, h4, h2, h3⟩)
      · subst h4; exact hd' i h2 h3)
  have hu : u = (List.range' 0 self.nsample_).map (alignment_spec self x) := by
    apply List.ext_getElem?
    intro i
    by_cases hi : i < self.nsample_
    · obtain ⟨tid, p1, p2, p3⟩ := loss_range_cover self hnt i hi
      rw [hd i ⟨tid, by omega, p2, p3⟩, List.getElem?_map, List.getElem?_range' _ _ hi]
      simp
    · rw [List.getElem?_eq_none (by omega), List.getElem?_eq_none (by simp; omega)]
  unfold compute_loss
  rw [h, hu]

/-- The value loop of `eval (x, f)` on scores `u`: it returns the sum of the terms of all
samples, with the loss functions called with the constants the statics `st` give this
evaluator. -/
theorem eval_value_loop_spec {α : Type} [LinearOrderedField α] (self : ABCFunc α)
    (ul : List α) (u : Nat → α) (hresp : self.resp_.length = self.nsample_)
    (hu : ∀ i, i < self.nsample_ → ul[i]? = some (u i)) (st : Statics α) :
    ∃ st', eval_value_loop self ul st
        = some (Finset.sum (Finset.range self.nsample_) (value_term self st u), st') ∧
      Statics.agree self st st' := by
  obtain ⟨⟨f, s⟩, h, hf, hs⟩ := foldlM_range'_inv
    (fun (s : α × Statics α) i => do
      let r ← self.resp_[i]?
      let ui ← ul[i]?
      let l := if r > 0 then loss_p self ui s.2 else loss_m self ui s.2
      pure (s.1 + |r| * l.1, l.2))
    (fun i (s : α × Statics α) =>
      s.1 = Finset.sum (Finset.range i) (value_term self st u) ∧ Statics.agree self st s.2)
    self.nsample_ 0 ((0 : α), st) ⟨by simp, Statics.agree_refl self st⟩
    (by
      rintro i ⟨f, s⟩ _ hi ⟨hf, hs⟩
      have hi' : i < self.nsample_ := by omega
      simp only at hf hs
      beta_reduce
      rw [getElem?_of_lt self.resp_ i 0 (by omega), hu i hi']
      simp only [Option.bind_eq_bind, Option.some_bind, Option.pure_def]
      by_cases hr : self.resp_.getD i 0 > 0
      · obtain ⟨e1, e2⟩ := loss_p_agree self st s hs (u i)
        refine ⟨_, rfl, ?_, ?_⟩
        · rw [Finset.sum_range_succ, ← hf]
          simp only [value_term, if_pos hr, e1]
        · simp only [if_pos hr]; exact e2
      · obtain ⟨e1, e2⟩ := loss_m_agree self st s hs (u i)
        refine ⟨_, rfl, ?_, ?_⟩
        · rw [Finset.sum_range_succ, ← hf]
          simp only [value_term, if_neg hr, e1]
        · simp only [if_neg hr]; exact e2)
  rw [Nat.zero_add] at hf
  simp only at hf hs
  refine ⟨s, ?_, hs⟩
  unfold eval_value_loop
  rw [h, hf]

/-- A buffer of `n` entries whose entries are those of a function is the list of its
values. -/
theorem list_eq_map_range {β : Type} (l : List β) (n : Nat) (f : Nat → β)
    (hl : l.length = n) (h : ∀ t, t < n → l[t]? = some (f t)) :
    l = (List.range' 0 n).map f := by
  apply List.ext_getElem?
  intro i
  by_cases hi : i < n
  · rw [h i hi, List.getElem?_map, List.getElem?_range' _ _ hi]
    simp
  · rw [List.getElem?_eq_none (by omega), List.getElem?_eq_none (by simp; omega)]

/-- The loop of `eval (x, f, g)` on scores `u`: it returns the sum of the value loop and the
derivative weights of the derivative loop. -/
theorem eval_fused_loop_spec {α : Type} [LinearOrderedField α] (self : ABCFunc α)
    (ul : List α) (u : Nat → α) (hresp : self.resp_.length = self.nsample_)
    (hu : ∀ i, i < self.nsample_ → ul[i]? = some (u i)) (st : Statics α) :
    ∃ st', eval_fused_loop self ul st
        = some (Finset.sum (Finset.range self.nsample_) (value_term self st u),
            (List.range' 0 self.nsample_).map (du_term self st u), st') ∧
      Statics.agree self st st' := by
  obtain ⟨⟨f, du, s⟩, h, hf, hl, hd, hs⟩ := foldlM_range'_inv
    (fun (s : α × List α × Statics α) i => do
      let r ← self.resp_[i]?
      let ui ← ul[i]?
      let l := if r > 0 then loss_p self ui s.2.2 else loss_m self ui s.2.2
      let d := if r > 0 then dloss_p self ui l.2 else dloss_m self ui l.2
      let du ← store s.2.1 i d.1
      pure (s.1 + |r| * l.1, du, d.2))
    (fun i (s : α × List α × Statics α) =>
      s.1 = Finset.sum (Finset.range i) (value_term self st u) ∧
      s.2.1.length = self.nsample_ ∧
      (∀ t, t < i → s.2.1[t]? = some (du_term self st u t)) ∧
      Statics.agree self st s.2.2)
    self.nsample_ 0 ((0 : α), List.replicate self.nsample_ (0 : α), st)
    ⟨by simp, by simp, fun t ht => by omega, Statics.agree_refl self st⟩
    (by
      rintro i ⟨f, du, s⟩ _ hi ⟨hf, hl, hd, hs⟩
      have hi' : i < self.nsample_ := by omega
      simp only at hf hl hd hs
      beta_reduce
      rw [getElem?_of_lt self.resp_ i 0 (by omega), hu i hi']
      simp only [Option.bind_eq_bind, Option.some_bind, Option.pure_def]
      have hl1 : (if self.resp_.getD i 0 > 0 then loss_p self (u i) s
          else loss_m self (u i) s).1 = (if self.resp_.getD i 0 > 0 then
            (loss_p self (u i) st).1 else (loss_m self (u i) st).1) ∧
          Statics.agree self st (if self.resp_.getD i 0 > 0 then loss_p self (u i) s
          else loss_m self (u i) s).2 := by
        by_cases hr : self.resp_.getD i 0 > 0
        · simp only [if_pos hr]
          exact loss_p_agree self st s hs (u i)
        · simp only [if_neg hr]
          exact loss_m_agree self st s hs (u i)
      have hval : (if self.resp_.getD i 0 > 0 then dloss_p self (u i)
            (if self.resp_.getD i 0 > 0 then loss_p self (u i) s else loss_m self (u i) s).2
          else dloss_m self (u i)
            (if self.resp_.getD i 0 > 0 then loss_p self (u i) s
              else loss_m self (u i) s).2).1 = du_term self st u i ∧
          Statics.agree self st (if self.resp_.getD i 0 > 0 then dloss_p self (u i)
            (if self.resp_.getD i 0 > 0 then loss_p self (u i) s else loss_m self (u i) s).2
          else dloss_m self (u i)
            (if self.resp_.getD i 0 > 0 then loss_p self (u i) s
              else loss_m self (u i) s).2).2 := by
        by_cases hr : self.resp_.getD i 0 > 0
        · simp only [if_pos hr, du_term]
          exact dloss_p_agree self st _ (by simpa only [if_pos hr] using hl1.2) (u i)
        · simp only [if_neg hr, du_term]
          exact dloss_m_agree self st _ (by simpa only [if_neg hr] using hl1.2) (u i)
      rw [store_eq_some _ _ _ (by omega), Option.some_bind]
      refine ⟨_, rfl, ?_, by simpa using hl, ?_, hval.2⟩
      · simp only
        rw [Finset.sum_range_succ, ← hf, hl1.1]
        rfl
      · intro t ht
        simp only
        rw [List.getElem?_set]
        by_cases e : i = t
        · subst e; rw [if_pos rfl, if_pos (by omega), hval.1]
        · rw [if_neg e]; exact hd t (by omega))
  rw [Nat.zero_add] at hf hd
  simp only at hf hl hd hs
  refine ⟨s, ?_, hs⟩
  unfold eval_fused_loop
  rw [h, hf, list_eq_map_range du _ _ hl hd]

/-- The scores `compute_loss` returns, entry by entry. -/
theorem compute_loss_entries {α : Type} [LinearOrderedField α] (self : ABCFunc α)
    (x : List α) (i : Nat) (hi : i < self.nsample_) :
    ((List.range' 0 self.nsample_).map (alignment_spec self x))[i]?
      = some (alignment_spec self x i) := by
  rw [List.getElem?_map, List.getElem?_range' _ _ hi]
  simp

/-- The value-only evaluation returns the objective of the specification, whatever the
statics hold when it is called. -/
theorem eval_f_spec {α : Type} [LinearOrderedField α] (self : ABCFunc α) (x : List α)
    (hb : bound_state self) (hx : x.length = (self.nsample_ + 1) * (self.k_ - 1))
    (hnt : 1 ≤ self.nthreads_) (st : Statics α) :
    ∃ st', eval_f self x st = some (objective_spec self x st, st') ∧
      Statics.agree self st st' := by
  obtain ⟨st', h, hs⟩ := eval_value_loop_spec self _ (alignment_spec self x) hb.2.2.1
    (compute_loss_entries self x) st
  refine ⟨st', ?_, hs⟩
  simp only [eval_f, Option.bind_eq_bind, compute_loss_spec self x hb hx hnt, Option.some_bind, h]
  rfl

/-- The combined evaluation returns the objective of the specification and runs the gradient
workers on the derivative weights of the specification. -/
theorem eval_fg_spec {α : Type} [LinearOrderedField α] (self : ABCFunc α) (x g : List α)
    (hb : bound_state self) (hx : x.length = (self.nsample_ + 1) * (self.k_ - 1))
    (hnt : 1 ≤ self.nthreads_) (st : Statics α) :
    ∃ st', eval_fg self x g st
        = some (objective_spec self x st,
            grad_section self ((List.range' 0 self.nsample_).map
              (du_term self st (alignment_spec self x))) g, st') ∧
      Statics.agree self st st' := by
  obtain ⟨st', h, hs⟩ := eval_fused_loop_spec self _ (alignment_spec self x) hb.2.2.1
    (compute_loss_entries self x) st
  refine ⟨st', ?_, hs⟩
  simp only [eval_fg, Option.bind_eq_bind, compute_loss_spec self x hb hx hnt, Option.some_bind,
    h]
  rfl

/-! ## Binding a dataset -/

theorem map_lookup_zip_range (v : Int) (l : List Int) : ∀ s,
    map_lookup v (l.zip (List.range' s l.length)) = 0 ∨
      (s ≤ map_lookup v (l.zip (List.range' s l.length)) ∧
        map_lookup v (l.zip (List.range' s l.length)) < s + l.length) := by
  induction l with
  | nil => intro s; left; rfl
  | cons a rest ih =>
    intro s
    simp only [List.length_cons, List.range'_succ, List.zip_cons_cons, map_lookup]
    by_cases h : a = v
    · rw [if_pos h]; right; omega
    · rw [if_neg h]
      have ih' := ih (s + 1)
      simp only [List.zip] at ih' ⊢
      rcases ih' with h1 | ⟨h1, h2⟩
      · left; exact h1
      · right; omega

/-- The function `parse_actions` on well-sized labels: it succeeds, `k_` is the class count, and every
rank it stores is below `k_`. -/
theorem parse_actions_spec {α : Type} [LinearOrderedField α] (self : ABCFunc α)
    (act : List Int) (hact : act.length = self.nsample_)
    (hk : 1 ≤ class_count self.uniq_act_ act) :
    ∃ ranks : List Nat, parse_actions self act = some { self with
        uniq_act_ := act.foldl (fun s v => set_insert v s) self.uniq_act_,
        k_ := class_count self.uniq_act_ act, act_ := ranks } ∧
      ranks.length = self.nsample_ ∧ ∀ r ∈ ranks, r < class_count self.uniq_act_ act := by
  obtain ⟨ranks, h, hl, hv⟩ := foldlM_range'_inv
    (fun ranks i => (act[i]?).bind (fun a => store ranks i (map_lookup a
      ((act.foldl (fun s v => set_insert v s) self.uniq_act_).zip
        (List.range' 0 (act.foldl (fun s v => set_insert v s) self.uniq_act_).length)))))
    (fun i (ranks : List Nat) => ranks.length = self.nsample_ ∧
      ∀ t, t < i → ∃ r, ranks[t]? = some r ∧ r < class_count self.uniq_act_ act)
    self.nsample_ 0 (resize self.act_ self.nsample_)
    ⟨resize_length _ _, fun t ht => by omega⟩
    (by
      rintro i ranks _ hi ⟨hl, hv⟩
      refine ⟨ranks.set i (map_lookup (act.getD i 0)
        ((act.foldl (fun s v => set_insert v s) self.uniq_act_).zip
          (List.range' 0 (act.foldl (fun s v => set_insert v s) self.uniq_act_).length))),
        ?_, by simpa using hl, ?_⟩
      · beta_reduce
        rw [getElem?_of_lt act i 0 (by omega), Option.some_bind]
        exact store_eq_some _ _ _ (by omega)
      · intro t ht
        rw [List.getElem?_set]
        by_cases e : i = t
        · subst e
          rw [if_pos rfl, if_pos (by omega)]
          refine ⟨_, rfl, ?_⟩
          unfold class_count at hk ⊢
          rcases map_lookup_zip_range (act.getD i 0)
            (act.foldl (fun s v => set_insert v s) self.uniq_act_) 0 with h1 | ⟨-, h2⟩
          · rw [h1]; omega
          · omega
        · rw [if_neg e]; exact hv t (by omega))
  refine ⟨ranks, ?_, hl, ?_⟩
  · simp only [parse_actions, Option.bind_eq_bind, h, Option.some_bind, Option.pure_def,
      class_count]
  · intro r hr
    obtain ⟨t, ht, rfl⟩ := List.getElem_of_mem hr
    obtain ⟨r', h1, h2⟩ := hv t (by omega)
    rw [List.getElem?_eq_getElem ht] at h1
    cases h1
    exact h2

/-- The function `scale_response` on well-sized arrays: it succeeds and stores `resp[i] / prob[i]`. -/
theorem scale_response_spec {α : Type} [LinearOrderedField α] (self : ABCFunc α)
    (resp prob : List α) (hr : resp.length = self.nsample_) (hp : prob.length = self.nsample_) :
    ∃ rs : List α, scale_response self resp prob = some { self with resp_ := rs } ∧
      rs.length = self.nsample_ ∧
      ∀ i, i < self.nsample_ → rs[i]? = some (resp.getD i 0 / prob.getD i 0) := by
  obtain ⟨rs, h, hl, hv⟩ := foldlM_range'_inv
    (fun rs i => (resp[i]?).bind (fun r => (prob[i]?).bind (fun p => store rs i (r / p))))
    (fun i (rs : List α) => rs.length = self.nsample_ ∧
      ∀ t, t < i → rs[t]? = some (resp.getD t 0 / prob.getD t 0))
    self.nsample_ 0 (resize self.resp_ self.nsample_)
    ⟨resize_length _ _, fun t ht => by omega⟩
    (by
      rintro i rs _ hi ⟨hl, hv⟩
      refine ⟨rs.set i (resp.getD i 0 / prob.getD i 0), ?_, by simpa using hl, ?_⟩
      · beta_reduce
        rw [getElem?_of_lt resp i 0 (by omega), Option.some_bind,
          getElem?_of_lt prob i 0 (by omega), Option.some_bind]
        exact store_eq_some _ _ _ (by omega)
      · intro t ht
        rw [List.getElem?_set]
        by_cases e : i = t
        · subst e; rw [if_pos rfl, if_pos (by omega)]
        · rw [if_neg e]; exact hv t (by omega))
  exact ⟨rs, by simp only [scale_response, Option.bind_eq_bind, h, Option.some_bind,
    Option.pure_def], hl, fun i hi => hv i (by omega)⟩

/-- The function `bind` on a well-formed dataset with at least two classes: it succeeds and leaves a
bound state with the scaled responses and the Gram matrix of the dataset. -/
theorem bind_spec {α : Type} [LinearOrderedField α] (m : Libm α) (self0 : ABCFunc α)
    (data : Data α) (hwf : data.wf = true) (hnt : 1 ≤ self0.nthreads_)
    (hk : 2 ≤ class_count self0.uniq_act_ data.act) :
    ∃ self, ABC.bind m self0 data = some self ∧ bound_state self ∧
      self.nsample_ = data.nsample ∧ self.k_ = class_count self0.uniq_act_ data.act ∧
      self.nthreads_ = self0.nthreads_ ∧ self.c_ = self0.c_ ∧ self.thres_ = self0.thres_ ∧
      (∀ i, i < data.nsample → self.resp_[i]? = some (data.resp.getD i 0 / data.prob.getD i 0)) ∧
      (∀ i j, i < data.nsample → j < data.nsample →
        self.kmat_[i * data.nsample + j]? = some (kernel_spec m self0 data i j)) := by
  obtain ⟨-, -, -, w4, w5, w6⟩ := wf_cols data hwf
  obtain ⟨ranks, e1, hl1, hv1⟩ := parse_actions_spec (bind_dims self0 data) data.act w4
    (by have : 1 ≤ class_count self0.uniq_act_ data.act := by omega
        exact this)
  obtain ⟨rs, e2, hl2, hv2⟩ := scale_response_spec
    { bind_dims self0 data with
        uniq_act_ := data.act.foldl (fun s v => set_insert v s) (bind_dims self0 data).uniq_act_,
        k_ := class_count (bind_dims self0 data).uniq_act_ data.act, act_ := ranks }
    data.resp data.prob w5 w6
  obtain ⟨w, wt, e3, hlw, hlwt, -, -⟩ := set_simplex_vertices_spec m
    { bind_dims self0 data with
        uniq_act_ := data.act.foldl (fun s v => set_insert v s) (bind_dims self0 data).uniq_act_,
        k_ := class_count (bind_dims self0 data).uniq_act_ data.act, act_ := ranks,
        resp_ := rs } hk
  have e4 := compute_kernel_matrix_spec m
    { bind_dims self0 data with
        uniq_act_ := data.act.foldl (fun s v => set_insert v s) (bind_dims self0 data).uniq_act_,
        k_ := class_count (bind_dims self0 data).uniq_act_ data.act, act_ := ranks,
        resp_ := rs, w_ := w, wt_ := wt } data hwf ⟨rfl, rfl, rfl, rfl, rfl, rfl⟩ hnt
  refine ⟨{ bind_dims self0 data with
        uniq_act_ := data.act.foldl (fun s v => set_insert v s) (bind_dims self0 data).uniq_act_,
        k_ := class_count (bind_dims self0 data).uniq_act_ data.act, act_ := ranks,
        resp_ := rs, w_ := w, wt_ := wt,
        kmat_ := (List.range' 0 (data.nsample * data.nsample)).map
          (fun t => kernel_spec m self0 data (t / data.nsample) (t % data.nsample)) },
    ?_, ⟨hl1, hv1, hl2, hlw, hlwt, by simp [bind_dims]⟩, rfl, rfl, rfl, rfl, rfl, hv2, ?_⟩
  · simp only [ABC.bind, Option.bind_eq_bind, e1, Option.some_bind, e2, e3]
    exact e4
  · intro i j hi hj
    have h := index_lt _ _ i j hi hj
    simp only [List.getElem?_map, List.getElem?_range' _ _ h, Option.map_some',
      Nat.zero_add, one_mul, (div_mod_of_eq data.nsample i j hj).1,
      (div_mod_of_eq data.nsample i j hj).2]

/-- C2. For every well-formed dataset with k ≥ 2 classes bound to an evaluator, every
worker count nthreads ≥ 1, every x of length (n+1)(k-1) and every content `st` of the
statics of the loss functions: `resp_[i]` is outcome_i / prob_i, `compute_loss` returns all
n alignment scores u_i (the `loss_worker` ranges cover [0, n)), and the value-only
evaluation returns f = Σ_{i<n} |resp_i| · (loss_p(u_i) if resp_i > 0 else loss_m(u_i)),
the same for every worker count. -/
theorem eval_f_value {α : Type} [LinearOrderedField α] (m : Libm α) (self0 : ABCFunc α)
    (data : Data α) (hwf : data.wf = true) (hnt : 1 ≤ self0.nthreads_)
    (hk : 2 ≤ class_count self0.uniq_act_ data.act) (x : List α)
    (hx : x.length = (data.nsample + 1) * (class_count self0.uniq_act_ data.act - 1))
    (st : Statics α) :
    ∃ self, ABC.bind m self0 data = some self ∧
      (∀ i, i < self.nsample_ →
        self.resp_.getD i 0 = data.resp.getD i 0 / data.prob.getD i 0) ∧
      compute_loss self x = some ((List.range' 0 self.nsample_).map (alignment_spec self x)) ∧
      ∃ st', eval_f self x st = some (objective_spec self x st, st') ∧
        ∀ nt, 1 ≤ nt →
          eval_f { self with nthreads_ := nt } x st = some (objective_spec self x st, st') := by
  obtain ⟨self, hb, hs, hn, hkk, hnt', -, -, hresp, -⟩ := bind_spec m self0 data hwf hnt hk
  have hx' : x.length = (self.nsample_ + 1) * (self.k_ - 1) := by rw [hn, hkk]; exact hx
  obtain ⟨st', hf, -⟩ := eval_f_spec self x hs hx' (by omega) st
  refine ⟨self, hb, ?_, compute_loss_spec self x hs hx' (by omega), st', hf, ?_⟩
  · intro i hi
    exact getD_of_getElem? _ _ _ _ (hresp i (by omega))
  · intro nt hnt1
    have h1 := compute_loss_spec { self with nthreads_ := nt } x hs hx' hnt1
    have h2 := compute_loss_spec self x hs hx' (by omega)
    simp only [eval_f, Option.bind_eq_bind, h2, Option.some_bind] at hf
    simp only [eval_f, Option.bind_eq_bind, h1, Option.some_bind]
    exact hf

/-- C2 on the three-sample dataset, two workers, at x = 0, for the first evaluator of the
process. -/
theorem eval_f_value_witness :
    (sample_data : Data ℝ).wf = true ∧ 1 ≤ (poly_evaluator 2 : ABCFunc ℝ).nthreads_ ∧
    2 ≤ class_count (poly_evaluator 2 : ABCFunc ℝ).uniq_act_ (sample_data : Data ℝ).act ∧
    ([0, 0, 0, 0] : List ℝ).length = ((sample_data : Data ℝ).nsample + 1) *
      (class_count (poly_evaluator 2 : ABCFunc ℝ).uniq_act_ (sample_data : Data ℝ).act - 1) ∧
    ∃ self, ABC.bind (Libm.mk Real.sqrt Real.exp Real.rpow (fun _ => none)) (poly_evaluator 2)
        sample_data = some self ∧
      (∀ i, i < self.nsample_ → self.resp_.getD i 0 =
        (sample_data : Data ℝ).resp.getD i 0 / (sample_data : Data ℝ).prob.getD i 0) ∧
      compute_loss self [0, 0, 0, 0] =
        some ((List.range' 0 self.nsample_).map (alignment_spec self [0, 0, 0, 0])) ∧
      ∃ st', eval_f self [0, 0, 0, 0] Statics.fresh
          = some (objective_spec self [0, 0, 0, 0] Statics.fresh, st') ∧
        ∀ nt, 1 ≤ nt → eval_f { self with nthreads_ := nt } [0, 0, 0, 0] Statics.fresh =
          some (objective_spec self [0, 0, 0, 0] Statics.fresh, st') :=
  ⟨rfl, by decide, by decide, by decide,
    eval_f_value (Libm.mk Real.sqrt Real.exp Real.rpow (fun _ => none)) (poly_evaluator 2)
      sample_data rfl (by decide) (by decide) [0, 0, 0, 0] (by decide) Statics.fresh⟩

/-- The state `bind` leaves for the two-sample dataset. -/
theorem small_bind :
    ∃ kmat : List ℝ, kmat.length = 4 ∧
      ABC.bind (Libm.mk Real.sqrt Real.exp Real.rpow (fun _ => none)) (poly_evaluator 2)
        small_data = some { bind_dims (poly_evaluator 2) small_data with
          uniq_act_ := [3, 5], k_ := 2, act_ := [1, 0], resp_ := [2, -2],
          w_ := [1, 1 + Real.sqrt 2], wt_ := [1, -1], kmat_ := kmat } := by
  have e1 : parse_actions (bind_dims (poly_evaluator 2 : ABCFunc ℝ) small_data)
      (small_data : Data ℝ).act = some { bind_dims (poly_evaluator 2) small_data with
          uniq_act_ := [3, 5], k_ := 2, act_ := [1, 0] } := by
    simp [parse_actions, bind_dims, poly_evaluator, small_data, ABCFunc.init, resize, store,
      List.range', set_insert, map_lookup]
  have e2 : scale_response ({ bind_dims (poly_evaluator 2) small_data with
          uniq_act_ := [3, 5], k_ := 2, act_ := [1, 0] } : ABCFunc ℝ)
      (small_data : Data ℝ).resp (small_data : Data ℝ).prob
      = some { bind_dims (poly_evaluator 2) small_data with
          uniq_act_ := [3, 5], k_ := 2, act_ := [1, 0], resp_ := [2, -2] } := by
    simp [scale_response, bind_dims, poly_evaluator, small_data, ABCFunc.init, resize, store,
      List.range']
  have e3 : set_simplex_vertices (Libm.mk Real.sqrt Real.exp Real.rpow (fun _ => none))
      ({ bind_dims (poly_evaluator 2) small_data with
          uniq_act_ := [3, 5], k_ := 2, act_ := [1, 0], resp_ := [2, -2] } : ABCFunc ℝ)
      = some { bind_dims (poly_evaluator 2) small_data with
          uniq_act_ := [3, 5], k_ := 2, act_ := [1, 0], resp_ := [2, -2],
          w_ := [1, 1 + Real.sqrt 2], wt_ := [1, -1] } := by
    simp [set_simplex_vertices, simplex_c1, simplex_c2, simplex_c3, bind_dims, poly_evaluator,
      small_data, ABCFunc.init, resize, fill, store, List.range']
  have e4 := compute_kernel_matrix_spec (Libm.mk Real.sqrt Real.exp Real.rpow (fun _ => none))
    ({ bind_dims (poly_evaluator 2) small_data with
          uniq_act_ := [3, 5], k_ := 2, act_ := [1, 0], resp_ := [2, -2],
          w_ := [1, 1 + Real.sqrt 2], wt_ := [1, -1] } : ABCFunc ℝ) small_data rfl
    ⟨rfl, rfl, rfl, rfl, rfl, rfl⟩ (by decide)
  refine ⟨(List.range' 0 (2 * 2)).map (fun t => kernel_spec
    (Libm.mk Real.sqrt Real.exp Real.rpow (fun _ => none))
    ({ bind_dims (poly_evaluator 2) small_data with
          uniq_act_ := [3, 5], k_ := 2, act_ := [1, 0], resp_ := [2, -2],
          w_ := [1, 1 + Real.sqrt 2], wt_ := [1, -1] } : ABCFunc ℝ) small_data (t / 2) (t % 2)),
    by simp, ?_⟩
  simp only [ABC.bind, Option.bind_eq_bind, e1, Option.some_bind, e2, e3]
  exact e4

/-- The gradient-only evaluation on the two-sample state with two workers, for the first
evaluator of the process. -/
theorem small_eval_g (k00 k01 k10 k11 : ℝ) :
    (eval_g ({ bind_dims (poly_evaluator 2) small_data with
          uniq_act_ := [3, 5], k_ := 2, act_ := [1, 0], resp_ := [2, -2],
          w_ := [1, 1 + Real.sqrt 2], wt_ := [1, -1], kmat_ := [k00, k01, k10, k11] } : ABCFunc ℝ)
      [0, 0, 0] [7, 7, 7] Statics.fresh).map Prod.fst
      = some [Real.sqrt 2, -k10 + k11 * (1 + Real.sqrt 2), 7] := by
  simp [eval_g, compute_loss, loss_worker, loss_range, loss_sample, inner_product,
    inner_product_with, eval_du_loop, grad_section, grad_worker, grad_range, grad_entry,
    dloss_p, dloss_m, static_init, Statics.fresh, bind_dims, poly_evaluator, small_data,
    ABCFunc.init, store, List.range']
  norm_num

/-- The gradient-only evaluation on the two-sample state with one worker leaves `kmat_`. -/
theorem small_eval_g_one_worker (k00 k01 k10 k11 : ℝ) :
    eval_g ({ bind_dims (poly_evaluator 2) small_data with
          nthreads_ := 1, uniq_act_ := [3, 5], k_ := 2, act_ := [1, 0], resp_ := [2, -2],
          w_ := [1, 1 + Real.sqrt 2], wt_ := [1, -1], kmat_ := [k00, k01, k10, k11] } : ABCFunc ℝ)
      [0, 0, 0] [7, 7, 7] Statics.fresh = none := by
  simp [eval_g, compute_loss, loss_worker, loss_range, loss_sample, inner_product,
    inner_product_with, eval_du_loop, grad_section, grad_worker, grad_range, grad_entry,
    dloss_p, dloss_m, static_init, Statics.fresh, bind_dims, poly_evaluator, small_data,
    ABCFunc.init, store, List.range']

/-- The value-only evaluation on the two-sample state along the first coordinate of `x`, for
the first evaluator of the process. -/
theorem small_eval_f (k00 k01 k10 k11 t : ℝ) :
    (eval_f ({ bind_dims (poly_evaluator 2) small_data with
          uniq_act_ := [3, 5], k_ := 2, act_ := [1, 0], resp_ := [2, -2],
          w_ := [1, 1 + Real.sqrt 2], wt_ := [1, -1], kmat_ := [k00, k01, k10, k11] } : ABCFunc ℝ)
      [t, 0, 0] Statics.fresh).map Prod.fst
      = some (2 * loss_p_spec (poly_evaluator 2) ((1 + Real.sqrt 2) * t) +
        2 * loss_m_spec (poly_evaluator 2) t) := by
  simp [eval_f, compute_loss, loss_worker, loss_range, loss_sample, inner_product,
    inner_product_with, eval_value_loop, loss_p, loss_m, loss_p_spec, loss_m_spec, static_init,
    Statics.fresh, bind_dims, poly_evaluator, small_data, ABCFunc.init, store, List.range']
  rw [if_neg (by norm_num)]
  split_ifs <;> ring

/-- The derivative at `t = 0` of the value the code returns on the two-sample dataset along
the first coordinate of `x`. -/
theorem small_value_deriv :
    HasDerivAt (fun t : ℝ => 2 * loss_p_spec (poly_evaluator 2) ((1 + Real.sqrt 2) * t) +
        2 * loss_m_spec (poly_evaluator 2) t) (-(2 * Real.sqrt 2)) 0 := by
  have hc : (0 : ℝ) < (poly_evaluator 2 : ABCFunc ℝ).c_ := by
    norm_num [poly_evaluator, ABCFunc.init]
  have hθ : (poly_evaluator 2 : ABCFunc ℝ).thres_ = 1 / 2 := by
    norm_num [poly_evaluator, ABCFunc.init]
  have hθ' : (poly_evaluator 2 : ABCFunc ℝ).thres_ = (poly_evaluator 2 : ABCFunc ℝ).c_ /
      (1 + (poly_evaluator 2 : ABCFunc ℝ).c_) := rfl
  have hp := loss_p_hasDerivAt (poly_evaluator 2 : ABCFunc ℝ) hc hθ' 0
  rw [if_neg (by rw [hθ]; norm_num)] at hp
  have hm := loss_m_hasDerivAt (poly_evaluator 2 : ABCFunc ℝ) hc hθ' 0
  have hdm : dloss_m_spec (poly_evaluator 2 : ABCFunc ℝ) 0 = 1 := by
    simp only [dloss_m_spec, hθ]; norm_num
  rw [hdm] at hm
  have hlin : HasDerivAt (fun t : ℝ => (1 + Real.sqrt 2) * t) (1 + Real.sqrt 2) 0 := by
    simpa using (hasDerivAt_id (0 : ℝ)).const_mul (1 + Real.sqrt 2)
  have hp0 : HasDerivAt (loss_p_spec (poly_evaluator 2 : ABCFunc ℝ)) (-1)
      ((fun t : ℝ => (1 + Real.sqrt 2) * t) 0) := by simpa using hp
  have hcomp := HasDerivAt.comp (0 : ℝ) hp0 hlin
  have h := (hcomp.const_mul 2).add (hm.const_mul 2)
  convert h using 1
  ring

/-- C1 on the two-sample, two-class dataset with two workers, at x = 0 and a gradient
buffer holding [7, 7, 7], for the first evaluator of the process: the gradient-only
evaluation returns g[0] = √2 and leaves g[2] unwritten (still 7), while the value function
has partial derivative -2√2 with respect to x[0]; with one worker the same evaluation reads
`kmat_` out of bounds. -/
theorem eval_g_not_gradient :
    ∃ self, ABC.bind (Libm.mk Real.sqrt Real.exp Real.rpow (fun _ => none)) (poly_evaluator 2)
        small_data = some self ∧
      (∃ g1 st', eval_g self [0, 0, 0] [7, 7, 7] Statics.fresh
        = some ([Real.sqrt 2, g1, 7], st')) ∧
      HasDerivAt (fun t : ℝ => ((eval_f self [t, 0, 0] Statics.fresh).map Prod.fst).getD 0)
        (-(2 * Real.sqrt 2)) 0 ∧
      Real.sqrt 2 ≠ -(2 * Real.sqrt 2) ∧
      eval_g { self with nthreads_ := 1 } [0, 0, 0] [7, 7, 7] Statics.fresh = none := by
  obtain ⟨kmat, hl, hb⟩ := small_bind
  obtain ⟨k00, k01, k10, k11, rfl⟩ : ∃ a b c d, kmat = [a, b, c, d] := by
    match kmat, hl with
    | [a, b, c, d], _ => exact ⟨a, b, c, d, rfl⟩
  refine ⟨_, hb, ?_, ?_, ?_, small_eval_g_one_worker k00 k01 k10 k11⟩
  · have h := small_eval_g k00 k01 k10 k11
    rw [Option.map_eq_some'] at h
    obtain ⟨⟨g, st'⟩, h1, h2⟩ := h
    simp only at h2
    subst h2
    exact ⟨_, st', h1⟩
  · have e : (fun t : ℝ => ((eval_f ({ bind_dims (poly_evaluator 2) small_data with
          uniq_act_ := [3, 5], k_ := 2, act_ := [1, 0], resp_ := [2, -2],
          w_ := [1, 1 + Real.sqrt 2], wt_ := [1, -1],
          kmat_ := [k00, k01, k10, k11] } : ABCFunc ℝ) [t, 0, 0] Statics.fresh).map
            Prod.fst).getD 0)
        = fun t : ℝ => 2 * loss_p_spec (poly_evaluator 2) ((1 + Real.sqrt 2) * t) +
          2 * loss_m_spec (poly_evaluator 2) t := by
      funext t
      rw [small_eval_f]; rfl
    rw [e]
    exact small_value_deriv
  · have : (0 : ℝ) < Real.sqrt 2 := Real.sqrt_pos.mpr (by norm_num)
    intro h
    linarith

/-! ## Simplex encoder: the companion matrix -/

/-- The entries of `wt_` as `set_simplex_vertices` leaves them: `c1` in column `0`, and in
column `c ≥ 1` the value `c2`, increased by `c3` on axis `c - 1`. -/
theorem set_simplex_vertices_wt {α : Type} [LinearOrderedField α] (m : Libm α)
    (self : ABCFunc α) (hk : 2 ≤ self.k_) :
    ∃ self', set_simplex_vertices m self = some self' ∧
      self'.wt_.length = self.k_ * (self.k_ - 1) ∧
      ∀ a c, a < self.k_ - 1 → c < self.k_ → Wt_entry self'.wt_ self.k_ a c =
        if c = 0 then simplex_c1 m self.k_
        else simplex_c2 m self.k_ + if a + 1 = c then simplex_c3 m self.k_ else 0 := by
  obtain ⟨w, wt, h, -, hl, -, hv⟩ := set_simplex_vertices_spec m self hk
  refine ⟨_, h, hl, ?_⟩
  intro a c ha hc
  have ht : a * self.k_ + c < self.k_ * (self.k_ - 1) := by
    have := index_lt (self.k_ - 1) self.k_ a c ha hc
    rw [Nat.mul_comm self.k_]; exact this
  obtain ⟨hd, hmod⟩ := div_mod_of_eq self.k_ a c hc
  simp only [Wt_entry, List.getD_eq_getElem?_getD, hv _ ht, Option.getD_some, hd, hmod]
  by_cases h0 : c = 0
  · rw [if_pos h0, if_pos h0]
  · rw [if_neg h0, if_neg h0]
    congr 1
    exact if_congr eq_comm rfl rfl

theorem sum_ite_zero (n : Nat) (hn : 0 < n) (v : ℝ) :
    Finset.sum (Finset.range n) (fun c => if c = 0 then v else 0) = v := by
  rw [Finset.sum_eq_single 0]
  · rw [if_pos rfl]
  · intro b _ hb; rw [if_neg hb]
  · intro h; exact absurd (Finset.mem_range.mpr hn) h

/-- Row sums and squared column distances of `wt_` in terms of `c1`, `c2`, `c3`. -/
theorem simplex_wt_sums (m : Libm ℝ) (self : ABCFunc ℝ) (hk : 2 ≤ self.k_) :
    ∃ self', set_simplex_vertices m self = some self' ∧
      (∀ a, a < self.k_ - 1 → Wt_row_sum self'.wt_ self.k_ a =
        simplex_c1 m self.k_ + (((self.k_ : ℝ) - 1) * simplex_c2 m self.k_ +
          simplex_c3 m self.k_)) ∧
      (∀ d, 1 ≤ d → d < self.k_ → Wt_col_sq_dist self'.wt_ self.k_ 0 d =
        ((self.k_ : ℝ) - 2) * (simplex_c1 m self.k_ - simplex_c2 m self.k_) ^ 2 +
          (simplex_c1 m self.k_ - simplex_c2 m self.k_ - simplex_c3 m self.k_) ^ 2) ∧
      (∀ c d, 1 ≤ c → c < self.k_ → 1 ≤ d → d < self.k_ → c ≠ d →
        Wt_col_sq_dist self'.wt_ self.k_ c d = 2 * simplex_c3 m self.k_ ^ 2) := by
  obtain ⟨self', h, -, hv⟩ := set_simplex_vertices_wt m self hk
  have hcast : (((self.k_ - 1 : Nat)) : ℝ) = (self.k_ : ℝ) - 1 := by
    rw [Nat.cast_sub (by omega)]; simp
  refine ⟨self', h, ?_, ?_, ?_⟩
  · intro a ha
    unfold Wt_row_sum
    have e : ∀ c ∈ Finset.range self.k_, Wt_entry self'.wt_ self.k_ a c
        = simplex_c2 m self.k_ +
          ((if c = 0 then simplex_c1 m self.k_ - simplex_c2 m self.k_ else 0) +
            (if c = a + 1 then simplex_c3 m self.k_ else 0)) := by
      intro c hc
      rw [hv a c ha (Finset.mem_range.mp hc)]
      by_cases h0 : c = 0
      · have h1 : ¬ c = a + 1 := by omega
        simp only [if_pos h0, if_neg h1]; ring
      · simp only [if_neg h0]
        rw [zero_add]
        congr 1
        exact if_congr eq_comm rfl rfl
    rw [Finset.sum_congr rfl e, Finset.sum_add_distrib, Finset.sum_add_distrib,
      Finset.sum_const, Finset.card_range, nsmul_eq_mul, sum_ite_zero _ (by omega),
      Finset.sum_ite_eq' (Finset.range self.k_) (a + 1) (fun _ => simplex_c3 m self.k_),
      if_pos (Finset.mem_range.mpr (by omega))]
    ring
  · intro d hd1 hdk
    unfold Wt_col_sq_dist
    have e : ∀ a ∈ Finset.range (self.k_ - 1),
        (Wt_entry self'.wt_ self.k_ a 0 - Wt_entry self'.wt_ self.k_ a d) ^ 2
        = (simplex_c1 m self.k_ - simplex_c2 m self.k_) ^ 2 +
          (if a + 1 = d then
            (simplex_c1 m self.k_ - simplex_c2 m self.k_ - simplex_c3 m self.k_) ^ 2 -
              (simplex_c1 m self.k_ - simplex_c2 m self.k_) ^ 2 else 0) := by
      intro a ha
      have hd0 : ¬ d = 0 := by omega
      rw [hv a 0 (Finset.mem_range.mp ha) (by omega), hv a d (Finset.mem_range.mp ha) hdk]
      simp only [if_true, if_neg hd0]
      split_ifs <;> ring
    rw [Finset.sum_congr rfl e, Finset.sum_add_distrib, Finset.sum_const, Finset.card_range,
      nsmul_eq_mul, hcast, sum_ite_succ _ d hd1 (by omega)]
    ring
  · intro c d hc1 hck hd1 hdk hne
    unfold Wt_col_sq_dist
    have e : ∀ a ∈ Finset.range (self.k_ - 1),
        (Wt_entry self'.wt_ self.k_ a c - Wt_entry self'.wt_ self.k_ a d) ^ 2
        = (if a + 1 = c then simplex_c3 m self.k_ ^ 2 else 0) +
          (if a + 1 = d then simplex_c3 m self.k_ ^ 2 else 0) := by
      intro a ha
      have hc0 : ¬ c = 0 := by omega
      have hd0 : ¬ d = 0 := by omega
      rw [hv a c (Finset.mem_range.mp ha) hck, hv a d (Finset.mem_range.mp ha) hdk]
      simp only [if_neg hc0, if_neg hd0]
      by_cases h1 : a + 1 = c
      · have h2 : ¬ a + 1 = d := fun h2 => hne (h1.symm.trans h2)
        simp only [if_pos h1, if_neg h2]; ring
      · by_cases h2 : a + 1 = d
        · simp only [if_neg h1, if_pos h2]; ring
        · simp only [if_neg h1, if_neg h2]; ring
    rw [Finset.sum_congr rfl e, Finset.sum_add_distrib, sum_ite_succ _ c hc1 (by omega),
      sum_ite_succ _ d hd1 (by omega)]
    ring

/-- C11. For every k ≥ 2, the matrix W' (`wt_`) built by `set_simplex_vertices`, read as
k-1 rows (axes) of k entries with column c the vertex of class c, places the classes as
vertices of a centered regular simplex: every row sums to zero and any two distinct columns
are at the same squared distance 2k/(k-1). -/
theorem simplex_wt_centered_regular (m : Libm ℝ) (hm : m.sqrt = Real.sqrt) (self : ABCFunc ℝ)
    (hk : 2 ≤ self.k_) :
    ∃ self', set_simplex_vertices m self = some self' ∧
      (∀ a, a < self.k_ - 1 → Wt_row_sum self'.wt_ self.k_ a = 0) ∧
      (∀ c d, c < self.k_ → d < self.k_ → c ≠ d →
        Wt_col_sq_dist self'.wt_ self.k_ c d = 2 * (self.k_ : ℝ) / ((self.k_ : ℝ) - 1)) := by
  obtain ⟨self', h, hr, hd0, hd⟩ := simplex_wt_sums m self hk
  obtain ⟨hpos, ha2, hs, h3, h2, hc1⟩ := simplex_consts m hm self.k_ hk
  obtain ⟨a1, a2, a3⟩ := simplex_algebra (simplex_c1 m self.k_) (Real.sqrt self.k_)
    (self.k_ : ℝ) hs ha2
  have comm : ∀ c d, Wt_col_sq_dist self'.wt_ self.k_ c d
      = Wt_col_sq_dist self'.wt_ self.k_ d c := by
    intro c d
    unfold Wt_col_sq_dist
    exact Finset.sum_congr rfl (fun a _ => by ring)
  refine ⟨self', h, ?_, ?_⟩
  · intro a ha
    rw [hr a ha, h2, h3, a3]; ring
  · intro c d hck hdk hne
    rcases Nat.eq_zero_or_pos c with hc0 | hc0
    · subst hc0
      rw [hd0 d (by omega) hdk, h2, h3]; exact a1
    · rcases Nat.eq_zero_or_pos d with hd0' | hd0'
      · subst hd0'
        rw [comm, hd0 c (by omega) hck, h2, h3]; exact a1
      · rw [hd c d (by omega) hck (by omega) hdk hne, h3]; exact a2

/-- C11 at three classes. -/
theorem simplex_wt_centered_regular_witness :
    2 ≤ 3 ∧
    ∃ self', set_simplex_vertices (Libm.mk Real.sqrt Real.exp Real.rpow (fun _ => none))
        { ABCFunc.init 1 (1 : ℝ) 0 1 with k_ := 3 } = some self' ∧
      (∀ a, a < 3 - 1 → Wt_row_sum self'.wt_ 3 a = 0) ∧
      (∀ c d, c < 3 → d < 3 → c ≠ d →
        Wt_col_sq_dist self'.wt_ 3 c d = 2 * ((3 : ℕ) : ℝ) / (((3 : ℕ) : ℝ) - 1)) :=
  ⟨by decide, simplex_wt_centered_regular (Libm.mk Real.sqrt Real.exp Real.rpow (fun _ => none))
    rfl { ABCFunc.init 1 (1 : ℝ) 0 1 with k_ := 3 } (by decide)⟩

/-! ## Label encoder -/

theorem set_insert_mem (v x : Int) (l : List Int) : x ∈ set_insert v l ↔ x = v ∨ x ∈ l := by
  induction l with
  | nil => simp [set_insert]
  | cons a rest ih =>
    simp only [set_insert]
    by_cases h1 : v < a
    · rw [if_pos h1]; simp
    · rw [if_neg h1]
      by_cases h2 : v = a
      · rw [if_pos h2]; subst h2; simp
      · rw [if_neg h2, List.mem_cons, ih, List.mem_cons]
        tauto

theorem set_insert_sorted (v : Int) (l : List Int) (hs : l.Sorted (· < ·)) :
    (set_insert v l).Sorted (· < ·) := by
  induction l with
  | nil => simp [set_insert]
  | cons a rest ih =>
    have hs' := List.pairwise_cons.mp hs
    simp only [set_insert]
    by_cases h1 : v < a
    · rw [if_pos h1]
      refine List.pairwise_cons.mpr ⟨?_, hs⟩
      intro x hx
      rcases List.mem_cons.mp hx with h | h
      · rw [h]; exact h1
      · exact lt_trans h1 (hs'.1 x h)
    · rw [if_neg h1]
      by_cases h2 : v = a
      · rw [if_pos h2]; exact hs
      · rw [if_neg h2]
        refine List.pairwise_cons.mpr ⟨?_, ih hs'.2⟩
        intro x hx
        rcases (set_insert_mem v x rest).mp hx with h | h
        · rw [h]; omega
        · exact hs'.1 x h

/-- The set `uniq_act_` after the labels `act` have been inserted: it is strictly
increasing and holds the old values and the labels. -/
theorem uniq_fold (act : List Int) : ∀ (uniq : List Int), uniq.Sorted (· < ·) →
    (act.foldl (fun s v => set_insert v s) uniq).Sorted (· < ·) ∧
    ∀ x, x ∈ act.foldl (fun s v => set_insert v s) uniq ↔ x ∈ uniq ∨ x ∈ act := by
  induction act with
  | nil => intro uniq hs; exact ⟨hs, fun x => by simp⟩
  | cons a rest ih =>
    intro uniq hs
    obtain ⟨h1, h2⟩ := ih (set_insert a uniq) (set_insert_sorted a uniq hs)
    refine ⟨h1, fun x => ?_⟩
    rw [List.foldl_cons, h2, set_insert_mem, List.mem_cons]
    tauto

/-- In a strictly increasing table the rank looked up for a value that occurs is the number
of smaller values. -/
theorem map_lookup_sorted (v : Int) (l : List Int) (hs : l.Sorted (· < ·)) (hv : v ∈ l) :
    ∀ s, map_lookup v (l.zip (List.range' s l.length)) =
      s + (l.filter (fun x => decide (x < v))).length := by
  induction l with
  | nil => simp at hv
  | cons a rest ih =>
    intro s
    have hs' := List.pairwise_cons.mp hs
    simp only [List.length_cons, List.range'_succ, List.zip_cons_cons, map_lookup]
    by_cases h : a = v
    · subst h
      rw [if_pos rfl]
      have : (a :: rest).filter (fun x => decide (x < a)) = [] := by
        rw [List.filter_eq_nil_iff]
        intro x hx
        rcases List.mem_cons.mp hx with h | h
        · simp [h]
        · have := hs'.1 x h
          simp only [decide_eq_true_eq]; omega
      rw [this]; simp
    · rw [if_neg h]
      have hv' : v ∈ rest := by
        rcases List.mem_cons.mp hv with h1 | h1
        · exact absurd h1.symm h
        · exact h1
      have hlt : a < v := hs'.1 v hv'
      have ih' := ih hs'.2 hv' (s + 1)
      simp only [List.zip] at ih' ⊢
      rw [ih', List.filter_cons_of_pos (by simpa using hlt), List.length_cons]
      omega

theorem sorted_filter_lt_getElem (l : List Int) (hs : l.Sorted (· < ·)) :
    ∀ r (hr : r < l.length), (l.filter (fun x => decide (x < l[r]))).length = r := by
  induction l with
  | nil => intro r hr; simp at hr
  | cons a rest ih =>
    intro r hr
    have hs' := List.pairwise_cons.mp hs
    cases r with
    | zero =>
      have : (a :: rest).filter (fun x => decide (x < (a :: rest)[0])) = [] := by
        rw [List.filter_eq_nil_iff]
        intro x hx
        rcases List.mem_cons.mp hx with h | h
        · simp [h]
        · have := hs'.1 x h
          simp only [List.getElem_cons_zero, decide_eq_true_eq]; omega
      rw [this]; rfl
    | succ r' =>
      have hr' : r' < rest.length := by simpa using hr
      have hlt : a < rest[r'] := hs'.1 _ (List.getElem_mem _)
      simp only [List.getElem_cons_succ]
      rw [List.filter_cons_of_pos (by simpa using hlt), List.length_cons, ih hs'.2 r' hr']

/-- The ranks `parse_actions` stores: entry `i` is the table lookup of label `i`. -/
theorem parse_actions_lookup {α : Type} [LinearOrderedField α] (self : ABCFunc α)
    (act : List Int) (hact : act.length = self.nsample_) :
    ∃ ranks : List Nat, parse_actions self act = some { self with
        uniq_act_ := act.foldl (fun s v => set_insert v s) self.uniq_act_,
        k_ := (act.foldl (fun s v => set_insert v s) self.uniq_act_).length, act_ := ranks } ∧
      ranks.length = self.nsample_ ∧
      ∀ i, i < self.nsample_ → ranks[i]? = some (map_lookup (act.getD i 0)
        ((act.foldl (fun s v => set_insert v s) self.uniq_act_).zip
          (List.range' 0 (act.foldl (fun s v => set_insert v s) self.uniq_act_).length))) := by
  obtain ⟨ranks, h, hl, hv⟩ := foldlM_range'_inv
    (fun ranks i => (act[i]?).bind (fun a => store ranks i (map_lookup a
      ((act.foldl (fun s v => set_insert v s) self.uniq_act_).zip
        (List.range' 0 (act.foldl (fun s v => set_insert v s) self.uniq_act_).length)))))
    (fun i (ranks : List Nat) => ranks.length = self.nsample_ ∧
      ∀ t, t < i → ranks[t]? = some (map_lookup (act.getD t 0)
        ((act.foldl (fun s v => set_insert v s) self.uniq_act_).zip
          (List.range' 0 (act.foldl (fun s v => set_insert v s) self.uniq_act_).length))))
    self.nsample_ 0 (resize self.act_ self.nsample_)
    ⟨resize_length _ _, fun t ht => by omega⟩
    (by
      rintro i ranks _ hi ⟨hl, hv⟩
      refine ⟨ranks.set i (map_lookup (act.getD i 0)
        ((act.foldl (fun s v => set_insert v s) self.uniq_act_).zip
          (List.range' 0 (act.foldl (fun s v => set_insert v s) self.uniq_act_).length))),
        ?_, by simpa using hl, ?_⟩
      · beta_reduce
        rw [getElem?_of_lt act i 0 (by omega), Option.some_bind]
        exact store_eq_some _ _ _ (by omega)
      · intro t ht
        rw [List.getElem?_set]
        by_cases e : i = t
        · subst e; rw [if_pos rfl, if_pos (by omega)]
        · rw [if_neg e]; exact hv t (by omega))
  refine ⟨ranks, ?_, hl, fun i hi => hv i (by omega)⟩
  simp only [parse_actions, Option.bind_eq_bind, h, Option.some_bind, Option.pure_def]

/-- The number of entries of a strictly increasing list below `v`, as a count over the
labels `act` that have the same members. -/
theorem filter_length_eq_card (l act : List Int) (hs : l.Sorted (· < ·))
    (hm : ∀ x, x ∈ l ↔ x ∈ act) (v : Int) :
    (l.filter (fun x => decide (x < v))).length =
      (act.toFinset.filter (fun x => x < v)).card := by
  have hnd : l.Nodup := hs.nodup
  have e : act.toFinset.filter (fun x => x < v)
      = (l.filter (fun x => decide (x < v))).toFinset := by
    ext x; simp [hm x]
  rw [e, List.toFinset_card_of_nodup (hnd.filter _)]

/-- C12. For every raw label array of length n bound to a freshly constructed evaluator
(empty `uniq_act_`), `parse_actions` returns, sets k to the number of distinct raw values,
and gives sample i the rank `act_[i]` in [0, k) equal to the number of distinct raw values
strictly smaller than its label; equal labels get equal ranks, smaller labels smaller
ranks, and every rank in [0, k) is used. -/
theorem parse_actions_ranks {α : Type} [LinearOrderedField α] (self : ABCFunc α)
    (act : List Int) (hfresh : self.uniq_act_ = []) (hact : act.length = self.nsample_) :
    ∃ self', parse_actions self act = some self' ∧
      self'.k_ = act.toFinset.card ∧ self'.act_.length = self.nsample_ ∧
      (∀ i, i < self.nsample_ → self'.act_.getD i 0 < self'.k_ ∧
        self'.act_.getD i 0 = (act.toFinset.filter (fun v => v < act.getD i 0)).card) ∧
      (∀ i j, i < self.nsample_ → j < self.nsample_ →
        (act.getD i 0 = act.getD j 0 → self'.act_.getD i 0 = self'.act_.getD j 0) ∧
        (act.getD i 0 < act.getD j 0 → self'.act_.getD i 0 < self'.act_.getD j 0)) ∧
      (∀ r, r < self'.k_ → ∃ i, i < self.nsample_ ∧ self'.act_.getD i 0 = r) := by
  obtain ⟨ranks, h, hl, hv⟩ := parse_actions_lookup self act hact
  rw [hfresh] at h hv
  obtain ⟨hs, hm⟩ := uniq_fold act [] (List.sorted_nil)
  have hm' : ∀ x, x ∈ act.foldl (fun s v => set_insert v s) [] ↔ x ∈ act := fun x => by
    rw [hm x]; simp
  have hk : (act.foldl (fun s v => set_insert v s) []).length = act.toFinset.card := by
    have e : (act.foldl (fun s v => set_insert v s) []).toFinset = act.toFinset := by
      ext x; simp [hm' x]
    rw [← e, List.toFinset_card_of_nodup hs.nodup]
  have hmem : ∀ i, i < self.nsample_ → act.getD i 0 ∈ act := by
    intro i hi
    rw [List.getD_eq_getElem?_getD, List.getElem?_eq_getElem (by omega)]
    exact List.getElem_mem _
  have hrank : ∀ i, i < self.nsample_ → ranks.getD i 0 =
      (act.toFinset.filter (fun v => v < act.getD i 0)).card := by
    intro i hi
    rw [getD_of_getElem? ranks i _ 0 (hv i hi),
      map_lookup_sorted _ _ hs ((hm' _).mpr (hmem i hi)) 0, Nat.zero_add,
      filter_length_eq_card _ act hs hm']
  have hlt : ∀ a b : Int, a ∈ act → a < b →
      (act.toFinset.filter (fun v => v < a)).card < (act.toFinset.filter (fun v => v < b)).card := by
    intro a b ha hab
    apply Finset.card_lt_card
    have hsub : act.toFinset.filter (fun v => v < a) ⊆ act.toFinset.filter (fun v => v < b) := by
      intro x hx
      simp only [Finset.mem_filter] at hx ⊢
      exact ⟨hx.1, lt_trans hx.2 hab⟩
    rw [Finset.ssubset_iff_of_subset hsub]
    exact ⟨a, by simp [ha, hab], by simp⟩
  have hself : ∀ a : Int, a ∈ act →
      (act.toFinset.filter (fun v => v < a)).card < act.toFinset.card := by
    intro a ha
    apply Finset.card_lt_card
    rw [Finset.ssubset_iff_of_subset (Finset.filter_subset _ _)]
    exact ⟨a, by simp [ha], by simp⟩
  refine ⟨_, h, hk, hl, ?_, ?_, ?_⟩
  · intro i hi
    refine ⟨?_, hrank i hi⟩
    show ranks.getD i 0 < (act.foldl (fun s v => set_insert v s) []).length
    rw [hrank i hi, hk]
    exact hself _ (hmem i hi)
  · intro i j hi hj
    refine ⟨fun e => ?_, fun e => ?_⟩
    · show ranks.getD i 0 = ranks.getD j 0
      rw [hrank i hi, hrank j hj, e]
    · show ranks.getD i 0 < ranks.getD j 0
      rw [hrank i hi, hrank j hj]
      exact hlt _ _ (hmem i hi) e
  · intro r hr
    have hr' : r < (act.foldl (fun s v => set_insert v s) []).length := hr
    have hin : (act.foldl (fun s v => set_insert v s) [])[r] ∈ act :=
      (hm' _).mp (List.getElem_mem _)
    obtain ⟨i, hi, hiv⟩ := List.getElem_of_mem hin
    refine ⟨i, by omega, ?_⟩
    show ranks.getD i 0 = r
    have hgd : act.getD i 0 = (act.foldl (fun s v => set_insert v s) [])[r] := by
      rw [List.getD_eq_getElem?_getD, List.getElem?_eq_getElem hi]; exact hiv
    rw [getD_of_getElem? ranks i _ 0 (hv i (by omega)), hgd,
      map_lookup_sorted _ _ hs (List.getElem_mem _) 0, Nat.zero_add,
      sorted_filter_lt_getElem _ hs r hr']

/-- C12 on the labels [7, 3, 7] of the three-sample dataset. -/
theorem parse_actions_ranks_witness :
    (bind_dims (poly_evaluator 2 : ABCFunc ℝ) sample_data).uniq_act_ = [] ∧
    (sample_data : Data ℝ).act.length = (bind_dims (poly_evaluator 2 : ABCFunc ℝ)
      sample_data).nsample_ ∧
    ∃ self', parse_actions (bind_dims (poly_evaluator 2 : ABCFunc ℝ) sample_data)
        (sample_data : Data ℝ).act = some self' ∧
      self'.k_ = (sample_data : Data ℝ).act.toFinset.card ∧
      self'.act_.length = (bind_dims (poly_evaluator 2 : ABCFunc ℝ) sample_data).nsample_ ∧
      (∀ i, i < (bind_dims (poly_evaluator 2 : ABCFunc ℝ) sample_data).nsample_ →
        self'.act_.getD i 0 < self'.k_ ∧
        self'.act_.getD i 0 = ((sample_data : Data ℝ).act.toFinset.filter
          (fun v => v < (sample_data : Data ℝ).act.getD i 0)).card) ∧
      (∀ i j, i < (bind_dims (poly_evaluator 2 : ABCFunc ℝ) sample_data).nsample_ →
        j < (bind_dims (poly_evaluator 2 : ABCFunc ℝ) sample_data).nsample_ →
        ((sample_data : Data ℝ).act.getD i 0 = (sample_data : Data ℝ).act.getD j 0 →
          self'.act_.getD i 0 = self'.act_.getD j 0) ∧
        ((sample_data : Data ℝ).act.getD i 0 < (sample_data : Data ℝ).act.getD j 0 →
          self'.act_.getD i 0 < self'.act_.getD j 0)) ∧
      (∀ r, r < self'.k_ → ∃ i, i < (bind_dims (poly_evaluator 2 : ABCFunc ℝ)
        sample_data).nsample_ ∧ self'.act_.getD i 0 = r) :=
  ⟨rfl, rfl, parse_actions_ranks (bind_dims (poly_evaluator 2 : ABCFunc ℝ) sample_data)
    (sample_data : Data ℝ).act rfl rfl⟩

/-! ## Binding twice -/

/-- The steps of `bind` after `parse_actions` leave `k_`, `act_` and `uniq_act_` alone. -/
theorem bind_parse {α : Type} [LinearOrderedField α] (m : Libm α) (self0 self : ABCFunc α)
    (data : Data α) (h : ABC.bind m self0 data = some self) :
    ∃ p, parse_actions (bind_dims self0 data) data.act = some p ∧
      self.k_ = p.k_ ∧ self.act_ = p.act_ ∧ self.uniq_act_ = p.uniq_act_ := by
  simp only [ABC.bind, Option.bind_eq_bind, Option.bind_eq_some] at h
  obtain ⟨p, hp, s2, h2, s3, h3, h4⟩ := h
  refine ⟨p, hp, ?_⟩
  simp only [scale_response, Option.bind_eq_bind, Option.pure_def, Option.bind_eq_some,
    Option.some.injEq] at h2
  obtain ⟨rs, -, rfl⟩ := h2
  simp only [set_simplex_vertices, Option.bind_eq_bind, Option.pure_def, Option.bind_eq_some,
    Option.some.injEq] at h3
  obtain ⟨w1, -, w2, -, w3, -, wt1, -, wt2, -, rfl⟩ := h3
  simp only [compute_kernel_matrix, Option.bind_eq_bind, Option.pure_def, Option.bind_eq_some,
    Option.some.injEq] at h4
  obtain ⟨d, -, km, -, rfl⟩ := h4
  exact ⟨rfl, rfl, rfl⟩

/-- C13 on two datasets: after the two-sample dataset (labels [5, 3]) the three-sample
dataset (labels [7, 3, 7]) is bound on the same evaluator.  A fresh evaluator gets k = 2 and
ranks [1, 0, 1] from the second dataset; the evaluator bound twice gets k = 3 and ranks
[2, 0, 2], because `uniq_act_` still holds the label 5 of the first dataset. -/
theorem rebind_keeps_old_labels :
    ∃ s1 s2 sf,
      ABC.bind (Libm.mk Real.sqrt Real.exp Real.rpow (fun _ => none)) (poly_evaluator 2)
        small_data = some s1 ∧
      ABC.bind (Libm.mk Real.sqrt Real.exp Real.rpow (fun _ => none)) s1 sample_data = some s2 ∧
      ABC.bind (Libm.mk Real.sqrt Real.exp Real.rpow (fun _ => none)) (poly_evaluator 2)
        sample_data = some sf ∧
      sf.k_ = 2 ∧ sf.act_ = [1, 0, 1] ∧ sf.uniq_act_ = [3, 7] ∧
      s2.k_ = 3 ∧ s2.act_ = [2, 0, 2] ∧ s2.uniq_act_ = [3, 5, 7] := by
  obtain ⟨kmat, -, hb1⟩ := small_bind
  obtain ⟨s2, hb2, -⟩ := bind_spec (Libm.mk Real.sqrt Real.exp Real.rpow (fun _ => none))
    ({ bind_dims (poly_evaluator 2) small_data with
          uniq_act_ := [3, 5], k_ := 2, act_ := [1, 0], resp_ := [2, -2],
          w_ := [1, 1 + Real.sqrt 2], wt_ := [1, -1], kmat_ := kmat } : ABCFunc ℝ)
    sample_data rfl (by show (1 : Nat) ≤ 2; decide)
    (by show 2 ≤ class_count [3, 5] [7, 3, 7]; decide)
  obtain ⟨sf, hbf, -⟩ := bind_spec (Libm.mk Real.sqrt Real.exp Real.rpow (fun _ => none))
    (poly_evaluator 2 : ABCFunc ℝ) sample_data rfl (by decide) (by decide)
  obtain ⟨p2, hp2, e2k, e2a, e2u⟩ := bind_parse _ _ _ _ hb2
  obtain ⟨pf, hpf, efk, efa, efu⟩ := bind_parse _ _ _ _ hbf
  have ev2 : parse_actions (bind_dims ({ bind_dims (poly_evaluator 2) small_data with
          uniq_act_ := [3, 5], k_ := 2, act_ := [1, 0], resp_ := [2, -2],
          w_ := [1, 1 + Real.sqrt 2], wt_ := [1, -1], kmat_ := kmat } : ABCFunc ℝ)
        sample_data) (sample_data : Data ℝ).act
      = some { bind_dims ({ bind_dims (poly_evaluator 2) small_data with
          uniq_act_ := [3, 5], k_ := 2, act_ := [1, 0], resp_ := [2, -2],
          w_ := [1, 1 + Real.sqrt 2], wt_ := [1, -1], kmat_ := kmat } : ABCFunc ℝ)
        sample_data with uniq_act_ := [3, 5, 7], k_ := 3, act_ := [2, 0, 2] } := by
    simp [parse_actions, bind_dims, poly_evaluator, sample_data, small_data, ABCFunc.init,
      resize, store, List.range', set_insert, map_lookup]
  have evf : parse_actions (bind_dims (poly_evaluator 2 : ABCFunc ℝ) sample_data)
        (sample_data : Data ℝ).act
      = some { bind_dims (poly_evaluator 2 : ABCFunc ℝ) sample_data with
          uniq_act_ := [3, 7], k_ := 2, act_ := [1, 0, 1] } := by
    simp [parse_actions, bind_dims, poly_evaluator, sample_data, ABCFunc.init,
      resize, store, List.range', set_insert, map_lookup]
  rw [ev2] at hp2
  rw [evf] at hpf
  cases hp2
  cases hpf
  exact ⟨_, s2, sf, hb1, hb2, hbf, efk, efa, efu, e2k, e2a, e2u⟩

/-! ## The combined evaluation -/

/-- The combined evaluation on the two-sample state with two workers returns the value 4 and
the buffer of `small_eval_g`. -/
theorem small_eval_fg (k00 k01 k10 k11 : ℝ) :
    (eval_fg ({ bind_dims (poly_evaluator 2) small_data with
          uniq_act_ := [3, 5], k_ := 2, act_ := [1, 0], resp_ := [2, -2],
          w_ := [1, 1 + Real.sqrt 2], wt_ := [1, -1], kmat_ := [k00, k01, k10, k11] } : ABCFunc ℝ)
      [0, 0, 0] [7, 7, 7] Statics.fresh).map (fun r => (r.1, r.2.1))
      = some (4, some [Real.sqrt 2, -k10 + k11 * (1 + Real.sqrt 2), 7]) := by
  simp [eval_fg, eval_fused_loop, compute_loss, loss_worker, loss_range, loss_sample,
    inner_product, inner_product_with, grad_section, grad_worker, grad_range, grad_entry,
    dloss_p, dloss_m, loss_p, loss_m, static_init, Statics.fresh, bind_dims, poly_evaluator,
    small_data, ABCFunc.init, store, List.range']
  norm_num

/-- A loop fails when its body fails at one of its indices whatever the accumulator is. -/
theorem foldlM_eq_none {σ : Type} (step : σ → Nat → Option σ) (j : Nat)
    (hj : ∀ acc, step acc j = none) : ∀ (l : List Nat) (init : σ), j ∈ l →
    l.foldlM step init = none := by
  intro l
  induction l with
  | nil => intro _ h; simp at h
  | cons a l ih =>
    intro init h
    rw [List.foldlM_cons]
    by_cases e : a = j
    · subst e; rw [hj]; rfl
    · have hl : j ∈ l := by
        rcases List.mem_cons.mp h with h1 | h1
        · exact absurd h1.symm e
        · exact h1
      cases step init a with
      | none => rfl
      | some s => exact ih s hl

/-- With three samples and two classes the gradient workers read `w_[2]` although `w_` has
two entries: the parallel section of the gradient evaluations fails for every `du` and
`g`. -/
theorem grad_section_three_samples {α : Type} [LinearOrderedField α] (self : ABCFunc α)
    (hn : self.nsample_ = 3) (hk : self.k_ = 2) (hnt : self.nthreads_ = 2)
    (hw : self.w_.length = 2) (du g : List α) : grad_section self du g = none := by
  have hentry : grad_entry self du 1 = none := by
    simp only [grad_entry, hn, hk]
    rw [if_neg (by decide)]
    apply foldlM_eq_none _ 2 _ _ _ (by decide)
    intro acc
    have hread : self.w_[1 / (3 + 1) * 2 + 2]? = none := by
      rw [List.getElem?_eq_none_iff, hw]
    simp only [hread, Option.bind_eq_bind, Option.pure_def]
    cases du[2]? with
    | none => rfl
    | some a => cases self.kmat_[1 % (3 + 1) * 3 + 2]? <;> rfl
  have hr : grad_range self 0 = (0, 3) := by simp [grad_range, hn, hk, hnt]
  have hworker : ∀ g : List α, grad_worker self 0 du g = none := by
    intro g
    simp only [grad_worker, hr]
    apply foldlM_eq_none _ 1 _ _ _ (by decide)
    intro acc
    simp only [hn, hentry]
    rw [if_neg (by decide)]
    cases store acc 1 0 <;> rfl
  unfold grad_section
  rw [hnt]
  exact foldlM_eq_none _ 0 hworker _ _ (by decide)

/-- The combined evaluation on the three-sample dataset with two workers, at x = 0: it
assigns the value 6 of the value-only evaluation, and its gradient workers read outside
`w_`. -/
theorem sample_eval_fg :
    ∃ self, ABC.bind (Libm.mk Real.sqrt Real.exp Real.rpow (fun _ => none)) (poly_evaluator 2)
        sample_data = some self ∧
      (eval_f self [0, 0, 0, 0] Statics.fresh).map Prod.fst = some 6 ∧
      (eval_fg self [0, 0, 0, 0] [7, 7, 7, 7] Statics.fresh).map (fun r => (r.1, r.2.1))
        = some (6, none) := by
  obtain ⟨self, hb, hs, hn, hkk, hnt', hc, hθ, hresp, -⟩ := bind_spec
    (Libm.mk Real.sqrt Real.exp Real.rpow (fun _ => none)) (poly_evaluator 2 : ABCFunc ℝ)
    sample_data rfl (by decide) (by decide)
  have hn3 : self.nsample_ = 3 := hn
  have hk2 : self.k_ = 2 := by rw [hkk]; decide
  obtain ⟨st1, h1, -⟩ := eval_f_spec self [0, 0, 0, 0] hs
    (by rw [hn3, hk2]; rfl) (by rw [hnt']; decide) Statics.fresh
  obtain ⟨st2, h2, -⟩ := eval_fg_spec self [0, 0, 0, 0] [7, 7, 7, 7] hs
    (by rw [hn3, hk2]; rfl) (by rw [hnt']; decide) Statics.fresh
  have hr : ∀ i, i < 3 → self.resp_.getD i 0
      = (sample_data : Data ℝ).resp.getD i 0 / (sample_data : Data ℝ).prob.getD i 0 :=
    fun i hi => getD_of_getElem? _ _ _ _ (hresp i hi)
  have ha : ∀ i, alignment_spec self [0, 0, 0, 0] i = 0 := by
    intro i
    simp [alignment_spec, hn3, hk2, Finset.sum_range_succ]
  have hθ2 : self.thres_ = 1 / 2 := by
    rw [hθ]; norm_num [poly_evaluator, ABCFunc.init]
  have hobj : objective_spec self [0, 0, 0, 0] Statics.fresh = 6 := by
    simp only [objective_spec, hn3, Finset.sum_range_succ, Finset.sum_range_zero, ha,
      hr 0 (by omega), hr 1 (by omega), hr 2 (by omega), loss_p, loss_m, hθ2]
    norm_num [sample_data]
  have hg := grad_section_three_samples self hn3 hk2 hnt'
    (by rw [hs.2.2.2.1, hk2])
    ((List.range' 0 self.nsample_).map
      (du_term self Statics.fresh (alignment_spec self [0, 0, 0, 0]))) [7, 7, 7, 7]
  refine ⟨self, hb, ?_, ?_⟩
  · rw [h1, hobj]; rfl
  · rw [h2, hobj, hg]; rfl

/-! ## Datasets with fewer than two classes -/

/-- With fewer than two classes `set_simplex_vertices` leaves a buffer: for `k_ = 1` the
call `std::fill (w_.begin (), w_.begin () + k_, c1)` writes one entry into the empty `w_`,
for `k_ = 0` the bound `k_ - 1` of the second loop wraps around. -/
theorem set_simplex_vertices_few {α : Type} [LinearOrderedField α] (m : Libm α)
    (self : ABCFunc α) (hk : self.k_ < 2) : set_simplex_vertices m self = none := by
  obtain h | h : self.k_ = 0 ∨ self.k_ = 1 := by omega
  · simp [set_simplex_vertices, h, resize, fill]
  · simp [set_simplex_vertices, h, resize, fill]

/-- The class count `parse_actions` stores. -/
theorem parse_actions_k {α : Type} [LinearOrderedField α] (self p : ABCFunc α)
    (act : List Int) (h : parse_actions self act = some p) :
    p.k_ = class_count self.uniq_act_ act := by
  simp only [parse_actions, Option.bind_eq_bind, Option.pure_def, Option.bind_eq_some,
    Option.some.injEq] at h
  obtain ⟨ranks, -, rfl⟩ := h
  rfl

/-- With fewer than two classes `bind` ends in an access outside a buffer. -/
theorem bind_few {α : Type} [LinearOrderedField α] (m : Libm α) (self : ABCFunc α)
    (data : Data α) (hk : class_count self.uniq_act_ data.act < 2) :
    ABC.bind m self data = none := by
  simp only [ABC.bind, Option.bind_eq_bind]
  cases hp : parse_actions (bind_dims self data) data.act with
  | none => rfl
  | some p =>
    have hpk : p.k_ < 2 := by
      rw [parse_actions_k _ _ _ hp]
      exact hk
    simp only [Option.some_bind]
    cases hs : scale_response p data.resp data.prob with
    | none => rfl
    | some s =>
      have hsk : s.k_ = p.k_ := by
        simp only [scale_response, Option.bind_eq_bind, Option.pure_def, Option.bind_eq_some,
          Option.some.injEq] at hs
        obtain ⟨rs, -, rfl⟩ := hs
        rfl
      simp only [Option.some_bind]
      rw [set_simplex_vertices_few m s (by omega)]
      rfl

/-- C15, counterexample: binding the two-sample dataset whose labels are both 4 (one class)
and binding the dataset without samples (no class) do not end in a thrown parameter-validity
error.  In both cases the labels are parsed (`k_ = 1`, `k_ = 0`) and `set_simplex_vertices`
runs into an access outside a buffer. -/
theorem bind_one_class_not_rejected :
    (¬ ∃ e, bind_outcome (Libm.mk Real.sqrt Real.exp Real.rpow (fun _ => none))
        (poly_evaluator 2) one_class_data = Except.error (Fault.thrown e)) ∧
    bind_outcome (Libm.mk Real.sqrt Real.exp Real.rpow (fun _ => none))
        (poly_evaluator 2) one_class_data = Except.error Fault.out_of_bounds ∧
    bind_outcome (Libm.mk Real.sqrt Real.exp Real.rpow (fun _ => none))
        (poly_evaluator 2) empty_data = Except.error Fault.out_of_bounds ∧
    (∃ p : ABCFunc ℝ, parse_actions (bind_dims (poly_evaluator 2) one_class_data)
        (one_class_data : Data ℝ).act = some p ∧ p.k_ = 1 ∧ p.act_ = [0, 0] ∧
      fill (resize p.w_ (p.k_ * (p.k_ - 1))) 0 p.k_
        (simplex_c1 (Libm.mk Real.sqrt Real.exp Real.rpow (fun _ => none)) p.k_) = none) := by
  have h1 : bind_outcome (Libm.mk Real.sqrt Real.exp Real.rpow (fun _ => none))
      (poly_evaluator 2) one_class_data = Except.error Fault.out_of_bounds := by
    simp only [bind_outcome]
    rw [bind_few _ _ _ (by decide)]
  have h0 : bind_outcome (Libm.mk Real.sqrt Real.exp Real.rpow (fun _ => none))
      (poly_evaluator 2) empty_data = Except.error Fault.out_of_bounds := by
    simp only [bind_outcome]
    rw [bind_few _ _ _ (by decide)]
  refine ⟨?_, h1, h0, ?_⟩
  · rintro ⟨e, he⟩
    rw [h1] at he
    cases he
  · refine ⟨{ bind_dims (poly_evaluator 2) one_class_data with
      uniq_act_ := [4], k_ := 1, act_ := [0, 0] }, ?_, rfl, rfl, ?_⟩
    · simp [parse_actions, bind_dims, poly_evaluator, one_class_data, ABCFunc.init,
        resize, store, List.range', set_insert, map_lookup]
    · simp [fill, resize, bind_dims, poly_evaluator, ABCFunc.init]

/-- C15, amended: whenever the labels of the dataset give fewer than two classes (`k_ < 2`
after `parse_actions`), `bind` does not return a bound evaluator: it ends in an access
outside a buffer inside `set_simplex_vertices`, not in a thrown error. -/
theorem bind_few_classes {α : Type} [LinearOrderedField α] (m : Libm α) (self : ABCFunc α)
    (data : Data α) (hk : class_count self.uniq_act_ data.act < 2) :
    bind_outcome m self data = Except.error Fault.out_of_bounds ∧
    (∀ s : ABCFunc α, s.k_ = class_count self.uniq_act_ data.act →
      set_simplex_vertices m s = none) := by
  constructor
  · simp only [bind_outcome]
    rw [bind_few m self data hk]
  · intro s hs
    exact set_simplex_vertices_few m s (by omega)

theorem bind_few_classes_witness :
    class_count (poly_evaluator 2 : ABCFunc ℚ).uniq_act_ (one_class_data : Data ℚ).act < 2 ∧
    bind_outcome (Libm.mk (fun x => x) (fun x => x) (fun x _ => x) (fun _ => none))
      (poly_evaluator 2 : ABCFunc ℚ) one_class_data = Except.error Fault.out_of_bounds ∧
    (∀ s : ABCFunc ℚ, s.k_ = class_count (poly_evaluator 2 : ABCFunc ℚ).uniq_act_
        (one_class_data : Data ℚ).act →
      set_simplex_vertices (Libm.mk (fun x => x) (fun x => x) (fun x _ => x) (fun _ => none))
        s = none) :=
  ⟨by decide, bind_few_classes _ _ _ (by decide)⟩

/-! ## The kernel string -/

/-- The call `::toupper` leaves a character alone or maps a lower-case letter to an
upper-case letter. -/
theorem toUpper_cases (ch : Char) :
    Char.toUpper ch = ch ∨ (65 ≤ (Char.toUpper ch).toNat ∧ (Char.toUpper ch).toNat ≤ 90 ∧
      97 ≤ ch.toNat ∧ ch.toNat ≤ 122) := by
  by_cases h : ch.toNat ≥ 97 ∧ ch.toNat ≤ 122
  · right
    have e : ch = Char.ofNat ch.toNat := (Char.ofNat_toNat ch).symm
    obtain ⟨h1, h2⟩ := h
    generalize ch.toNat = n at *
    subst e
    interval_cases n <;> decide
  · left
    simp [Char.toUpper, h]

/-- The call `::toupper` maps white space to white space and other characters to other
characters. -/
theorem toUpper_space (ch : Char) :
    (Char.toUpper ch = ' ' ∨ Char.toUpper ch = '\t' ∨ Char.toUpper ch = '\n' ∨
      Char.toUpper ch = '\r' ∨ (Char.toUpper ch).toNat = 11 ∨ (Char.toUpper ch).toNat = 12) ↔
    (ch = ' ' ∨ ch = '\t' ∨ ch = '\n' ∨ ch = '\r' ∨ ch.toNat = 11 ∨ ch.toNat = 12) := by
  have key : ∀ d : Char, (d = ' ' ∨ d = '\t' ∨ d = '\n' ∨ d = '\r' ∨ d.toNat = 11 ∨
      d.toNat = 12) → d.toNat < 65 := by
    intro d hd
    rcases hd with h | h | h | h | h | h
    · subst h; decide
    · subst h; decide
    · subst h; decide
    · subst h; decide
    · omega
    · omega
  rcases toUpper_cases ch with h | ⟨h1, h2, h3, h4⟩
  · rw [h]
  · constructor
    · intro hd
      have := key _ hd
      omega
    · intro hd
      have := key _ hd
      omega

/-- Splitting the upper-cased string into tokens gives the upper-cased tokens of the
string. -/
theorem tokens_aux_upper (kernel : List Char) : ∀ cur : List Char,
    tokens_aux (kernel.map Char.toUpper) (cur.map Char.toUpper)
      = (tokens_aux kernel cur).map (List.map Char.toUpper) := by
  induction kernel with
  | nil =>
    intro cur
    cases cur with
    | nil => simp [tokens_aux]
    | cons a t => simp [tokens_aux, List.map_reverse]
  | cons ch rest ih =>
    intro cur
    simp only [List.map_cons, tokens_aux]
    by_cases hs : ch = ' ' ∨ ch = '\t' ∨ ch = '\n' ∨ ch = '\r' ∨ ch.toNat = 11 ∨ ch.toNat = 12
    · rw [if_pos ((toUpper_space ch).2 hs), if_pos hs]
      have ih0 := ih []
      simp only [List.map_nil] at ih0
      cases cur with
      | nil => simpa using ih0
      | cons a t => simp [ih0, List.map_reverse]
    · rw [if_neg (fun h => hs ((toUpper_space ch).1 h)), if_neg hs]
      have ih1 := ih (ch :: cur)
      simpa using ih1

/-- C16: a kernel string whose first token is, in upper case, neither `RBF` nor `POLY`
makes the constructor throw the unsupported-kernel error, `GAUSS 1.0` among them; every
spelling in upper and lower case of `RBF 0.5` constructs an evaluator with the RBF kernel
and `sigma_ = -1 / (2 * 0.5 ^ 2)`, and every spelling of `POLY 1.0 2` one with the
polynomial kernel, `shift_ = 1` and `deg_ = 2`.  The values of `std::stod` on the three
number tokens are the hypotheses. -/
theorem ctor_kernel_string {α : Type} [LinearOrderedField α] (m : Libm α) (hw : Nat)
    (c lambda : α) (nthreads : Nat)
    (h05 : m.stod ['0', '.', '5'] = some (1 / 2))
    (h10 : m.stod ['1', '.', '0'] = some 1)
    (h2 : m.stod ['2'] = some 2) :
    (∀ (kernel p0 : List Char), (tokens_aux kernel [])[0]? = some p0 →
      p0.map Char.toUpper ≠ ['R', 'B', 'F'] → p0.map Char.toUpper ≠ ['P', 'O', 'L', 'Y'] →
      ABCFunc.ctor m hw c lambda kernel nthreads
        = Except.error CtorError.unsupported_kernel) ∧
    ABCFunc.ctor m hw c lambda ['G', 'A', 'U', 'S', 'S', ' ', '1', '.', '0'] nthreads
      = Except.error CtorError.unsupported_kernel ∧
    (∀ kernel : List Char, kernel.map Char.toUpper = ['R', 'B', 'F', ' ', '0', '.', '5'] →
      ABCFunc.ctor m hw c lambda kernel nthreads
        = Except.ok { ABCFunc.init hw c lambda nthreads with
            func_ := KernelFn.rbf, sigma_ := -1 / (2 * (1 / 2) ^ 2) }) ∧
    (∀ kernel : List Char,
      kernel.map Char.toUpper = ['P', 'O', 'L', 'Y', ' ', '1', '.', '0', ' ', '2'] →
      ABCFunc.ctor m hw c lambda kernel nthreads
        = Except.ok { ABCFunc.init hw c lambda nthreads with
            func_ := KernelFn.poly, shift_ := 1, deg_ := 2 }) := by
  have hbad : ∀ (kernel p0 : List Char), (tokens_aux kernel [])[0]? = some p0 →
      p0.map Char.toUpper ≠ ['R', 'B', 'F'] → p0.map Char.toUpper ≠ ['P', 'O', 'L', 'Y'] →
      ABCFunc.ctor m hw c lambda kernel nthreads
        = Except.error CtorError.unsupported_kernel := by
    intro kernel p0 hp0 hr hp
    have ht := tokens_aux_upper kernel []
    simp only [List.map_nil] at ht
    have h0 : (tokens_aux (kernel.map Char.toUpper) [])[0]? = some (p0.map Char.toUpper) := by
      rw [ht, List.getElem?_map, hp0]
      rfl
    simp only [ABCFunc.ctor, h0, if_neg hr, if_neg hp]
  refine ⟨hbad, ?_, ?_, ?_⟩
  · exact hbad _ ['G', 'A', 'U', 'S', 'S'] (by decide) (by decide) (by decide)
  · intro kernel hk
    have ht : tokens_aux ['R', 'B', 'F', ' ', '0', '.', '5'] []
        = [['R', 'B', 'F'], ['0', '.', '5']] := by decide
    simp only [ABCFunc.ctor, hk, ht]
    simp [h05]
    norm_num
  · intro kernel hk
    have ht : tokens_aux ['P', 'O', 'L', 'Y', ' ', '1', '.', '0', ' ', '2'] []
        = [['P', 'O', 'L', 'Y'], ['1', '.', '0'], ['2']] := by decide
    simp only [ABCFunc.ctor, hk, ht]
    simp [h10, h2]

/-- C16 with the sample reading of the number tokens, over the rationals. -/
theorem ctor_kernel_string_witness :
    (Libm.mk (fun x => x) (fun x => x) (fun x _ => x) sample_stod : Libm ℚ).stod
        ['0', '.', '5'] = some (1 / 2) ∧
    (Libm.mk (fun x => x) (fun x => x) (fun x _ => x) sample_stod : Libm ℚ).stod
        ['1', '.', '0'] = some 1 ∧
    (Libm.mk (fun x => x) (fun x => x) (fun x _ => x) sample_stod : Libm ℚ).stod
        ['2'] = some 2 ∧
    (∀ (kernel p0 : List Char), (tokens_aux kernel [])[0]? = some p0 →
      p0.map Char.toUpper ≠ ['R', 'B', 'F'] → p0.map Char.toUpper ≠ ['P', 'O', 'L', 'Y'] →
      ABCFunc.ctor (Libm.mk (fun x => x) (fun x => x) (fun x _ => x) sample_stod : Libm ℚ)
          4 1 0 kernel 2
        = Except.error CtorError.unsupported_kernel) ∧
    ABCFunc.ctor (Libm.mk (fun x => x) (fun x => x) (fun x _ => x) sample_stod : Libm ℚ)
        4 1 0 ['G', 'A', 'U', 'S', 'S', ' ', '1', '.', '0'] 2
      = Except.error CtorError.unsupported_kernel ∧
    (∀ kernel : List Char, kernel.map Char.toUpper = ['R', 'B', 'F', ' ', '0', '.', '5'] →
      ABCFunc.ctor (Libm.mk (fun x => x) (fun x => x) (fun x _ => x) sample_stod : Libm ℚ)
          4 1 0 kernel 2
        = Except.ok { ABCFunc.init 4 1 0 2 with
            func_ := KernelFn.rbf, sigma_ := -1 / (2 * (1 / 2) ^ 2) }) ∧
    (∀ kernel : List Char,
      kernel.map Char.toUpper = ['P', 'O', 'L', 'Y', ' ', '1', '.', '0', ' ', '2'] →
      ABCFunc.ctor (Libm.mk (fun x => x) (fun x => x) (fun x _ => x) sample_stod : Libm ℚ)
          4 1 0 kernel 2
        = Except.ok { ABCFunc.init 4 1 0 2 with
            func_ := KernelFn.poly, shift_ := 1, deg_ := 2 }) :=
  ⟨rfl, rfl, rfl, ctor_kernel_string _ 4 1 0 2 rfl rfl rfl⟩

/-! ## The index ranges of the gradient workers -/

/-- C17 fails on two bound datasets with two workers.  On the two-sample dataset
(`total = 3`) the ranges are `[0, 1)` and `[1, 2)`: index 2 is in neither.  On the
three-sample dataset (`total = 4`) they are `[0, 3)` and `[3, 5)`: the second worker is given
index 4, which is not below `total`.  The remainder is taken from `nsample_` instead of
`total`. -/
theorem grad_range_not_partition :
    (∃ s, ABC.bind (Libm.mk Real.sqrt Real.exp Real.rpow (fun _ => none)) (poly_evaluator 2)
        small_data = some s ∧
      s.nthreads_ = 2 ∧ (s.nsample_ + 1) * (s.k_ - 1) = 3 ∧
      grad_range s 0 = (0, 1) ∧ grad_range s 1 = (1, 2) ∧
      ∀ tid, tid < s.nthreads_ → ¬ ((grad_range s tid).1 ≤ 2 ∧ 2 < (grad_range s tid).2)) ∧
    (∃ s, ABC.bind (Libm.mk Real.sqrt Real.exp Real.rpow (fun _ => none)) (poly_evaluator 2)
        sample_data = some s ∧
      s.nthreads_ = 2 ∧ (s.nsample_ + 1) * (s.k_ - 1) = 4 ∧
      grad_range s 0 = (0, 3) ∧ grad_range s 1 = (3, 5) ∧
      (s.nsample_ + 1) * (s.k_ - 1) < (grad_range s 1).2) := by
  constructor
  · obtain ⟨kmat, -, hb⟩ := small_bind
    have e0 : grad_range ({ bind_dims (poly_evaluator 2) small_data with
          uniq_act_ := [3, 5], k_ := 2, act_ := [1, 0], resp_ := [2, -2],
          w_ := [1, 1 + Real.sqrt 2], wt_ := [1, -1], kmat_ := kmat } : ABCFunc ℝ) 0
        = (0, 1) := by
      simp [grad_range, bind_dims, poly_evaluator, small_data, ABCFunc.init]
    have e1 : grad_range ({ bind_dims (poly_evaluator 2) small_data with
          uniq_act_ := [3, 5], k_ := 2, act_ := [1, 0], resp_ := [2, -2],
          w_ := [1, 1 + Real.sqrt 2], wt_ := [1, -1], kmat_ := kmat } : ABCFunc ℝ) 1
        = (1, 2) := by
      simp [grad_range, bind_dims, poly_evaluator, small_data, ABCFunc.init]
    refine ⟨_, hb, rfl, rfl, e0, e1, ?_⟩
    intro tid htid
    have htid2 : tid < 2 := htid
    interval_cases tid
    · rw [e0]
      omega
    · rw [e1]
      omega
  · obtain ⟨s, hb, -, hn, hk, hnt, -⟩ := bind_spec
      (Libm.mk Real.sqrt Real.exp Real.rpow (fun _ => none))
      (poly_evaluator 2 : ABCFunc ℝ) sample_data rfl (by decide) (by decide)
    have hn3 : s.nsample_ = 3 := hn
    have hk2 : s.k_ = 2 := by rw [hk]; decide
    have hnt2 : s.nthreads_ = 2 := hnt
    have e0 : grad_range s 0 = (0, 3) := by simp [grad_range, hn3, hk2, hnt2]
    have e1 : grad_range s 1 = (3, 5) := by simp [grad_range, hn3, hk2, hnt2]
    refine ⟨s, hb, hnt2, by rw [hn3, hk2], e0, e1, ?_⟩
    rw [e1, hn3, hk2]
    decide

/-! ## The cells a kernel worker evaluates -/

/-- A loop that skips the indices failing a test is the loop over the indices passing it. -/
theorem foldlM_filter_map {σ β : Type} (p : Nat → Bool) (g : Nat → β)
    (f : σ → β → Option σ) : ∀ (l : List Nat) (s : σ),
    l.foldlM (fun s x => if p x = true then f s (g x) else pure s) s
      = ((l.filter p).map g).foldlM f s := by
  intro l
  induction l with
  | nil => intro s; rfl
  | cons x l ih =>
    intro s
    rw [List.foldlM_cons]
    by_cases hp : p x = true
    · rw [if_pos hp, List.filter_cons_of_pos hp, List.map_cons, List.foldlM_cons]
      cases f s (g x) with
      | none => rfl
      | some s1 => exact ih s1
    · rw [if_neg hp, List.filter_cons_of_neg hp]
      exact ih s

/-- The `while` loop of `kernel_worker` performs the body on the cells of
`kernel_worker_while_cells`, in that order. -/
theorem kernel_worker_while_cells_run {α : Type} [LinearOrderedField α] (m : Libm α)
    (self : ABCFunc α) (d : List α) (first i j bound : Nat) (kmat : List α) :
    kernel_worker_while m self d first i j bound kmat
      = (kernel_worker_while_cells first i j bound).foldlM (kernel_cell_step m self d) kmat := by
  unfold kernel_worker_while kernel_worker_while_cells
  rw [← foldlM_filter_map (fun iter => decide (iter ≥ first)) (fun iter => (iter, i, i + iter - j))
    (kernel_cell_step m self d)]
  congr 1
  funext km iter
  by_cases h : iter ≥ first
  · simp only [h, if_true, decide_True, kernel_cell_step]
  · simp only [h, if_false, decide_False]
    rfl

/-- The row loop of `kernel_worker` performs the body on the cells of
`kernel_worker_rows_cells`, in that order. -/
theorem kernel_worker_rows_cells_run {α : Type} [LinearOrderedField α] (m : Libm α)
    (self : ABCFunc α) (d : List α) (first last : Nat) :
    ∀ rows i iter (kmat : List α),
      kernel_worker_rows m self d first last rows i iter kmat
        = (kernel_worker_rows_cells self.nsample_ first last rows i iter).foldlM
            (kernel_cell_step m self d) kmat := by
  intro rows
  induction rows with
  | zero => intro i iter kmat; rfl
  | succ rows ih =>
    intro i iter kmat
    simp only [kernel_worker_rows, kernel_worker_rows_cells]
    by_cases h1 : iter + self.nsample_ - i - 1 < first
    · rw [if_pos h1, if_pos h1]
      exact ih _ _ _
    · rw [if_neg h1, if_neg h1]
      by_cases h2 : last ≥ iter
      · rw [if_pos h2, if_pos h2, List.foldlM_append, kernel_worker_while_cells_run]
        cases (kernel_worker_while_cells first i iter
          (min last (iter + self.nsample_ - i - 1))).foldlM (kernel_cell_step m self d) kmat with
        | none => rfl
        | some km1 =>
          simp only [Option.some_bind, Option.bind_eq_bind]
          by_cases h3 : max iter (min last (iter + self.nsample_ - i - 1) + 1) > last
          · rw [if_pos h3, if_pos h3]
            rfl
          · rw [if_neg h3, if_neg h3]
            exact ih _ _ _
      · rw [if_neg h2, if_neg h2]
        exact ih _ _ _

/-- The call `kernel_worker (d, tid)` performs the body on the cells of
`kernel_worker_cells`, in that order. -/
theorem kernel_worker_cells_run {α : Type} [LinearOrderedField α] (m : Libm α)
    (self : ABCFunc α) (d : List α) (tid : Nat) (kmat : List α) :
    kernel_worker m self d tid kmat
      = (kernel_worker_cells self tid).foldlM (kernel_cell_step m self d) kmat :=
  kernel_worker_rows_cells_run m self d _ _ _ _ _ _

/-- The cells of the `while` loop in row `i`: the ranks `max first j .. bound`. -/
theorem mem_kernel_worker_while_cells (first i j bound r a b : Nat) :
    (r, a, b) ∈ kernel_worker_while_cells first i j bound ↔
      j ≤ r ∧ r ≤ bound ∧ first ≤ r ∧ a = i ∧ b = i + r - j := by
  simp only [kernel_worker_while_cells, List.mem_map, List.mem_filter, List.mem_range'_1,
    decide_eq_true_eq, Prod.mk.injEq]
  constructor
  · rintro ⟨it, ⟨⟨h1, h2⟩, h3⟩, rfl, rfl, rfl⟩
    exact ⟨h1, by omega, h3, rfl, rfl⟩
  · rintro ⟨h1, h2, h3, rfl, rfl⟩
    exact ⟨r, ⟨⟨h1, by omega⟩, h3⟩, rfl, rfl, rfl⟩

/-- The ranks of the cells of the `while` loop increase. -/
theorem kernel_worker_while_cells_sorted (first i j bound : Nat) :
    (kernel_worker_while_cells first i j bound).Pairwise (fun c1 c2 => c1.1 < c2.1) := by
  unfold kernel_worker_while_cells
  rw [List.pairwise_map]
  exact (List.pairwise_lt_range' j (bound + 1 - j)).filter _

/-- Once `iter` has passed `last`, the row loop of `kernel_worker` evaluates nothing. -/
theorem kernel_worker_rows_cells_done (n first last : Nat) :
    ∀ rows i iter, i + rows = n → last < iter →
      kernel_worker_rows_cells n first last rows i iter = [] := by
  intro rows
  induction rows with
  | zero => intro i iter _ _; rfl
  | succ rows ih =>
    intro i iter hi hlt
    simp only [kernel_worker_rows_cells]
    by_cases h1 : iter + n - i - 1 < first
    · rw [if_pos h1]
      exact ih (i + 1) _ (by omega) (by omega)
    · rw [if_neg h1, if_neg (by omega)]
      exact ih (i + 1) iter (by omega) hlt

/-- The cells the row loop of `kernel_worker` evaluates from row `i` on: the upper-triangle
cells of the rows `≥ i` whose rank lies in `[first, last]`, each with its rank. -/
theorem mem_kernel_worker_rows_cells (n first last : Nat) :
    ∀ rows i, i + rows = n → ∀ r a b,
      ((r, a, b) ∈ kernel_worker_rows_cells n first last rows i (tri_start n i) ↔
        i ≤ a ∧ a ≤ b ∧ b < n ∧ r = tri_start n a + (b - a) ∧ first ≤ r ∧ r ≤ last) := by
  intro rows
  induction rows with
  | zero =>
    intro i hi r a b
    simp only [kernel_worker_rows_cells, List.not_mem_nil, false_iff]
    omega
  | succ rows ih =>
    intro i hi r a b
    have hin : i < n := by omega
    have hnext : tri_start n (i + 1) = tri_start n i + n - i - 1 + 1 := by
      simp only [tri_start]; omega
    have hmono : ∀ a, i + 1 ≤ a → tri_start n (i + 1) ≤ tri_start n a :=
      fun a ha => tri_start_mono n (i + 1) a ha
    simp only [kernel_worker_rows_cells]
    by_cases h1 : tri_start n i + n - i - 1 < first
    · rw [if_pos h1, ← hnext, ih (i + 1) (by omega)]
      constructor
      · rintro ⟨p1, p2, p3, p4, p5, p6⟩
        exact ⟨by omega, p2, p3, p4, p5, p6⟩
      · rintro ⟨p1, p2, p3, p4, p5, p6⟩
        refine ⟨?_, p2, p3, p4, p5, p6⟩
        rcases Nat.eq_or_lt_of_le p1 with h | h
        · subst h; omega
        · exact h
    · rw [if_neg h1]
      by_cases h2 : last ≥ tri_start n i
      · rw [if_pos h2, List.mem_append, mem_kernel_worker_while_cells]
        by_cases h3 : max (tri_start n i) (min last (tri_start n i + n - i - 1) + 1) > last
        · rw [if_pos h3]
          have hmin : min last (tri_start n i + n - i - 1) = last := by
            rcases le_total last (tri_start n i + n - i - 1) with h | h
            · exact min_eq_left h
            · rw [min_eq_right h] at h3 ⊢
              have := max_lt_iff.mpr ⟨Nat.lt_succ_of_le h2, Nat.lt_succ_of_le h⟩
              omega
          have hle : last ≤ tri_start n i + n - i - 1 := by
            rw [← hmin]; exact min_le_right _ _
          rw [hmin]
          simp only [List.not_mem_nil, or_false]
          constructor
          · rintro ⟨p1, p2, p3, rfl, rfl⟩
            refine ⟨le_rfl, by omega, by omega, by omega, p3, p2⟩
          · rintro ⟨p1, p2, p3, p4, p5, p6⟩
            rcases Nat.eq_or_lt_of_le p1 with h | h
            · subst h
              exact ⟨by omega, p6, p5, rfl, by omega⟩
            · have := hmono a h
              omega
        · rw [if_neg h3]
          have hmin : min last (tri_start n i + n - i - 1) = tri_start n i + n - i - 1 := by
            rcases le_total last (tri_start n i + n - i - 1) with h | h
            · exfalso; apply h3
              rw [min_eq_left h]
              exact lt_of_lt_of_le (Nat.lt_succ_self _) (le_max_right _ _)
            · exact min_eq_right h
          have hiter : max (tri_start n i) (min last (tri_start n i + n - i - 1) + 1)
              = tri_start n (i + 1) := by
            rw [hmin, ← hnext]
            apply max_eq_right
            rw [hnext]; omega
          have hlast : tri_start n (i + 1) ≤ last := by
            rw [hiter] at h3; omega
          rw [hiter, ih (i + 1) (by omega), hmin]
          constructor
          · rintro (⟨p1, p2, p3, rfl, rfl⟩ | ⟨p1, p2, p3, p4, p5, p6⟩)
            · refine ⟨le_rfl, by omega, by omega, by omega, p3, by omega⟩
            · exact ⟨by omega, p2, p3, p4, p5, p6⟩
          · rintro ⟨p1, p2, p3, p4, p5, p6⟩
            rcases Nat.eq_or_lt_of_le p1 with h | h
            · subst h
              left
              exact ⟨by omega, by omega, p5, rfl, by omega⟩
            · right
              exact ⟨h, p2, p3, p4, p5, p6⟩
      · rw [if_neg h2, kernel_worker_rows_cells_done n first last rows (i + 1) _ (by omega)
          (by omega)]
        simp only [List.not_mem_nil, false_iff]
        rintro ⟨p1, p2, p3, p4, p5, p6⟩
        have := tri_start_mono n i a p1
        omega

/-- The ranks of the cells the row loop of `kernel_worker` evaluates increase: no cell is
evaluated twice by one worker. -/
theorem kernel_worker_rows_cells_sorted (n first last : Nat) :
    ∀ rows i, i + rows = n →
      (kernel_worker_rows_cells n first last rows i (tri_start n i)).Pairwise
        (fun c1 c2 => c1.1 < c2.1) := by
  intro rows
  induction rows with
  | zero => intro i _; exact List.Pairwise.nil
  | succ rows ih =>
    intro i hi
    have hnext : tri_start n (i + 1) = tri_start n i + n - i - 1 + 1 := by
      simp only [tri_start]; omega
    simp only [kernel_worker_rows_cells]
    by_cases h1 : tri_start n i + n - i - 1 < first
    · rw [if_pos h1, ← hnext]
      exact ih (i + 1) (by omega)
    · rw [if_neg h1]
      by_cases h2 : last ≥ tri_start n i
      · rw [if_pos h2]
        by_cases h3 : max (tri_start n i) (min last (tri_start n i + n - i - 1) + 1) > last
        · rw [if_pos h3, List.append_nil]
          exact kernel_worker_while_cells_sorted _ _ _ _
        · rw [if_neg h3]
          have hmin : min last (tri_start n i + n - i - 1) = tri_start n i + n - i - 1 := by
            rcases le_total last (tri_start n i + n - i - 1) with h | h
            · exfalso; apply h3
              rw [min_eq_left h]
              exact lt_of_lt_of_le (Nat.lt_succ_self _) (le_max_right _ _)
            · exact min_eq_right h
          have hiter : max (tri_start n i) (min last (tri_start n i + n - i - 1) + 1)
              = tri_start n (i + 1) := by
            rw [hmin, ← hnext]
            apply max_eq_right
            rw [hnext]; omega
          rw [hiter, hmin]
          refine List.pairwise_append.2 ⟨kernel_worker_while_cells_sorted _ _ _ _,
            ih (i + 1) (by omega), ?_⟩
          rintro ⟨r1, a1, b1⟩ hc1 ⟨r2, a2, b2⟩ hc2
          rw [mem_kernel_worker_while_cells] at hc1
          rw [mem_kernel_worker_rows_cells n first last rows (i + 1) (by omega)] at hc2
          obtain ⟨-, q2, -, -, -⟩ := hc1
          obtain ⟨p1, -, -, p4, -, -⟩ := hc2
          have := tri_start_mono n (i + 1) a2 p1
          show r1 < r2
          omega
      · rw [if_neg h2, kernel_worker_rows_cells_done n first last rows (i + 1) _ (by omega)
          (by omega)]
        exact List.Pairwise.nil

/-- The rank of an upper-triangle cell is below the number of such cells. -/
theorem tri_rank_lt (n a b : Nat) (hab : a ≤ b) (hb : b < n) :
    tri_start n a + (b - a) < tri_start n n := by
  have h1 : tri_start n (a + 1) = tri_start n a + (n - a) := rfl
  have h2 := tri_start_mono n (a + 1) n (by omega)
  omega

/-- Every rank below the number of upper-triangle cells is the rank of one such cell. -/
theorem tri_rank_exists (n r : Nat) (hr : r < tri_start n n) :
    ∃ a b, a ≤ b ∧ b < n ∧ r = tri_start n a + (b - a) := by
  have key : ∀ i, i ≤ n → r < tri_start n i →
      ∃ a, a < i ∧ tri_start n a ≤ r ∧ r < tri_start n (a + 1) := by
    intro i
    induction i with
    | zero => intro _ h; simp [tri_start] at h
    | succ i ih =>
      intro hi h
      by_cases h1 : r < tri_start n i
      · obtain ⟨a, p1, p2, p3⟩ := ih (by omega) h1
        exact ⟨a, by omega, p2, p3⟩
      · exact ⟨i, by omega, by omega, h⟩
  obtain ⟨a, p1, p2, p3⟩ := key n le_rfl hr
  have h1 : tri_start n (a + 1) = tri_start n a + (n - a) := rfl
  exact ⟨a, a + (r - tri_start n a), by omega, by omega, by omega⟩

/-- The ranges of two workers of the contiguous-range partition do not meet. -/
theorem partition_unique (total nt r t1 t2 : Nat)
    (h1 : (t1 < total % nt ∧ (total / nt + 1) * t1 ≤ r ∧
          r < (total / nt + 1) * t1 + (total / nt + 1)) ∨
       (¬ t1 < total % nt ∧ total / nt * t1 + total % nt ≤ r ∧
          r < total / nt * t1 + total % nt + total / nt))
    (h2 : (t2 < total % nt ∧ (total / nt + 1) * t2 ≤ r ∧
          r < (total / nt + 1) * t2 + (total / nt + 1)) ∨
       (¬ t2 < total % nt ∧ total / nt * t2 + total % nt ≤ r ∧
          r < total / nt * t2 + total % nt + total / nt)) :
    t1 = t2 := by
  generalize total / nt = pw at h1 h2
  generalize total % nt = rem at h1 h2
  have e1 : (pw + 1) * t1 = pw * t1 + t1 := by ring
  have e2 : (pw + 1) * t2 = pw * t2 + t2 := by ring
  rw [e1] at h1
  rw [e2] at h2
  rcases lt_trichotomy t1 t2 with h | h | h
  · have hm : pw * (t1 + 1) ≤ pw * t2 := Nat.mul_le_mul_left pw h
    have e3 : pw * (t1 + 1) = pw * t1 + pw := by ring
    omega
  · exact h
  · have hm : pw * (t2 + 1) ≤ pw * t1 := Nat.mul_le_mul_left pw h
    have e3 : pw * (t2 + 1) = pw * t2 + pw := by ring
    omega

/-- The closed rank range `[first, last]` of `kernel_worker`, cut at the number of
upper-triangle cells, is the half-open range of the contiguous-range partition. -/
theorem kernel_range_half_open {α : Type} [LinearOrderedField α] (self : ABCFunc α)
    (tid r : Nat) (htid : tid < self.nthreads_) :
    ((kernel_range self tid).1 ≤ r ∧ r ≤ (kernel_range self tid).2 ∧
      r < self.nsample_ * (self.nsample_ + 1) / 2) ↔
    ((tid < self.nsample_ * (self.nsample_ + 1) / 2 % self.nthreads_ ∧
        (self.nsample_ * (self.nsample_ + 1) / 2 / self.nthreads_ + 1) * tid ≤ r ∧
        r < (self.nsample_ * (self.nsample_ + 1) / 2 / self.nthreads_ + 1) * tid +
          (self.nsample_ * (self.nsample_ + 1) / 2 / self.nthreads_ + 1)) ∨
      (¬ tid < self.nsample_ * (self.nsample_ + 1) / 2 % self.nthreads_ ∧
        self.nsample_ * (self.nsample_ + 1) / 2 / self.nthreads_ * tid +
          self.nsample_ * (self.nsample_ + 1) / 2 % self.nthreads_ ≤ r ∧
        r < self.nsample_ * (self.nsample_ + 1) / 2 / self.nthreads_ * tid +
          self.nsample_ * (self.nsample_ + 1) / 2 % self.nthreads_ +
          self.nsample_ * (self.nsample_ + 1) / 2 / self.nthreads_)) := by
  unfold kernel_range
  simp only
  generalize self.nsample_ * (self.nsample_ + 1) / 2 = total
  have hb := partition_bound total self.nthreads_ tid htid
  have hdm : self.nthreads_ * (total / self.nthreads_) + total % self.nthreads_ = total :=
    Nat.div_add_mod total self.nthreads_
  have hrem : total % self.nthreads_ < self.nthreads_ := Nat.mod_lt _ (by omega)
  generalize total / self.nthreads_ = pw at hb hdm ⊢
  generalize total % self.nthreads_ = rem at hb hdm hrem ⊢
  by_cases h : tid < rem
  · have := hb.1 h
    simp only [if_pos h]
    constructor
    · rintro ⟨p1, p2, p3⟩
      exact Or.inl ⟨h, p1, by omega⟩
    · rintro (⟨-, p1, p2⟩ | ⟨q, -, -⟩)
      · exact ⟨p1, by omega, by omega⟩
      · exact absurd h q
  · have := hb.2 h
    simp only [if_neg h]
    constructor
    · rintro ⟨p1, p2, p3⟩
      refine Or.inr ⟨h, p1, ?_⟩
      rcases Nat.eq_zero_or_pos pw with h0 | h0
      · subst h0
        simp only [Nat.mul_zero, Nat.zero_mul, Nat.zero_add, Nat.add_zero] at *
        omega
      · omega
    · rintro (⟨q, -, -⟩ | ⟨-, p1, p2⟩)
      · exact absurd q h
      · exact ⟨p1, by omega, by omega⟩

/-- The cells the call `kernel_worker (d, tid)` evaluates: the upper-triangle cells whose
rank lies in the range `[first, last]` of the worker, each with its rank. -/
theorem mem_kernel_worker_cells {α : Type} [LinearOrderedField α] (self : ABCFunc α)
    (tid r a b : Nat) :
    (r, a, b) ∈ kernel_worker_cells self tid ↔
      a ≤ b ∧ b < self.nsample_ ∧ r = tri_start self.nsample_ a + (b - a) ∧
      (kernel_range self tid).1 ≤ r ∧ r ≤ (kernel_range self tid).2 := by
  have h := mem_kernel_worker_rows_cells self.nsample_ (kernel_range self tid).1
    (kernel_range self tid).2 self.nsample_ 0 (by omega) r a b
  simp only [tri_start] at h
  simp only [kernel_worker_cells]
  rw [h]
  constructor
  · rintro ⟨-, p2, p3, p4, p5, p6⟩
    exact ⟨p2, p3, p4, p5, p6⟩
  · rintro ⟨p2, p3, p4, p5, p6⟩
    exact ⟨Nat.zero_le _, p2, p3, p4, p5, p6⟩

/-- The ranks the call `kernel_worker (d, tid)` evaluates: the half-open range of the
contiguous-range partition of `total = n (n + 1) / 2`. -/
theorem mem_kernel_worker_ranks {α : Type} [LinearOrderedField α] (self : ABCFunc α)
    (tid r : Nat) :
    r ∈ (kernel_worker_cells self tid).map (fun c => c.1) ↔
      (kernel_range self tid).1 ≤ r ∧ r ≤ (kernel_range self tid).2 ∧
      r < self.nsample_ * (self.nsample_ + 1) / 2 := by
  rw [← tri_start_total]
  simp only [List.mem_map, Prod.exists]
  constructor
  · rintro ⟨r', a, b, hc, rfl⟩
    obtain ⟨p1, p2, p3, p4, p5⟩ := (mem_kernel_worker_cells self tid r' a b).1 hc
    refine ⟨p4, p5, ?_⟩
    rw [p3]
    exact tri_rank_lt _ _ _ p1 p2
  · rintro ⟨p1, p2, p3⟩
    obtain ⟨a, b, q1, q2, q3⟩ := tri_rank_exists _ _ p3
    exact ⟨r, a, b, (mem_kernel_worker_cells self tid r a b).2 ⟨q1, q2, q3, p1, p2⟩, rfl⟩

/-- No worker evaluates a rank twice. -/
theorem kernel_worker_ranks_nodup {α : Type} [LinearOrderedField α] (self : ABCFunc α)
    (tid : Nat) : ((kernel_worker_cells self tid).map (fun c => c.1)).Nodup := by
  have h := kernel_worker_rows_cells_sorted self.nsample_ (kernel_range self tid).1
    (kernel_range self tid).2 self.nsample_ 0 (by omega)
  simp only [tri_start] at h
  unfold List.Nodup
  rw [List.pairwise_map]
  exact h.imp (fun hlt => Nat.ne_of_lt hlt)

/-- C18: for every sample count and every worker count `nthreads_ ≥ 1`, the cells the calls
`kernel_worker (d, tid)`, `tid < nthreads_`, evaluate tile the upper triangle.  Each worker
evaluates the cells `(a, b)`, `a ≤ b < n`, whose rank lies in its range and none twice; the
rank sets of two workers do not meet; their union is `[0, n (n + 1) / 2)`; worker `tid`
evaluates `total / nthreads_` ranks and one more when `tid < total % nthreads_` (none when
that number is 0); every upper-triangle cell is evaluated by exactly one worker. -/
theorem kernel_workers_tile {α : Type} [LinearOrderedField α] (self : ABCFunc α)
    (hnt : 1 ≤ self.nthreads_) :
    (∀ tid r a b, (r, a, b) ∈ kernel_worker_cells self tid ↔
      a ≤ b ∧ b < self.nsample_ ∧ r = tri_start self.nsample_ a + (b - a) ∧
      (kernel_range self tid).1 ≤ r ∧ r ≤ (kernel_range self tid).2) ∧
    (∀ tid, ((kernel_worker_cells self tid).map (fun c => c.1)).Nodup) ∧
    (∀ t1 t2 r, t1 < self.nthreads_ → t2 < self.nthreads_ →
      r ∈ (kernel_worker_cells self t1).map (fun c => c.1) →
      r ∈ (kernel_worker_cells self t2).map (fun c => c.1) → t1 = t2) ∧
    (∀ r, (∃ tid, tid < self.nthreads_ ∧
        r ∈ (kernel_worker_cells self tid).map (fun c => c.1)) ↔
      r < self.nsample_ * (self.nsample_ + 1) / 2) ∧
    (∀ tid, tid < self.nthreads_ →
      (kernel_worker_cells self tid).length =
        self.nsample_ * (self.nsample_ + 1) / 2 / self.nthreads_ +
          (if tid < self.nsample_ * (self.nsample_ + 1) / 2 % self.nthreads_ then 1 else 0)) ∧
    (∀ a b, a ≤ b → b < self.nsample_ →
      ∃! tid, tid < self.nthreads_ ∧ ∃ r, (r, a, b) ∈ kernel_worker_cells self tid) := by
  have hdisj : ∀ t1 t2 r, t1 < self.nthreads_ → t2 < self.nthreads_ →
      ((kernel_range self t1).1 ≤ r ∧ r ≤ (kernel_range self t1).2 ∧
        r < self.nsample_ * (self.nsample_ + 1) / 2) →
      ((kernel_range self t2).1 ≤ r ∧ r ≤ (kernel_range self t2).2 ∧
        r < self.nsample_ * (self.nsample_ + 1) / 2) → t1 = t2 := by
    intro t1 t2 r h1 h2 p1 p2
    exact partition_unique _ self.nthreads_ r t1 t2
      ((kernel_range_half_open self t1 r h1).1 p1) ((kernel_range_half_open self t2 r h2).1 p2)
  have hcover : ∀ r, r < self.nsample_ * (self.nsample_ + 1) / 2 →
      ∃ tid, tid < self.nthreads_ ∧ (kernel_range self tid).1 ≤ r ∧
        r ≤ (kernel_range self tid).2 := by
    intro r hr
    obtain ⟨tid, h1, h2⟩ := partition_cover _ self.nthreads_ r hnt hr
    obtain ⟨p1, p2, -⟩ := (kernel_range_half_open self tid r h1).2 h2
    exact ⟨tid, h1, p1, p2⟩
  refine ⟨mem_kernel_worker_cells self, kernel_worker_ranks_nodup self, ?_, ?_, ?_, ?_⟩
  · intro t1 t2 r h1 h2 p1 p2
    exact hdisj t1 t2 r h1 h2 ((mem_kernel_worker_ranks self t1 r).1 p1)
      ((mem_kernel_worker_ranks self t2 r).1 p2)
  · intro r
    constructor
    · rintro ⟨tid, -, h⟩
      exact ((mem_kernel_worker_ranks self tid r).1 h).2.2
    · intro hr
      obtain ⟨tid, h1, p1, p2⟩ := hcover r hr
      exact ⟨tid, h1, (mem_kernel_worker_ranks self tid r).2 ⟨p1, p2, hr⟩⟩
  · intro tid htid
    have hlen : (kernel_worker_cells self tid).length
        = ((kernel_worker_cells self tid).map (fun c => c.1)).toFinset.card := by
      rw [List.toFinset_card_of_nodup (kernel_worker_ranks_nodup self tid), List.length_map]
    rw [hlen]
    by_cases h : tid < self.nsample_ * (self.nsample_ + 1) / 2 % self.nthreads_
    · have e : ((kernel_worker_cells self tid).map (fun c => c.1)).toFinset
          = Finset.Ico ((self.nsample_ * (self.nsample_ + 1) / 2 / self.nthreads_ + 1) * tid)
              ((self.nsample_ * (self.nsample_ + 1) / 2 / self.nthreads_ + 1) * tid +
                (self.nsample_ * (self.nsample_ + 1) / 2 / self.nthreads_ + 1)) := by
        ext r
        rw [List.mem_toFinset, mem_kernel_worker_ranks, kernel_range_half_open self tid r htid,
          Finset.mem_Ico]
        constructor
        · rintro (⟨-, p1, p2⟩ | ⟨q, -, -⟩)
          · exact ⟨p1, p2⟩
          · exact absurd h q
        · rintro ⟨p1, p2⟩
          exact Or.inl ⟨h, p1, p2⟩
      rw [e, Nat.card_Ico, if_pos h, Nat.add_sub_cancel_left]
    · have e : ((kernel_worker_cells self tid).map (fun c => c.1)).toFinset
          = Finset.Ico (self.nsample_ * (self.nsample_ + 1) / 2 / self.nthreads_ * tid +
                self.nsample_ * (self.nsample_ + 1) / 2 % self.nthreads_)
              (self.nsample_ * (self.nsample_ + 1) / 2 / self.nthreads_ * tid +
                self.nsample_ * (self.nsample_ + 1) / 2 % self.nthreads_ +
                self.nsample_ * (self.nsample_ + 1) / 2 / self.nthreads_) := by
        ext r
        rw [List.mem_toFinset, mem_kernel_worker_ranks, kernel_range_half_open self tid r htid,
          Finset.mem_Ico]
        constructor
        · rintro (⟨q, -, -⟩ | ⟨-, p1, p2⟩)
          · exact absurd q h
          · exact ⟨p1, p2⟩
        · rintro ⟨p1, p2⟩
          exact Or.inr ⟨h, p1, p2⟩
      rw [e, Nat.card_Ico, if_neg h, Nat.add_sub_cancel_left]
      rfl
  · intro a b hab hb
    have hr : tri_start self.nsample_ a + (b - a) < self.nsample_ * (self.nsample_ + 1) / 2 := by
      rw [← tri_start_total]
      exact tri_rank_lt _ _ _ hab hb
    obtain ⟨tid, h1, p1, p2⟩ := hcover _ hr
    refine ⟨tid, ⟨h1, _, (mem_kernel_worker_cells self tid _ a b).2 ⟨hab, hb, rfl, p1, p2⟩⟩, ?_⟩
    rintro t2 ⟨h2, r2, hc⟩
    obtain ⟨-, -, q3, q4, q5⟩ := (mem_kernel_worker_cells self t2 r2 a b).1 hc
    subst q3
    exact hdisj t2 tid _ h2 h1 ⟨q4, q5, hr⟩ ⟨p1, p2, hr⟩

/-- C18 on the three-sample dataset with eight workers, more than the six cells of the
upper triangle. -/
theorem kernel_workers_tile_witness :
    1 ≤ ({ bind_dims (poly_evaluator 8) sample_data with nthreads_ := 8 } : ABCFunc ℚ).nthreads_ ∧
    kernel_worker_cells
      ({ bind_dims (poly_evaluator 8) sample_data with nthreads_ := 8 } : ABCFunc ℚ) 4
      = [(4, 1, 2)] ∧
    kernel_worker_cells
      ({ bind_dims (poly_evaluator 8) sample_data with nthreads_ := 8 } : ABCFunc ℚ) 6 = [] ∧
    (∀ a b, a ≤ b →
      b < ({ bind_dims (poly_evaluator 8) sample_data with nthreads_ := 8 } : ABCFunc ℚ).nsample_ →
      ∃! tid, tid < ({ bind_dims (poly_evaluator 8) sample_data with
          nthreads_ := 8 } : ABCFunc ℚ).nthreads_ ∧
        ∃ r, (r, a, b) ∈ kernel_worker_cells
          ({ bind_dims (poly_evaluator 8) sample_data with nthreads_ := 8 } : ABCFunc ℚ) tid) :=
  ⟨by decide, by decide, by decide,
    (kernel_workers_tile _ (by decide)).2.2.2.2.2⟩

/-! ## The reads of the gradient workers -/

/-- In a state with `n = nsample_ ≥ 1` whose `kmat_` has `n * n` entries, the gradient entry
of an index `i` with `i % (n + 1) = n` takes row `n` of the kernel matrix: its first read
`kmat_[n * n]` is outside the buffer. -/
theorem grad_entry_last_row {α : Type} [LinearOrderedField α] (self : ABCFunc α)
    (du : List α) (i : Nat) (hn : 1 ≤ self.nsample_)
    (hk : self.kmat_.length = self.nsample_ * self.nsample_)
    (hp : i % (self.nsample_ + 1) = self.nsample_) :
    grad_entry self du i = none := by
  have hp0 : ¬ i % (self.nsample_ + 1) = 0 := by omega
  have hread : self.kmat_[self.nsample_ * self.nsample_ + 0]? = none := by
    rw [List.getElem?_eq_none_iff]
    omega
  obtain ⟨n', hn'⟩ : ∃ n', self.nsample_ = n' + 1 := ⟨self.nsample_ - 1, by omega⟩
  simp only [grad_entry]
  rw [if_neg hp0, hp, show List.range' 0 self.nsample_ = 0 :: List.range' 1 n' by
    rw [hn']; rfl, List.foldlM_cons]
  simp only [hread, Option.bind_eq_bind, Option.pure_def]
  cases du[0]? <;> rfl

/-- C19 fails on the two-sample dataset bound with one worker: `n = 2`, `k = 2`, `kmat_` has
4 entries and the only worker has the range `[0, 3)`.  At index 2 it takes row `p = 2` of
the kernel matrix and reads `kmat_[4]`; in the embedding `grad_worker` returns `none` for
every `du` and `g`. -/
theorem grad_worker_reads_outside :
    ∃ s, ABC.bind (Libm.mk Real.sqrt Real.exp Real.rpow (fun _ => none)) (poly_evaluator 1)
        small_data = some s ∧
      s.nsample_ = 2 ∧ s.k_ = 2 ∧ s.nthreads_ = 1 ∧ s.kmat_.length = 4 ∧
      grad_range s 0 = (0, 3) ∧
      s.kmat_[(2 % (s.nsample_ + 1)) * s.nsample_ + 0]? = none ∧
      (∀ du g : List ℝ, grad_entry s du 2 = none ∧ grad_worker s 0 du g = none) := by
  obtain ⟨s, hb, hbs, hn, hk, hnt, -⟩ := bind_spec
    (Libm.mk Real.sqrt Real.exp Real.rpow (fun _ => none))
    (poly_evaluator 1 : ABCFunc ℝ) small_data rfl (by decide) (by decide)
  have hn2 : s.nsample_ = 2 := hn
  have hk2 : s.k_ = 2 := by rw [hk]; decide
  have hnt1 : s.nthreads_ = 1 := hnt
  have hlen : s.kmat_.length = 4 := by rw [hbs.2.2.2.2.2, hn2]
  have hr : grad_range s 0 = (0, 3) := by simp [grad_range, hn2, hk2, hnt1]
  have hentry : ∀ du : List ℝ, grad_entry s du 2 = none := fun du =>
    grad_entry_last_row s du 2 (by omega) hbs.2.2.2.2.2 (by rw [hn2])
  refine ⟨s, hb, hn2, hk2, hnt1, hlen, hr, ?_, ?_⟩
  · rw [List.getElem?_eq_none_iff, hlen, hn2]
  · intro du g
    refine ⟨hentry du, ?_⟩
    simp only [grad_worker, hr]
    rw [show List.range' 0 (3 - 0) = [0, 1, 2] by rfl]
    simp only [List.foldlM_cons, List.foldlM_nil, hn2, hentry du]
    have hz : ∀ init : List ℝ, (store init 2 0).bind
        (fun a => (none : Option ℝ).bind (fun a_1 => store a 2 a_1)) = none := by
      intro init
      cases store init 2 0 <;> rfl
    simp [hz]

/-! ## Sign of the loss and of the objective -/

/-- The state `bind` leaves for the two-sample dataset on the evaluator with robustness
constant 1/10. -/
theorem small_bind_tenth :
    ∃ kmat : List ℝ, kmat.length = 4 ∧
      ABC.bind (Libm.mk Real.sqrt Real.exp Real.rpow (fun _ => none)) (poly_evaluator_tenth)
        small_data = some { bind_dims (poly_evaluator_tenth) small_data with
          uniq_act_ := [3, 5], k_ := 2, act_ := [1, 0], resp_ := [2, -2],
          w_ := [1, 1 + Real.sqrt 2], wt_ := [1, -1], kmat_ := kmat } := by
  have e1 : parse_actions (bind_dims (poly_evaluator_tenth : ABCFunc ℝ) small_data)
      (small_data : Data ℝ).act = some { bind_dims (poly_evaluator_tenth) small_data with
          uniq_act_ := [3, 5], k_ := 2, act_ := [1, 0] } := by
    simp [parse_actions, bind_dims, poly_evaluator_tenth, small_data, ABCFunc.init, resize, store,
      List.range', set_insert, map_lookup]
  have e2 : scale_response ({ bind_dims (poly_evaluator_tenth) small_data with
          uniq_act_ := [3, 5], k_ := 2, act_ := [1, 0] } : ABCFunc ℝ)
      (small_data : Data ℝ).resp (small_data : Data ℝ).prob
      = some { bind_dims (poly_evaluator_tenth) small_data with
          uniq_act_ := [3, 5], k_ := 2, act_ := [1, 0], resp_ := [2, -2] } := by
    simp [scale_response, bind_dims, poly_evaluator_tenth, small_data, ABCFunc.init, resize, store,
      List.range']
  have e3 : set_simplex_vertices (Libm.mk Real.sqrt Real.exp Real.rpow (fun _ => none))
      ({ bind_dims (poly_evaluator_tenth) small_data with
          uniq_act_ := [3, 5], k_ := 2, act_ := [1, 0], resp_ := [2, -2] } : ABCFunc ℝ)
      = some { bind_dims (poly_evaluator_tenth) small_data with
          uniq_act_ := [3, 5], k_ := 2, act_ := [1, 0], resp_ := [2, -2],
          w_ := [1, 1 + Real.sqrt 2], wt_ := [1, -1] } := by
    simp [set_simplex_vertices, simplex_c1, simplex_c2, simplex_c3, bind_dims, poly_evaluator_tenth,
      small_data, ABCFunc.init, resize, fill, store, List.range']
  have e4 := compute_kernel_matrix_spec (Libm.mk Real.sqrt Real.exp Real.rpow (fun _ => none))
    ({ bind_dims (poly_evaluator_tenth) small_data with
          uniq_act_ := [3, 5], k_ := 2, act_ := [1, 0], resp_ := [2, -2],
          w_ := [1, 1 + Real.sqrt 2], wt_ := [1, -1] } : ABCFunc ℝ) small_data rfl
    ⟨rfl, rfl, rfl, rfl, rfl, rfl⟩ (by decide)
  refine ⟨(List.range' 0 (2 * 2)).map (fun t => kernel_spec
    (Libm.mk Real.sqrt Real.exp Real.rpow (fun _ => none))
    ({ bind_dims (poly_evaluator_tenth) small_data with
          uniq_act_ := [3, 5], k_ := 2, act_ := [1, 0], resp_ := [2, -2],
          w_ := [1, 1 + Real.sqrt 2], wt_ := [1, -1] } : ABCFunc ℝ) small_data (t / 2) (t % 2)),
    by simp, ?_⟩
  simp only [ABC.bind, Option.bind_eq_bind, e1, Option.some_bind, e2, e3]
  exact e4

/-- The value-only evaluation on the two-sample state of the evaluator with robustness
constant 1/10 along the first coordinate of `x`, called after an evaluator with robustness
constant 10. -/
theorem small_eval_f_stale (k00 k01 k10 k11 t : ℝ) :
    (eval_f ({ bind_dims poly_evaluator_tenth small_data with
          uniq_act_ := [3, 5], k_ := 2, act_ := [1, 0], resp_ := [2, -2],
          w_ := [1, 1 + Real.sqrt 2], wt_ := [1, -1], kmat_ := [k00, k01, k10, k11] } : ABCFunc ℝ)
      [t, 0, 0] stale_statics).map Prod.fst
      = some (2 * (loss_p poly_evaluator_tenth ((1 + Real.sqrt 2) * t) stale_statics).1 +
        2 * (loss_m poly_evaluator_tenth t stale_statics).1) := by
  simp [eval_f, compute_loss, loss_worker, loss_range, loss_sample, inner_product,
    inner_product_with, eval_value_loop, loss_p, loss_m, static_init, stale_statics_eq,
    bind_dims, poly_evaluator_tenth, small_data, ABCFunc.init, store, List.range']
  rw [if_neg (by norm_num)]
  split_ifs <;> rfl

/-- The loss `loss_p_spec` of the specification is positive everywhere. -/
theorem loss_p_pos (self : ABCFunc ℝ) (hc : 0 < self.c_)
    (hθ : self.thres_ = self.c_ / (1 + self.c_)) (u : ℝ) : 0 < loss_p_spec self u := by
  simp only [loss_p_spec]
  split_ifs with h
  · have := loss_p_den self.c_ self.thres_ u hc hθ h
    apply div_pos one_pos
    linarith
  · have h1 : self.thres_ < 1 := by
      rw [hθ, div_lt_one (by linarith)]
      linarith
    have h2 : u < self.thres_ := lt_of_not_ge h
    linarith

/-- The loss `loss_m_spec` of the specification is positive everywhere. -/
theorem loss_m_pos (self : ABCFunc ℝ) (hc : 0 < self.c_)
    (hθ : self.thres_ = self.c_ / (1 + self.c_)) (u : ℝ) : 0 < loss_m_spec self u := by
  simp only [loss_m_spec]
  split_ifs with h
  · have := loss_m_den self.c_ self.thres_ u hc hθ h
    apply div_pos one_pos
    linarith
  · have h1 : self.thres_ < 1 := by
      rw [hθ, div_lt_one (by linarith)]
      linarith
    have h2 : -u < self.thres_ := lt_of_not_ge h
    linarith

/-- While the statics hold the constants of the evaluator itself (as for the first evaluator
of a process) the objective is not negative. -/
theorem objective_spec_nonneg (self : ABCFunc ℝ) (hc : 0 < self.c_)
    (hθ : self.thres_ = self.c_ / (1 + self.c_)) (st : Statics ℝ) (hst : Statics.own self st)
    (x : List ℝ) : 0 ≤ objective_spec self x st := by
  unfold objective_spec
  apply Finset.sum_nonneg
  intro i _
  apply mul_nonneg (abs_nonneg _)
  split_ifs
  · rw [(loss_own self st hst _).1]
    exact (loss_p_pos self hc hθ _).le
  · rw [(loss_own self st hst _).2.1]
    exact (loss_m_pos self hc hθ _).le

/-- While the statics hold the constants of the evaluator itself, the value-only evaluation
of a bound evaluator returns a value that is not negative. -/
theorem eval_f_nonneg_own (self : ABCFunc ℝ) (hc : 0 < self.c_)
    (hθ : self.thres_ = self.c_ / (1 + self.c_)) (st : Statics ℝ) (hst : Statics.own self st)
    (x : List ℝ) (hb : bound_state self)
    (hx : x.length = (self.nsample_ + 1) * (self.k_ - 1)) (hnt : 1 ≤ self.nthreads_) :
    ∃ f st', eval_f self x st = some (f, st') ∧ 0 ≤ f := by
  obtain ⟨st', h, -⟩ := eval_f_spec self x hb hx hnt st
  exact ⟨_, st', h, objective_spec_nonneg self hc hθ st hst x⟩

/-- The threshold of the evaluator with robustness constant 1/10. -/
theorem thres_poly_tenth : (poly_evaluator_tenth : ABCFunc ℝ).thres_ = 1 / 11 := by
  norm_num [poly_evaluator_tenth, ABCFunc.init]

/-- The function `loss_p` of the evaluator with robustness constant 1/10, called after an
evaluator with robustness constant 10. -/
theorem loss_p_poly_stale (u : ℝ) :
    (loss_p poly_evaluator_tenth u stale_statics).1
      = if u ≥ 1 / 11 then 1 / (121 * u + -99) else 1 - u := by
  simp only [loss_p, stale_statics_eq, static_init, thres_poly_tenth]

/-- The function `loss_m` of the evaluator with robustness constant 1/10, called after an
evaluator with robustness constant 10. -/
theorem loss_m_poly_stale (u : ℝ) :
    (loss_m poly_evaluator_tenth u stale_statics).1
      = if -u ≥ 1 / 11 then 1 / (-99 - 121 * u) else 1 + u := by
  simp only [loss_m, stale_statics_eq, static_init, thres_poly_tenth]

/-- C20 fails for an evaluator with robustness constant c = 1/10 (θ = 1/11) whose calls
follow those of an evaluator with robustness constant 10 (statics c1 = 121, c2 = -99): at
u = 1/2 the rational branch of `loss_p` divides by -77/2, which is below 1 + c; at u = 9/11
it divides by 0; at the junction `loss_p` and `loss_m` return -1/88; and on the bound
two-sample dataset the value-only evaluation returns a negative `f` at
x = [-989/1210, 0, 0]. -/
theorem loss_stale_negative :
    0 < (poly_evaluator_tenth : ABCFunc ℝ).c_ ∧
    (poly_evaluator_tenth : ABCFunc ℝ).thres_ = (poly_evaluator_tenth : ABCFunc ℝ).c_ /
      (1 + (poly_evaluator_tenth : ABCFunc ℝ).c_) ∧
    (1 / 2 : ℝ) ≥ (poly_evaluator_tenth : ABCFunc ℝ).thres_ ∧
    (loss_p poly_evaluator_tenth (1 / 2 : ℝ) stale_statics).1 = 1 / (121 * (1 / 2) + -99) ∧
    (121 * (1 / 2) + -99 : ℝ) < 1 + (poly_evaluator_tenth : ABCFunc ℝ).c_ ∧
    (9 / 11 : ℝ) ≥ (poly_evaluator_tenth : ABCFunc ℝ).thres_ ∧
    (loss_p poly_evaluator_tenth (9 / 11 : ℝ) stale_statics).1 = 1 / (121 * (9 / 11) + -99) ∧
    (121 * (9 / 11) + -99 : ℝ) = 0 ∧
    (loss_p poly_evaluator_tenth (1 / 11 : ℝ) stale_statics).1 = -(1 / 88) ∧
    (loss_m poly_evaluator_tenth (-(1 / 11) : ℝ) stale_statics).1 = -(1 / 88) ∧
    ∃ self f st', ABC.bind (Libm.mk Real.sqrt Real.exp Real.rpow (fun _ => none))
        poly_evaluator_tenth small_data = some self ∧
      eval_f self [-(989 / 1210), 0, 0] stale_statics = some (f, st') ∧ f < 0 := by
  refine ⟨by norm_num [poly_evaluator_tenth, ABCFunc.init], rfl,
    by rw [thres_poly_tenth]; norm_num, ?_, by norm_num [poly_evaluator_tenth, ABCFunc.init],
    by rw [thres_poly_tenth]; norm_num, ?_, by norm_num, ?_, ?_, ?_⟩
  · rw [loss_p_poly_stale, if_pos (by norm_num)]
  · rw [loss_p_poly_stale, if_pos (by norm_num)]
  · rw [loss_p_poly_stale, if_pos (by norm_num)]
    norm_num
  · rw [loss_m_poly_stale, if_pos (by norm_num)]
    norm_num
  · obtain ⟨kmat, hl, hb⟩ := small_bind_tenth
    obtain ⟨k00, k01, k10, k11, rfl⟩ : ∃ a b c d, kmat = [a, b, c, d] := by
      match kmat, hl with
      | [a, b, c, d], _ => exact ⟨a, b, c, d, rfl⟩
    have h := small_eval_f_stale k00 k01 k10 k11 (-(989 / 1210))
    rw [Option.map_eq_some'] at h
    obtain ⟨⟨f, st'⟩, h1, h2⟩ := h
    simp only at h2
    refine ⟨_, f, st', hb, h1, ?_⟩
    rw [h2, loss_p_poly_stale, loss_m_poly_stale]
    have hs0 : 0 ≤ Real.sqrt 2 := Real.sqrt_nonneg 2
    have hs2 : Real.sqrt 2 ≤ 2 := Real.sqrt_le_iff.mpr ⟨by norm_num, by norm_num⟩
    rw [if_neg (by nlinarith), if_pos (by norm_num)]
    norm_num
    nlinarith

end ABC
